import Mathlib

/-!
# mu find: query running, result output and reference lists

A shallow embedding of `src/mu/mu-cmd-find.cc` (the `mu find` command) and of the
reference-list resolver described for `mu_msg_get_references`.

Conventions of the embedding.

* A `GError**` out-parameter is a returned `Option GError`: the caller passes a
  location that holds no error, and the callee hands back what it stored there.
* Calls that leave the command (the store, the output functions and what they
  spawn, link or print) are recorded, in order, in a trace of `Event`s.
* Functions and tables that live outside the translated file (`field_from_name`,
  the store, the bookmark file, the file system) are fields of `Store` and `Env`.
-/

namespace Mu

/-! ## Data model -/

/-- Error codes (`MuError`) that occur in `mu-cmd-find.cc`; `MU_ERROR_OTHER` stands
for the codes that only helpers outside the file produce. -/
inductive MuError where
  | MU_OK
  | MU_ERROR
  | MU_ERROR_IN_PARAMETERS
  | MU_ERROR_INTERNAL
  | MU_ERROR_NO_MATCHES
  | MU_ERROR_FILE_CANNOT_OPEN
  | MU_ERROR_FILE_CANNOT_READ
  | MU_ERROR_OTHER (code : Nat)
  deriving DecidableEq, Repr

/-- A `GError`: an error code and a message. -/
structure GError where
  code : MuError
  message : String
  deriving DecidableEq, Repr

/-- Identifier of a message field (`Field::Id`). -/
abbrev FieldId := Nat

/-- A message field as returned by `field_from_name`; only its id is used here. -/
structure Field where
  id : FieldId
  deriving DecidableEq, Repr

/-- The enumerators of `QueryFlags` other than `None`; `Other` stands for the bits
that `mu-cmd-find.cc` never names. -/
inductive QueryFlag where
  | Descending
  | SkipDuplicates
  | IncludeRelated
  | Threading
  | Other (bit : Nat)
  deriving DecidableEq, Repr

/-- A `QueryFlags` bitset: one bit per named enumerator, and the other bits that
are set. -/
structure QueryFlags where
  descending : Bool
  skip_duplicates : Bool
  include_related : Bool
  threading : Bool
  other : List Nat
  deriving DecidableEq, Repr

/-- The empty bitset, `QueryFlags::None`. -/
def QueryFlags.None : QueryFlags := ⟨false, false, false, false, []⟩

/-- The operation `qflags |= flag`. -/
def QueryFlags.or (q : QueryFlags) : QueryFlag → QueryFlags
  | .Descending => { q with descending := true }
  | .SkipDuplicates => { q with skip_duplicates := true }
  | .IncludeRelated => { q with include_related := true }
  | .Threading => { q with threading := true }
  | .Other bit => { q with other := bit :: q.other }

/-- The test `any_of(qflags & flag)`. -/
def QueryFlags.has (q : QueryFlags) : QueryFlag → Bool
  | .Descending => q.descending
  | .SkipDuplicates => q.skip_duplicates
  | .IncludeRelated => q.include_related
  | .Threading => q.threading
  | .Other bit => decide (bit ∈ q.other)

/-- The structural flags of a `QueryMatch`. -/
structure MatchFlags where
  root : Bool
  first : Bool
  last : Bool
  orphan : Bool
  duplicate : Bool
  related : Bool
  deriving DecidableEq, Repr

/-- Per-result match information (`QueryMatch`). -/
structure QueryMatch where
  flags : MatchFlags
  thread_level : Nat
  thread_path : String
  deriving DecidableEq, Repr

/-- What the command reads from a loaded message (`MuMsg`). -/
structure MuMsg where
  path : String
  timestamp : Int
  deriving DecidableEq, Repr

/-- One element of a `QueryResults` sequence. -/
structure QueryResult where
  floating_msg : Option MuMsg
  doc_id : Nat
  query_match : QueryMatch
  deriving DecidableEq, Repr

/-- The result sequence of a query; `size()` is its length, `empty()` its emptiness. -/
abbrev QueryResults := List QueryResult

/-- Output formats (`MuConfigFormat`); `MU_CONFIG_FORMAT_UNKNOWN` stands for every
value that is none of the named ones. -/
inductive MuConfigFormat where
  | MU_CONFIG_FORMAT_UNKNOWN
  | MU_CONFIG_FORMAT_PLAIN
  | MU_CONFIG_FORMAT_LINKS
  | MU_CONFIG_FORMAT_XML
  | MU_CONFIG_FORMAT_SEXP
  | MU_CONFIG_FORMAT_JSON
  | MU_CONFIG_FORMAT_XQUERY
  | MU_CONFIG_FORMAT_MQUERY
  | MU_CONFIG_FORMAT_EXEC
  deriving DecidableEq, Repr

/-- Sub-commands (`MuConfigCmd`); only `find` is told apart. -/
inductive MuConfigCmd where
  | MU_CONFIG_CMD_FIND
  | MU_CONFIG_CMD_OTHER
  deriving DecidableEq, Repr

/-- The fields of `MuConfig` that `mu-cmd-find.cc` reads. A `const char*` that may
be null is an `Option String`; `params` is the null-terminated argument vector, with
`params[0]` the command name. -/
structure MuConfig where
  cmd : MuConfigCmd
  params : List String
  sortfield : Option String
  reverse : Bool
  skip_dups : Bool
  include_related : Bool
  threads : Bool
  maxnum : Int
  format : MuConfigFormat
  formatstr : Option String
  exec : Option String
  linksdir : Option String
  clearlinks : Bool
  bookmark : Option String
  after : Int
  fields : String
  summary_len : Int
  nocolor : Bool
  debug : Bool
  verbose : Bool
  deriving DecidableEq, Repr

/-- Information handed to an output function with each call (`OutputInfo`). -/
structure OutputInfo where
  docid : Nat
  header : Bool
  footer : Bool
  last : Bool
  match_info : Option QueryMatch
  deriving DecidableEq, Repr

/-- The pseudo-output before the first result. -/
def FirstOutput : OutputInfo := ⟨0, true, false, false, none⟩

/-- The pseudo-output after the last result. -/
def LastOutput : OutputInfo := ⟨0, false, true, false, none⟩

/-- The output functions, one per value `get_output_func` can return. -/
inductive OutputFunc where
  | output_link
  | exec_cmd
  | output_plain
  | output_xml
  | output_sexp
  | output_json
  deriving DecidableEq, Repr

/-- Calls that leave the command, as recorded in a trace. -/
inductive Event where
  /-- The call `store.parse_query(expr, xapian)` -/
  | parse_query (expr : String) (xapian : Bool)
  /-- The call `store.run_query(expr, sortfield_id, qflags, maxnum)` -/
  | run_query (expr : String) (sortfield_id : FieldId) (qflags : QueryFlags) (maxnum : Int)
  /-- A call `output_func(msg, info, opts, err)` -/
  | output (func : OutputFunc) (msg : Option MuMsg) (info : OutputInfo)
  /-- The call of `g_spawn_command_line_sync` on the command built from `opts->exec` and the path -/
  | spawn (exec : Option String) (path : Option String)
  /-- The call `mu_maildir_mkdir(opts->linksdir, 0700, true)` -/
  | mkdir_links (linksdir : Option String)
  /-- The call `mu_maildir_clear_links(opts->linksdir)` -/
  | clear_links (linksdir : Option String)
  /-- The call `mu_maildir_link(path, opts->linksdir)` -/
  | link (path : Option String) (linksdir : Option String)
  /-- Literal text written to standard output -/
  | print (text : String)
  /-- A message rendered to standard output by `func`, followed by `suffix` -/
  | print_msg (func : OutputFunc) (msg : Option MuMsg) (docid : Nat) (suffix : String)
  deriving DecidableEq, Repr

/-- Whether the event is a use of the store. -/
def Event.is_store_call : Event → Bool
  | .parse_query _ _ => true
  | .run_query _ _ _ _ => true
  | _ => false

/-- Whether the event is a call of an output function. -/
def Event.is_output_call : Event → Bool
  | .output _ _ _ => true
  | _ => false

/-- The store, as far as `mu find` uses it. -/
structure Store where
  run_query : String → FieldId → QueryFlags → Int → Option QueryResults
  parse_query : String → Bool → String

/-- What the command consults outside its own file. -/
structure Env where
  /-- The call `field_from_name` of `message/mu-fields.hh` -/
  field_from_name : String → Option Field
  /-- The macro `MU_G_ERROR_CODE` of `utils/mu-util.h` -/
  MU_G_ERROR_CODE : Option GError → MuError
  /-- The call `mu_runtime_path(MU_RUNTIME_PATH_XAPIANDB)` -/
  xapiandb_path : String
  /-- The call `mu_util_check_dir(xpath, TRUE, FALSE)` -/
  check_dir : String → Bool
  /-- The call `mu_runtime_path(MU_RUNTIME_PATH_BOOKMARKS)` -/
  bookmarks_path : String
  /-- The call `mu_bookmarks_new(bmfile)`: when the file opens, the lookup table -/
  bookmarks_new : String → Option (String → Option String)
  /-- Result of `g_spawn_command_line_sync`: success, or the error it sets -/
  spawn : Option String → Option String → Option GError
  /-- Result of `mu_maildir_mkdir` -/
  maildir_mkdir : Option String → Option GError
  /-- Result of `mu_maildir_clear_links` -/
  maildir_clear_links : Option String → Option GError
  /-- Result of `mu_maildir_link` -/
  maildir_link : Option String → Option String → Option GError

/-- A return value together with the error stored through `err` and the calls made. -/
structure Ret (α : Type) where
  val : α
  err : Option GError
  trace : List Event
  deriving DecidableEq, Repr

/-- How a call ends: it returns, or it runs into undefined behaviour (reading the
value out of an empty `Option`) after the calls in `trace`. -/
inductive Outcome (α : Type) where
  | returns (r : Ret α)
  | undefined (trace : List Event)
  deriving DecidableEq, Repr

/-- The calls made, however the call ended. -/
def Outcome.trace {α : Type} : Outcome α → List Event
  | .returns r => r.trace
  | .undefined t => t

/-! ## `run_query` -/

/-- Translation of `run_query` (mu-cmd-find.cc:73-95). -/
def run_query (env : Env) (store : Store) (expr : String) (opts : MuConfig) :
    Outcome (Option QueryResults) :=
  let sortfield := env.field_from_name (match opts.sortfield with
    | some s => s
    | none => "")
  if sortfield.isNone && opts.sortfield.isSome then
    .returns ⟨none,
      some ⟨.MU_ERROR_IN_PARAMETERS,
        "invvalid sort field: '" ++ opts.sortfield.getD "" ++ "'\n"⟩, []⟩
  else
    let qflags := QueryFlags.None
    let qflags := if opts.reverse then qflags.or .Descending else qflags
    let qflags := if opts.skip_dups then qflags.or .SkipDuplicates else qflags
    let qflags := if opts.include_related then qflags.or .IncludeRelated else qflags
    let qflags := if opts.threads then qflags.or .Threading else qflags
    match sortfield with
    | none => .undefined []
    | some field =>
      .returns ⟨store.run_query expr field.id qflags opts.maxnum, none,
        [Event.run_query expr field.id qflags opts.maxnum]⟩

/-! ## Output functions -/

/-- The GLib rule for storing an error: a location that already holds one keeps it. -/
def g_set_error (err : Option GError) (e : GError) : Option GError :=
  match err with
  | none => some e
  | some old => some old

/-- Translation of `exec_cmd` (mu-cmd-find.cc:97-113): spawn `opts->exec` on the
path of the message; the result is that of the spawn. -/
def exec_cmd (env : Env) (msg : Option MuMsg) (_info : OutputInfo) (opts : MuConfig) :
    Ret Bool :=
  let path := msg.map MuMsg.path
  let rv := env.spawn opts.exec path
  ⟨rv.isNone, rv, [Event.spawn opts.exec path]⟩

/-- Translation of `prepare_links` (mu-cmd-find.cc:182-201). -/
def prepare_links (env : Env) (opts : MuConfig) : Ret Bool :=
  match env.maildir_mkdir opts.linksdir with
  | some e => ⟨false, some e, [Event.mkdir_links opts.linksdir]⟩
  | none =>
    if !opts.clearlinks then
      ⟨true, none, [Event.mkdir_links opts.linksdir]⟩
    else
      match env.maildir_clear_links opts.linksdir with
      | some e =>
        ⟨false, some e, [Event.mkdir_links opts.linksdir, Event.clear_links opts.linksdir]⟩
      | none =>
        ⟨true, none, [Event.mkdir_links opts.linksdir, Event.clear_links opts.linksdir]⟩

/-- Translation of `output_link` (mu-cmd-find.cc:203-216). -/
def output_link (env : Env) (msg : Option MuMsg) (info : OutputInfo) (opts : MuConfig) :
    Ret Bool :=
  if info.header then prepare_links env opts
  else if info.footer then ⟨true, none, []⟩
  else
    let path := msg.map MuMsg.path
    match env.maildir_link path opts.linksdir with
    | some e => ⟨false, some e, [Event.link path opts.linksdir]⟩
    | none => ⟨true, none, [Event.link path opts.linksdir]⟩

/-- The indentation loop of `thread_indent`:
`for (auto i = info.thread_level; i > 1; --i) fputs("  ", stdout)`. -/
def thread_indent_loop : Nat → String
  | 0 => ""
  | i + 1 => if i + 1 > 1 then "  " ++ thread_indent_loop i else ""

/-- Translation of `thread_indent` (mu-cmd-find.cc:347-376): the text it writes. -/
def thread_indent (info : QueryMatch) (opts : MuConfig) : String :=
  let is_root := info.flags.root
  let first_child := info.flags.first
  let last_child := info.flags.last
  let empty_parent := info.flags.orphan
  let is_dup := info.flags.duplicate
  let indent :=
    if opts.debug then info.thread_path ++ " "
    else thread_indent_loop info.thread_level
  if !is_root then
    indent
      ++ (if first_child then "\\" else if last_child then "/" else " ")
      ++ (if empty_parent then "*> " else if is_dup then "=> " else "-> ")
  else indent

/-- Translation of `output_plain` (mu-cmd-find.cc:403-421); the rendering of the
fields and of the summary is one `print_msg` event. -/
def output_plain (msg : Option MuMsg) (info : OutputInfo) (opts : MuConfig) : Ret Bool :=
  match msg with
  | none => ⟨true, none, []⟩
  | some m =>
    let indent :=
      match info.match_info with
      | some mi => if opts.threads then [Event.print (thread_indent mi opts)] else []
      | none => []
    ⟨true, none, indent ++ [Event.print_msg .output_plain (some m) info.docid ""]⟩

/-- Translation of `output_sexp` (mu-cmd-find.cc:471-481). -/
def output_sexp (msg : Option MuMsg) (_info : OutputInfo) (_opts : MuConfig) : Ret Bool :=
  match msg with
  | none => ⟨true, none, []⟩
  | some m => ⟨true, none, [Event.print_msg .output_sexp (some m) 0 "\n"]⟩

/-- Translation of `output_json` (mu-cmd-find.cc:483-501): a comma follows every
element whose `info.last` is unset. -/
def output_json (msg : Option MuMsg) (info : OutputInfo) (_opts : MuConfig) : Ret Bool :=
  if info.header then ⟨true, none, [Event.print "[\n"]⟩
  else if info.footer then ⟨true, none, [Event.print "]\n"]⟩
  else
    ⟨true, none,
      [Event.print_msg .output_json msg info.docid ((if info.last then "" else ",") ++ "\n")]⟩

/-- Translation of `output_xml` (mu-cmd-find.cc:516-543). -/
def output_xml (msg : Option MuMsg) (info : OutputInfo) (_opts : MuConfig) : Ret Bool :=
  if info.header then
    ⟨true, none, [Event.print "<?xml version=\"1.0\" encoding=\"UTF-8\" ?>\n",
      Event.print "<messages>\n"]⟩
  else if info.footer then ⟨true, none, [Event.print "</messages>\n"]⟩
  else ⟨true, none, [Event.print_msg .output_xml msg 0 ""]⟩

/-- A call `output_func(msg, info, opts, err)` through the `std::function`: the call
is recorded, then the function runs. -/
def call_output_func (env : Env) (func : OutputFunc) (msg : Option MuMsg) (info : OutputInfo)
    (opts : MuConfig) : Ret Bool :=
  let r :=
    match func with
    | .output_link => output_link env msg info opts
    | .exec_cmd => exec_cmd env msg info opts
    | .output_plain => output_plain msg info opts
    | .output_xml => output_xml msg info opts
    | .output_sexp => output_sexp msg info opts
    | .output_json => output_json msg info opts
  ⟨r.val, r.err, Event.output func msg info :: r.trace⟩

/-- Translation of `get_output_func` (mu-cmd-find.cc:545-558); `none` is the null
function of the `default:` branch. -/
def get_output_func (opts : MuConfig) : Option OutputFunc :=
  match opts.format with
  | .MU_CONFIG_FORMAT_LINKS => some .output_link
  | .MU_CONFIG_FORMAT_EXEC => some .exec_cmd
  | .MU_CONFIG_FORMAT_PLAIN => some .output_plain
  | .MU_CONFIG_FORMAT_XML => some .output_xml
  | .MU_CONFIG_FORMAT_SEXP => some .output_sexp
  | .MU_CONFIG_FORMAT_JSON => some .output_json
  | _ => none

/-! ## `output_query_results` -/

/-- The `for (auto&& item : qres)` loop of `output_query_results`
(mu-cmd-find.cc:570-590), started with counter `n` and return value `rv`; `size` is
`qres.size()`. -/
def output_results_loop (env : Env) (func : OutputFunc) (opts : MuConfig) (size : Nat) :
    List QueryResult → Nat → Bool → Ret Bool
  | [], _, rv => ⟨rv, none, []⟩
  | item :: rest, n, rv =>
    let n := n + 1
    match item.floating_msg with
    | none => output_results_loop env func opts size rest n rv
    | some msg =>
      if opts.after != 0 && msg.timestamp < opts.after then
        output_results_loop env func opts size rest n rv
      else
        let r := call_output_func env func (some msg)
          ⟨item.doc_id, false, false, n == size, some item.query_match⟩ opts
        if !r.val then ⟨r.val, r.err, r.trace⟩
        else
          let k := output_results_loop env func opts size rest n r.val
          ⟨k.val, r.err.orElse (fun _ => k.err), r.trace ++ k.trace⟩

/-- Translation of `output_query_results` (mu-cmd-find.cc:560-594). The header and
footer calls get a null `err`, so an error they set is dropped. -/
def output_query_results (env : Env) (qres : QueryResults) (opts : MuConfig) : Ret Bool :=
  match get_output_func opts with
  | none => ⟨false, none, []⟩
  | some func =>
    let first := call_output_func env func none FirstOutput opts
    let body := output_results_loop env func opts qres.length qres 0 true
    let last := call_output_func env func none LastOutput opts
    ⟨body.val, body.err, first.trace ++ body.trace ++ last.trace⟩

/-! ## The query pipeline -/

/-- Translation of `process_query` (mu-cmd-find.cc:596-609). -/
def process_query (env : Env) (store : Store) (expr : String) (opts : MuConfig) :
    Outcome Bool :=
  match run_query env store expr opts with
  | .undefined t => .undefined t
  | .returns r =>
    match r.val with
    | none => .returns ⟨false, r.err, r.trace⟩
    | some qres =>
      if qres.isEmpty then
        .returns ⟨false,
          g_set_error r.err ⟨.MU_ERROR_NO_MATCHES, "no matches for search expression"⟩,
          r.trace⟩
      else
        let o := output_query_results env qres opts
        .returns ⟨o.val, r.err.orElse (fun _ => o.err), r.trace ++ o.trace⟩

/-- Translation of `print_internal` (mu-cmd-find.cc:61-71). -/
def print_internal (store : Store) (expr : String) (xapian : Bool) (_warn : Bool) :
    Ret Bool :=
  ⟨true, none,
    [Event.parse_query expr xapian, Event.print (store.parse_query expr xapian ++ "\n")]⟩

/-- Translation of `resolve_bookmark` (mu-cmd-find.cc:115-145). -/
def resolve_bookmark (env : Env) (opts : MuConfig) : Ret (Option String) :=
  let bmfile := env.bookmarks_path
  match env.bookmarks_new bmfile with
  | none =>
    ⟨none, some ⟨.MU_ERROR_FILE_CANNOT_OPEN,
      "failed to open bookmarks file '" ++ bmfile ++ "'"⟩, []⟩
  | some bm =>
    match bm (opts.bookmark.getD "") with
    | none =>
      ⟨none, some ⟨.MU_ERROR_NO_MATCHES,
        "bookmark '" ++ opts.bookmark.getD "" ++ "' not found"⟩, []⟩
    | some val => ⟨some val, none, []⟩

/-- Translation of `get_query` (mu-cmd-find.cc:147-180). -/
def get_query (env : Env) (opts : MuConfig) : Ret (Option String) :=
  if opts.bookmark.isNone && opts.params[1]?.isNone then
    ⟨none, some ⟨.MU_ERROR_IN_PARAMETERS, "error in parameters"⟩, []⟩
  else
    let query := String.intercalate " " (opts.params.drop 1)
    if opts.bookmark.isSome then
      let b := resolve_bookmark env opts
      match b.val with
      | none => ⟨none, b.err, b.trace⟩
      | some bookmarkval => ⟨some (bookmarkval ++ " " ++ query), b.err, b.trace⟩
    else ⟨some query, none, []⟩

/-- Translation of `execute_find` (mu-cmd-find.cc:611-624). -/
def execute_find (env : Env) (store : Store) (opts : MuConfig) : Outcome Bool :=
  let q := get_query env opts
  match q.val with
  | none => .returns ⟨false, q.err, q.trace⟩
  | some expr =>
    if opts.format = .MU_CONFIG_FORMAT_XQUERY then
      let p := print_internal store expr true false
      .returns ⟨p.val, q.err.orElse (fun _ => p.err), q.trace ++ p.trace⟩
    else if opts.format = .MU_CONFIG_FORMAT_MQUERY then
      let p := print_internal store expr false opts.verbose
      .returns ⟨p.val, q.err.orElse (fun _ => p.err), q.trace ++ p.trace⟩
    else
      match process_query env store expr opts with
      | .undefined t => .undefined (q.trace ++ t)
      | .returns p => .returns ⟨p.val, q.err.orElse (fun _ => p.err), q.trace ++ p.trace⟩

/-- Translation of `format_params_valid` (mu-cmd-find.cc:626-666). -/
def format_params_valid (opts : MuConfig) : Ret Bool :=
  let bad (msg : String) : Ret Bool := ⟨false, some ⟨.MU_ERROR_IN_PARAMETERS, msg⟩, []⟩
  let rest : Ret Bool :=
    if opts.format = .MU_CONFIG_FORMAT_LINKS && opts.linksdir.isNone then
      bad "missing --linksdir argument"
    else if opts.linksdir.isSome && opts.format != .MU_CONFIG_FORMAT_LINKS then
      bad "--linksdir is only valid with --format=links"
    else ⟨true, none, []⟩
  match opts.format with
  | .MU_CONFIG_FORMAT_EXEC => rest
  | .MU_CONFIG_FORMAT_PLAIN
  | .MU_CONFIG_FORMAT_SEXP
  | .MU_CONFIG_FORMAT_JSON
  | .MU_CONFIG_FORMAT_LINKS
  | .MU_CONFIG_FORMAT_XML
  | .MU_CONFIG_FORMAT_XQUERY
  | .MU_CONFIG_FORMAT_MQUERY =>
    if opts.exec.isSome then bad "--exec and --format cannot be combined"
    else rest
  | _ => bad ("invalid output format " ++ opts.formatstr.getD "<none>")

/-- Translation of `query_params_valid` (mu-cmd-find.cc:668-687). -/
def query_params_valid (env : Env) (opts : MuConfig) : Ret Bool :=
  if opts.params[1]?.isNone then
    ⟨false, some ⟨.MU_ERROR_IN_PARAMETERS, "missing query"⟩, []⟩
  else
    let xpath := env.xapiandb_path
    if env.check_dir xpath then ⟨true, none, []⟩
    else
      ⟨false, some ⟨.MU_ERROR_FILE_CANNOT_READ,
        "'" ++ xpath ++ "' is not a readable Xapian directory"⟩, []⟩

/-- The copy `myopts` that `mu_cmd_find` validates and runs: `--exec` selects the
pseudo format. -/
def adjusted_opts (opts : MuConfig) : MuConfig :=
  if opts.exec.isSome then { opts with format := .MU_CONFIG_FORMAT_EXEC } else opts

/-- Translation of `Mu::mu_cmd_find` (mu-cmd-find.cc:689-707); a null `opts` is
`none`. -/
def mu_cmd_find (env : Env) (store : Store) (opts : Option MuConfig) : Outcome MuError :=
  match opts with
  | none => .returns ⟨.MU_ERROR_INTERNAL, none, []⟩
  | some opts =>
    if opts.cmd != .MU_CONFIG_CMD_FIND then .returns ⟨.MU_ERROR_INTERNAL, none, []⟩
    else
      let myopts := adjusted_opts opts
      let q := query_params_valid env myopts
      if !q.val then .returns ⟨env.MU_G_ERROR_CODE q.err, q.err, q.trace⟩
      else
        let f := format_params_valid myopts
        if !f.val then .returns ⟨env.MU_G_ERROR_CODE f.err, f.err, f.trace⟩
        else
          match execute_find env store myopts with
          | .undefined t => .undefined t
          | .returns r =>
            if !r.val then .returns ⟨env.MU_G_ERROR_CODE r.err, r.err, r.trace⟩
            else .returns ⟨.MU_OK, r.err, r.trace⟩

/-! ## The reference-list resolver -/

/-- Modelled from the spec: the body of `mu_msg_get_references` is not among the
sources (`mu-msg.hh` declares it, `test-mu-msg.cc` calls it), and neither is a test
for what makes a token malformed. A token of the chain is skipped when it is empty
or malformed; `malformed` is the test for the latter. -/
def is_token (malformed : String → Bool) (t : String) : Bool :=
  t != "" && !malformed t

/-- Modelled from the spec: the body of `mu_msg_get_references` is not among the
sources. The identifier tokens of a chain, oldest first: malformed and empty tokens
are skipped. -/
def tokens (malformed : String → Bool) (references_chain : List String) : List String :=
  references_chain.filter (is_token malformed)

/-- Modelled from the spec: the body of `mu_msg_get_references` is not among the
sources. The step that appends the back-pointer to the chain if it is present and
not already the last element of the chain; a back-pointer that is an empty or
malformed token is skipped like any other. -/
def append_back_pointer (malformed : String → Bool) (chain : List String)
    (in_reply_to : Option String) : List String :=
  match in_reply_to with
  | none => chain
  | some p =>
    if is_token malformed p && chain.getLast? != some p then chain ++ [p] else chain

/-- Modelled from the spec: the body of `mu_msg_get_references` is not among the
sources. Deduplication by identifier that keeps first-seen order: an identifier
already in `seen` is dropped, a new one is kept where it stands. -/
def dedup_first_seen (seen : List String) : List String → List String
  | [] => []
  | id :: rest =>
    if id ∈ seen then dedup_first_seen seen rest
    else id :: dedup_first_seen (id :: seen) rest

/-- Modelled from the spec: the body of `mu_msg_get_references` is not among the
sources. The contract `resolve(references_chain, in_reply_to) -> ordered_unique_ids`
of the reference-list resolver: skip malformed and empty tokens, append the
back-pointer if present and not already the last element, deduplicate keeping the
first occurrence. -/
def resolve (malformed : String → Bool) (references_chain : List String)
    (in_reply_to : Option String) : List String :=
  dedup_first_seen []
    (append_back_pointer malformed (tokens malformed references_chain) in_reply_to)

/-! ## `xapian_try` -/

/-- What a callable can throw, told apart by the `catch` clause of `xapian_try`
(utils/mu-xapian-utils.hh) that takes it: a `Xapian::Error`, a `std::runtime_error`,
another `std::exception`, or anything else. -/
inductive Thrown where
  | xapian_error (msg : String)
  | runtime_error (what : String)
  | std_exception (what : String)
  | anything_else
  deriving DecidableEq, Repr

/-- How a call of `xapian_try` ends, with the `g_critical` messages it logged: `ok`
is a normal return, `error` an exception that leaves the call. -/
structure TryResult (α : Type) where
  result : Except Thrown α
  criticals : List String

/-- Translation of the one-argument `xapian_try` (mu-xapian-utils.hh:28-42); `func`
is how the call `func()` ends. The function-try-block has one handler per kind of
exception, the last one `catch (...)`. -/
def xapian_try {α : Type} (func : Except Thrown α) : TryResult Unit :=
  match func with
  | .ok _ => ⟨.ok (), []⟩
  | .error (.xapian_error msg) => ⟨.ok (), ["xapian_try: xapian error '" ++ msg ++ "'"]⟩
  | .error (.runtime_error what) => ⟨.ok (), ["xapian_try: error: " ++ what]⟩
  | .error (.std_exception what) => ⟨.ok (), ["xapian_try: caught exception: " ++ what]⟩
  | .error .anything_else => ⟨.ok (), ["xapian_try: caught exception"]⟩

/-- Translation of the two-argument `xapian_try` (mu-xapian-utils.hh:44-61); `func`
is how the call `func()` ends, `defval` the argument `def`. -/
def xapian_try_def {α : Type} (func : Except Thrown α) (defval : α) : TryResult α :=
  match func with
  | .ok val => ⟨.ok val, []⟩
  | .error (.xapian_error msg) =>
    ⟨.ok defval, ["xapian_try: xapian error '" ++ msg ++ "'"]⟩
  | .error (.runtime_error what) => ⟨.ok defval, ["xapian_try: error: " ++ what]⟩
  | .error (.std_exception what) =>
    ⟨.ok defval, ["xapian_try: caught exception: " ++ what]⟩
  | .error .anything_else => ⟨.ok defval, ["xapian_try: caught exception"]⟩

/-! ## `ContactsCache` -/

/-- The members of `ContactsCache` (mu-contacts-cache.hh) that the header declares
without a body, over the private state `State` and the contact type `Contact`. -/
structure ContactsCacheDecl (State Contact : Type) where
  add : Contact → State → State
  clear : State → State
  size : State → Nat

/-- Translation of `ContactsCache::empty` (mu-contacts-cache.hh:92):
`return size() == 0`. -/
def ContactsCache.empty {State Contact : Type} (decl : ContactsCacheDecl State Contact)
    (self : State) : Bool :=
  decl.size self == 0

/-- Translation of `ContactsCache::add(Contacts&&)` (mu-contacts-cache.hh:68-71):
`for (auto&& contact: contacts) add(std::move(contact))`, the inner call being the
single-contact `add` that the header declares. -/
def ContactsCache.add {State Contact : Type} (decl : ContactsCacheDecl State Contact) :
    List Contact → State → State
  | [], self => self
  | contact :: rest, self => ContactsCache.add decl rest (decl.add contact self)

/-- The reading of the claim to compare with: the state after the first `k`
single-contact calls `add(contacts[0])`, ..., `add(contacts[k-1])`, made in this
order, each element once, starting from `self`. -/
def ContactsCache.after_single_adds {State Contact : Type}
    (decl : ContactsCacheDecl State Contact) (contacts : List Contact) (self : State) :
    Nat → State
  | 0 => self
  | k + 1 =>
    match contacts[k]? with
    | some contact => decl.add contact (ContactsCache.after_single_adds decl contacts self k)
    | none => ContactsCache.after_single_adds decl contacts self k

/-- A cache that only records the single-contact calls made on it, in call order. -/
def recording_cache (Contact : Type) : ContactsCacheDecl (List Contact) Contact where
  add := fun contact calls => calls ++ [contact]
  clear := fun _ => []
  size := List.length

/-! ## The thread forest -/

/-- Modelled from the spec: the threading engine (reference resolver, forest builder,
annotator, sequencer) is not among the sources. A record of the search backend
(spec section 6): the identifier of a message, its sort key, its resolved reference
list and its document handle. -/
structure Message where
  identifier : String
  sort_key : Int
  reference_list : List String
  document_handle : Nat
  deriving DecidableEq, Repr

/-- Modelled from the spec: the threading engine is not among the sources. The
origin of a thread node (spec section 3): it matched the query, or it was pulled in
to complete a thread. -/
inductive Origin where
  | Matched
  | Related
  deriving DecidableEq, Repr

/-- Modelled from the spec: the threading engine is not among the sources. A thread
node (spec section 3). `parent_reference` is the direct-parent identifier from the
reference list; `parent` is the identifier of the node under which this node is
attached, so that the children of a node are the nodes of the arena attached under
it, in discovery order; `orphan` and `duplicate` are the marks set during build. -/
structure ThreadNode where
  identifier : String
  parent_reference : Option String
  parent : Option String
  origin : Origin
  document_handle : Nat
  sort_key : Int
  orphan : Bool
  duplicate : Bool
  deriving DecidableEq, Repr

/-- Modelled from the spec: the threading engine is not among the sources. A forest
(spec section 4.2): an arena of nodes and the ordered list of root identifiers. -/
structure Forest where
  arena : List ThreadNode
  roots : List String
  deriving DecidableEq, Repr

/-- Modelled from the spec: the threading engine is not among the sources. The node
made for the first occurrence of an identifier: its parent reference is the last
element of the reference list, it is attached nowhere and carries no mark. -/
def new_node (origin : Origin) (m : Message) : ThreadNode :=
  ⟨m.identifier, m.reference_list.getLast?, none, origin, m.document_handle, m.sort_key,
    false, false⟩

/-- Modelled from the spec: the threading engine is not among the sources. One
message enters the identifier-to-node map (spec section 4.2): a message whose
identifier is already present is recorded as a duplicate on the first-seen node and
gets no node of its own. -/
def add_message (origin : Origin) (arena : List ThreadNode) (m : Message) :
    List ThreadNode :=
  if m.identifier ∈ arena.map ThreadNode.identifier then
    arena.map (fun n => if n.identifier = m.identifier then { n with duplicate := true } else n)
  else arena ++ [new_node origin m]

/-- Modelled from the spec: the threading engine is not among the sources. The
identifier-to-node map of the candidates, tagged `Matched`, followed by the
relatives, tagged `Related`. -/
def node_map (candidates relatives : List Message) : List ThreadNode :=
  relatives.foldl (add_message .Related) (candidates.foldl (add_message .Matched) [])

/-- Modelled from the spec: the threading engine is not among the sources. The
identifier-keyed lookup into the arena. -/
def lookup_node (arena : List ThreadNode) (id : String) : Option ThreadNode :=
  arena.find? (fun n => n.identifier = id)

/-- Modelled from the spec: the threading engine is not among the sources. The
identifier of the node under which the node `id` is attached, if any. -/
def parent_of (arena : List ThreadNode) (id : String) : Option String :=
  (lookup_node arena id).bind ThreadNode.parent

/-- Modelled from the spec: the threading engine is not among the sources. The
identifier that the node `id` names as its direct parent: its parent reference, when
the node is in the arena and has one. -/
def reference_of (arena : List ThreadNode) (id : String) : Option String :=
  (lookup_node arena id).bind ThreadNode.parent_reference

/-- Modelled from the spec: the threading engine is not among the sources. The walk
of the cycle check (spec sections 3 and 9): from `current` up the parent references
to its would-be root, `path` being the visited set, the nodes already on the current
path; true when the walk comes to `target`, false when it ends at a would-be root or
would revisit a node of the path. The walk is bounded by `fuel`; when the bound is
reached the answer is true, the link is not made. -/
def leads_to (arena : List ThreadNode) (target : String) : Nat → List String → String → Bool
  | 0, _, _ => true
  | fuel + 1, path, current =>
    if current = target then true
    else if current ∈ path then false
    else
      match reference_of arena current with
      | none => false
      | some next => leads_to arena target fuel (current :: path) next

/-- Modelled from the spec: the threading engine is not among the sources. The node
`id` is marked `Orphan`; it stays a root. -/
def mark_orphan (arena : List ThreadNode) (id : String) : List ThreadNode :=
  arena.map (fun n => if n.identifier = id then { n with orphan := true } else n)

/-- Modelled from the spec: the threading engine is not among the sources. The node
`id` is attached as a child of the node `p`. -/
def set_parent (arena : List ThreadNode) (id p : String) : List ThreadNode :=
  arena.map (fun n => if n.identifier = id then { n with parent := some p } else n)

/-- Modelled from the spec: the threading engine is not among the sources. The
attempt to attach one node under its direct parent (spec section 4.2): marked
`Orphan` and left a root if the parent identifier is not in the map; left a root
without a mark if following the parent references from the parent leads back to the
node (spec sections 3, 7 and 8: the link is discarded, the parent reference is
suppressed for this query, a silent demotion without a flag; section 4.2 words the
same step with an `Orphan` mark, which the testable property of section 8 excludes);
attached otherwise. -/
def attach (arena : List ThreadNode) (node : ThreadNode) : List ThreadNode :=
  match node.parent_reference with
  | none => arena
  | some p =>
    if p ∈ arena.map ThreadNode.identifier then
      if leads_to arena node.identifier (arena.length + 1) [] p then arena
      else set_parent arena node.identifier p
    else mark_orphan arena node.identifier

/-- Modelled from the spec: the threading engine is not among the sources. Every
node of the map, in discovery order, is attached or left a root. -/
def attach_all (arena : List ThreadNode) : List ThreadNode :=
  arena.foldl attach arena

/-- Modelled from the spec: the threading engine is not among the sources. The
contract `build(candidates, relatives) -> Forest` (spec section 4.2): the arena
after all attachments, and the identifiers of the unattached nodes in discovery
order. -/
def build (candidates relatives : List Message) : Forest :=
  let arena := attach_all (node_map candidates relatives)
  ⟨arena, (arena.filter (fun n => n.parent.isNone)).map ThreadNode.identifier⟩

/-! ## The structural annotator -/

/-- Modelled from the spec: the threading engine is not among the sources. An
element of the annotated sequence (spec section 4.3): the node, its structural
flags, its depth and its path, held as the zero-based sibling positions from the
root down to the node; `thread_path` concatenates them into the sortable string. -/
structure Annotated where
  node : ThreadNode
  flags : MatchFlags
  depth : Nat
  path : List Nat
  deriving DecidableEq, Repr

/-- Modelled from the spec: the threading engine is not among the sources. Whether
`a` may stand before `b` among ordered siblings: by sort key, ascending or
descending. -/
def stands_before (sort_key_of : ThreadNode → Int) (descending : Bool)
    (a b : ThreadNode) : Bool :=
  if descending then decide (sort_key_of b ≤ sort_key_of a)
  else decide (sort_key_of a ≤ sort_key_of b)

/-- Modelled from the spec: the threading engine is not among the sources. One node
is put into an ordered sibling list, before the first node it may stand before. -/
def insert_sibling (sort_key_of : ThreadNode → Int) (descending : Bool) (x : ThreadNode) :
    List ThreadNode → List ThreadNode
  | [] => [x]
  | y :: rest =>
    if stands_before sort_key_of descending x y then x :: y :: rest
    else y :: insert_sibling sort_key_of descending x rest

/-- Modelled from the spec: the threading engine is not among the sources. Siblings
ordered by sort key under the direction, ties broken by discovery order. -/
def order_siblings (sort_key_of : ThreadNode → Int) (descending : Bool) :
    List ThreadNode → List ThreadNode
  | [] => []
  | x :: rest =>
    insert_sibling sort_key_of descending x (order_siblings sort_key_of descending rest)

/-- Modelled from the spec: the threading engine is not among the sources. The
children of a node: the nodes of the arena attached under it, in discovery order. -/
def children_of (arena : List ThreadNode) (id : String) : List ThreadNode :=
  arena.filter (fun n => n.parent = some id)

/-- Modelled from the spec: the threading engine is not among the sources. The
structural flags of a node visited at position `index` among `total` ordered
siblings (spec section 4.3). -/
def annotate_flags (n : ThreadNode) (index total : Nat) : MatchFlags :=
  { root := n.parent.isNone
    first := index == 0
    last := index + 1 == total
    orphan := n.orphan
    duplicate := n.duplicate
    related := n.origin == .Related }

/-- Modelled from the spec: the threading engine is not among the sources. The
pre-order visit of an ordered sibling list from position `index` on: each node,
then what `visit` yields below it, then the siblings that follow. `above` is the
path of the parent. -/
def visit_siblings (visit : ThreadNode → List Nat → List Annotated) (depth total : Nat)
    (above : List Nat) : Nat → List ThreadNode → List Annotated
  | _, [] => []
  | index, n :: rest =>
    ⟨n, annotate_flags n index total, depth, above ++ [index]⟩
      :: (visit n (above ++ [index])
        ++ visit_siblings visit depth total above (index + 1) rest)

/-- Modelled from the spec: the threading engine is not among the sources. The
pre-order depth-first walk (spec section 4.3) over ordered siblings and, below each
node, over its ordered children; `fuel` bounds the depth of the walk. -/
def walk (arena : List ThreadNode) (sort_key_of : ThreadNode → Int) (descending : Bool) :
    Nat → Nat → List Nat → List ThreadNode → List Annotated
  | 0, _, _, _ => []
  | fuel + 1, depth, above, siblings =>
    visit_siblings
      (fun n path =>
        walk arena sort_key_of descending fuel (depth + 1) path
          (order_siblings sort_key_of descending (children_of arena n.identifier)))
      depth siblings.length above 0 siblings

/-- Modelled from the spec: the threading engine is not among the sources. The
contract `annotate(forest, sort_key_of, direction)` (spec section 4.3): the ordered
roots are walked at depth 1; no path is longer than the arena. -/
def annotate (forest : Forest) (sort_key_of : ThreadNode → Int) (descending : Bool) :
    List Annotated :=
  walk forest.arena sort_key_of descending forest.arena.length 1 []
    (order_siblings sort_key_of descending
      (forest.roots.filterMap (lookup_node forest.arena)))

/-- The comparison of two lists of sibling positions, position by position from the
root down, a list being less than each of its extensions. It only serves to follow
the walk; the comparison of the paths themselves is the lexical comparison of the
strings that `thread_path` yields. -/
def path_lt : List Nat → List Nat → Bool
  | [], [] => false
  | [], _ :: _ => true
  | _ :: _, [] => false
  | a :: p, b :: q => decide (a < b) || (a == b && path_lt p q)

/-- Modelled from the spec: the threading engine is not among the sources, and the
spec names no way of writing a position. One position as it is written in a path
key: with `width` decimal digits, the most significant one first, zeros in front, so
that all positions of a key are of one width and keys compare as their positions
do. -/
def position_digits : Nat → Nat → List Char
  | 0, _ => []
  | width + 1, position =>
    position_digits width (position / 10) ++ [Nat.digitChar (position % 10)]

/-- Modelled from the spec: the threading engine is not among the sources. The
largest sibling position in the paths of a sequence. -/
def largest_position (sequence : List Annotated) : Nat :=
  (sequence.flatMap Annotated.path).foldl max 0

/-- Modelled from the spec: the threading engine is not among the sources. The number
of decimal digits of `n`, at least one; `fuel` bounds the count and `n` itself is
enough. -/
def decimal_width : Nat → Nat → Nat
  | 0, _ => 1
  | fuel + 1, n => if n < 10 then 1 else decimal_width fuel (n / 10) + 1

/-- Modelled from the spec: the threading engine is not among the sources. The width
of the positions in the path keys of a sequence: the number of decimal digits of its
largest sibling position. -/
def key_width (sequence : List Annotated) : Nat :=
  decimal_width (largest_position sequence) (largest_position sequence)

/-- Modelled from the spec: the threading engine is not among the sources. The
sortable path key as a string (spec sections 4.3 and 6): the zero-based sibling
positions from the root down to the node, concatenated, each written with `width`
digits. -/
def path_key (width : Nat) (path : List Nat) : String :=
  String.join (path.map (fun position => String.mk (position_digits width position)))

/-- Modelled from the spec: the threading engine is not among the sources. The path
of an element of a sequence as the annotator hands it out: the key of its positions,
written with the width that the sequence needs. -/
def thread_path (sequence : List Annotated) (e : Annotated) : String :=
  path_key (key_width sequence) e.path

/-! ## The result sequencer -/

/-- Modelled from the spec: the threading engine is not among the sources. The
search backend (spec section 6): its known sortable fields, `search` and
`fetch_by_identifier`. -/
structure Backend where
  sortable : String → Bool
  search : String → String → Bool → List Message
  fetch_by_identifier : String → Option Message

/-- Modelled from the spec: the threading engine is not among the sources. An
element of the emitted sequence (spec section 4.4, step 9): the annotated result
and `is_last`. -/
structure Emitted where
  element : Annotated
  is_last : Bool
  deriving DecidableEq, Repr

/-- Modelled from the spec: the threading engine is not among the sources. The
failure of `run`: the sort field is not one the backend knows. -/
inductive RunError where
  | invalid_sort_field (sort_field : String)
  deriving DecidableEq, Repr

/-- Modelled from the spec: the threading engine is not among the sources. The
ancestor identifiers that candidates reference and the candidate set lacks, each
once (spec section 4.4, step 4). -/
def missing_ancestors (candidates : List Message) : List String :=
  dedup_first_seen (candidates.map Message.identifier)
    (candidates.flatMap Message.reference_list)

/-- Modelled from the spec: the threading engine is not among the sources. The
relatives: each missing ancestor is fetched by identifier; a miss leaves the
reference unresolved. -/
def fetch_relatives (backend : Backend) (candidates : List Message) : List Message :=
  (missing_ancestors candidates).filterMap backend.fetch_by_identifier

/-- Modelled from the spec: the threading engine is not among the sources. A result
of an unthreaded query (spec section 4.4, step 3): `Root` set, depth 1, no other
structural flag. -/
def flat_result (n : ThreadNode) : Annotated :=
  ⟨n, ⟨true, false, false, false, false, false⟩, 1, []⟩

/-- Modelled from the spec: the threading engine is not among the sources. Every
occurrence beyond the first appearance of a message is dropped (spec section 4.4,
step 6). -/
def drop_repeated (seen : List String) : List Annotated → List Annotated
  | [] => []
  | e :: rest =>
    if e.node.identifier ∈ seen then drop_repeated seen rest
    else e :: drop_repeated (e.node.identifier :: seen) rest

/-- Modelled from the spec: the threading engine is not among the sources. The
forest of a threaded query (spec section 4.4, steps 4 and 5): built from the
candidates and, if `IncludeRelated` is set, their fetched relatives. -/
def forest_of (backend : Backend) (query_expr sort_field : String) (flags : QueryFlags) :
    Forest :=
  let candidates := backend.search query_expr sort_field flags.descending
  build candidates (if flags.include_related then fetch_relatives backend candidates else [])

/-- Modelled from the spec: the threading engine is not among the sources. The
sequence of steps 2 to 5 of spec section 4.4: the candidates sorted flatly, or the
annotated forest of the candidates and, if requested, their relatives. -/
def sequence_of (backend : Backend) (query_expr sort_field : String) (flags : QueryFlags) :
    List Annotated :=
  if flags.threading then
    annotate (forest_of backend query_expr sort_field flags) ThreadNode.sort_key
      flags.descending
  else
    (order_siblings ThreadNode.sort_key flags.descending
      ((backend.search query_expr sort_field flags.descending).map
        (new_node .Matched))).map flat_result

/-- Modelled from the spec: the threading engine is not among the sources. The whole
root-subtrees of a sequence (spec section 4.4, step 7), in the order of the sequence:
each begins with an element flagged `Root` and holds the elements that follow it up
to the next element flagged `Root`. -/
def root_subtrees : List Annotated → List (List Annotated)
  | [] => []
  | e :: rest =>
    match root_subtrees rest with
    | (c :: subtree) :: subtrees =>
      if c.flags.root then [e] :: (c :: subtree) :: subtrees
      else (e :: c :: subtree) :: subtrees
    | _ => [[e]]

/-- Modelled from the spec: the threading engine is not among the sources. The
fully flattened sequence (spec section 4.4, steps 6 and 7): repeated messages
dropped if `SkipDuplicates` is set; if `Descending` is set the sequence is reversed
as a whole, not per sibling group: the whole root-subtrees are presented in reverse
order, the order inside a subtree staying as the annotator fixed it, so that the
truncation of step 8 cuts a thread only at its end. -/
def flatten (backend : Backend) (query_expr sort_field : String) (flags : QueryFlags) :
    List Annotated :=
  let sequence := sequence_of backend query_expr sort_field flags
  let sequence := if flags.skip_duplicates then drop_repeated [] sequence else sequence
  if flags.descending then (root_subtrees sequence).reverse.flatten else sequence

/-- Modelled from the spec: the threading engine is not among the sources. The
emission (spec section 4.4, step 9): `is_last` is set on the final element only. -/
def emit : List Annotated → List Emitted
  | [] => []
  | [e] => [⟨e, true⟩]
  | e :: next :: rest => ⟨e, false⟩ :: emit (next :: rest)

/-- Modelled from the spec: the threading engine is not among the sources. The
contract `run(query_expr, sort_field, flags, max_results)` (spec section 4.4): the
sort field is validated first, the flattened sequence is truncated to
`max_results` and emitted. -/
def run (backend : Backend) (query_expr sort_field : String) (flags : QueryFlags)
    (max_results : Nat) : Except RunError (List Emitted) :=
  if backend.sortable sort_field then
    .ok (emit ((flatten backend query_expr sort_field flags).take max_results))
  else .error (.invalid_sort_field sort_field)

/-! ## Properties of an annotated sequence -/

/-- Every element of the sequence is a root at depth 1, or a child one level below
an element that stands before it; `seen` lists the identifier and the depth of the
elements that stand before the sequence. -/
def ParentsFirst : List (String × Nat) → List Annotated → Prop
  | _, [] => True
  | seen, e :: rest =>
    ((e.node.parent = none ∧ e.depth = 1)
        ∨ ∃ p d, (p, d) ∈ seen ∧ e.node.parent = some p ∧ e.depth = d + 1)
      ∧ ParentsFirst ((e.node.identifier, e.depth) :: seen) rest

/-- Every element of the sequence is a root, or a child of a node whose identifier
stands before it; `seen` lists the identifiers that stand before the sequence. -/
def ParentIdsFirst : List String → List Annotated → Prop
  | _, [] => True
  | seen, e :: rest =>
    (∀ p, e.node.parent = some p → p ∈ seen)
      ∧ ParentIdsFirst (e.node.identifier :: seen) rest

/-- Every element of the sequence that is not flagged `Root` is a child of a node
that stands before it in the same root-subtree, and every element flagged `Root` has
no parent; `seen` lists the identifiers that stand before the sequence in the
root-subtree that is open where the sequence begins. -/
def SubtreesWhole : List String → List Annotated → Prop
  | _, [] => True
  | seen, e :: rest =>
    if e.flags.root then e.node.parent = none ∧ SubtreesWhole [e.node.identifier] rest
    else (∀ p, e.node.parent = some p → p ∈ seen)
      ∧ SubtreesWhole (e.node.identifier :: seen) rest

/-! ## Properties of a forest -/

/-- What build never changes in a node once the node is made: everything but the
link to the parent and the `Orphan` mark. -/
def node_core (n : ThreadNode) : String × Option String × Origin × Nat × Int × Bool :=
  (n.identifier, n.parent_reference, n.origin, n.document_handle, n.sort_key, n.duplicate)

/-- The state of the identifier-to-node map after the messages with the identifiers
`ids` have entered it: one node per identifier, a node for every identifier, no node
attached, and the duplicate mark on the nodes whose identifier occurred again. -/
def MapInvariant (arena : List ThreadNode) (ids : List String) : Prop :=
  (arena.map ThreadNode.identifier).Nodup
    ∧ (∀ x, x ∈ arena.map ThreadNode.identifier ↔ x ∈ ids)
    ∧ (∀ n ∈ arena, n.parent = none ∧ n.orphan = false)
    ∧ ∀ n ∈ arena, (n.duplicate = true ↔ 2 ≤ ids.count n.identifier)

/-- Every node of the map was made from the first message that carries its
identifier: it has the direct parent, the handle and the sort key of that message. -/
def FirstMessages (arena : List ThreadNode) (processed : List Message) : Prop :=
  ∀ n ∈ arena, ∃ m, processed.find? (fun c => c.identifier = n.identifier) = some m
    ∧ n.parent_reference = m.reference_list.getLast?
    ∧ n.document_handle = m.document_handle
    ∧ n.sort_key = m.sort_key

/-- The parent link as a relation between identifiers. -/
def is_parent (arena : List ThreadNode) (child parent : String) : Prop :=
  parent_of arena child = some parent

/-- The parent reference as a relation between identifiers. -/
def is_reference (arena : List ThreadNode) (child parent : String) : Prop :=
  reference_of arena child = some parent

/-- Every link of the arena follows a parent reference, leads to a node of the arena
and was let through by the cycle check. -/
def LinksChecked (arena : List ThreadNode) : Prop :=
  ∀ x y, is_parent arena x y →
    is_reference arena x y ∧ y ∈ arena.map ThreadNode.identifier
      ∧ leads_to arena x (arena.length + 1) [] y = false

/-- No node is its own ancestor: following parent links from a node, one step or
more, never leads back to the node. -/
def Acyclic (arena : List ThreadNode) : Prop :=
  ∀ id, ¬ Relation.TransGen (is_parent arena) id id

/-! ## Sample threads -/

/-- A backend that knows the sort field `date`, finds the given messages and
fetches nothing. -/
def sample_backend (found : List Message) : Backend where
  sortable := fun sort_field => sort_field = "date"
  search := fun _ _ _ => found
  fetch_by_identifier := fun _ => none

/-- The flag set with `Threading` only. -/
def threading_only : QueryFlags := ⟨false, false, false, true, []⟩

/-- Eleven messages without parent, the sort keys in the order of discovery. -/
def sample_eleven : List Message :=
  [⟨"m0@x", 0, [], 100⟩, ⟨"m1@x", 1, [], 101⟩, ⟨"m2@x", 2, [], 102⟩, ⟨"m3@x", 3, [], 103⟩,
   ⟨"m4@x", 4, [], 104⟩, ⟨"m5@x", 5, [], 105⟩, ⟨"m6@x", 6, [], 106⟩, ⟨"m7@x", 7, [], 107⟩,
   ⟨"m8@x", 8, [], 108⟩, ⟨"m9@x", 9, [], 109⟩, ⟨"m10@x", 10, [], 110⟩,
   ⟨"r@x", 11, ["m10@x"], 111⟩]

/-- A thread root. -/
def sample_a : Message := ⟨"a@x", 30, [], 1⟩

/-- A reply to `sample_a`. -/
def sample_b : Message := ⟨"b@x", 20, ["a@x"], 2⟩

/-- A reply to `sample_b`. -/
def sample_c : Message := ⟨"c@x", 10, ["a@x", "b@x"], 3⟩

/-- A message whose direct parent `gone@x` is not among the results. -/
def sample_orphan : Message := ⟨"o@x", 5, ["gone@x"], 4⟩

/-- Two messages that name each other as parent. -/
def sample_cycle_a : Message := ⟨"a@x", 30, ["b@x"], 1⟩

/-- The other message of the cycle. -/
def sample_cycle_b : Message := ⟨"b@x", 20, ["a@x"], 2⟩

/-- The flag set with `Threading` and `Descending`. -/
def threading_descending : QueryFlags := ⟨true, false, false, true, []⟩

/-- Whether the event is an action on one message: a spawned command, a link made,
or a message rendered. -/
def Event.is_message_action : Event → Bool
  | .spawn _ _ => true
  | .link _ _ => true
  | .print_msg _ _ _ _ => true
  | _ => false

/-! ## What `output_query_results` is to call -/

/-- The reading of the claim to compare with: the per-message calls the results ask
for, in sequence order. An element whose message does not load, or is older than
`opts->after`, asks for none; `first` is the one-based position of the first
element and `size` the size of the whole sequence. -/
def wanted_outputs (opts : MuConfig) (size first : Nat) (items : List QueryResult) :
    List (MuMsg × OutputInfo) :=
  (items.enumFrom first).filterMap fun p =>
    match p.2.floating_msg with
    | none => none
    | some msg =>
      if opts.after != 0 && msg.timestamp < opts.after then none
      else some (msg, ⟨p.2.doc_id, false, false, p.1 == size, some p.2.query_match⟩)

/-- Whether the per-message call of `func` on the message and its info fails. -/
def output_fails (env : Env) (func : OutputFunc) (opts : MuConfig)
    (call : MuMsg × OutputInfo) : Bool :=
  !(call_output_func env func (some call.1) call.2 opts).val

/-- The calls up to and including the first one that fails. -/
def through_first_failure {α : Type} (fails : α → Bool) : List α → List α
  | [] => []
  | x :: rest => if fails x then [x] else x :: through_first_failure fails rest

/-- The per-message calls that are to be made: those the results ask for, up to and
including the first one that fails. -/
def made_outputs (env : Env) (func : OutputFunc) (opts : MuConfig) (qres : QueryResults) :
    List (MuMsg × OutputInfo) :=
  through_first_failure (output_fails env func opts) (wanted_outputs opts qres.length 1 qres)

/-! ## The call of `output_query_results` in `mu_cmd_find` -/

/-- The arguments with which `mu_cmd_find` calls `output_query_results`, when it
does: the branches of `mu_cmd_find` (mu-cmd-find.cc:689-707), `execute_find`
(611-624) and `process_query` (596-609) that lead to the call, `none` on every
other branch. -/
def output_query_results_args (env : Env) (store : Store) (opts : Option MuConfig) :
    Option (QueryResults × MuConfig) :=
  match opts with
  | none => none
  | some opts =>
    if opts.cmd != .MU_CONFIG_CMD_FIND then none
    else
      let myopts := adjusted_opts opts
      if !(query_params_valid env myopts).val then none
      else if !(format_params_valid myopts).val then none
      else
        match (get_query env myopts).val with
        | none => none
        | some expr =>
          if myopts.format = .MU_CONFIG_FORMAT_XQUERY then none
          else if myopts.format = .MU_CONFIG_FORMAT_MQUERY then none
          else
            match run_query env store expr myopts with
            | .undefined _ => none
            | .returns r =>
              match r.val with
              | none => none
              | some qres => if qres.isEmpty then none else some (qres, myopts)

/-! ## Reading a trace -/

/-- The `OutputInfo`s of the per-message output calls of a trace, in call order:
the calls of an output function that carry a message. -/
def message_outputs : List Event → List OutputInfo
  | [] => []
  | .output _ (some _) info :: rest => info :: message_outputs rest
  | _ :: rest => message_outputs rest

/-! ## Sample inputs -/

/-- A test for malformed tokens that rejects nothing. -/
def no_token_malformed : String → Bool := fun _ => false

/-- A loaded message. -/
def sample_msg : MuMsg :=
  ⟨"/home/user/Maildir/inbox/cur/1220863042.12663_1.mindcrime!2,S", 1217530645⟩

/-- The match information of an unthreaded result. -/
def sample_match : QueryMatch := ⟨⟨true, false, false, false, false, false⟩, 1, "0"⟩

/-- A result sequence of two elements: the message of the first loads, the message
of the second does not. -/
def sample_results_trailing_unloadable : QueryResults :=
  [⟨some sample_msg, 1, sample_match⟩, ⟨none, 2, sample_match⟩]

/-- A result sequence of two elements whose messages both load. -/
def sample_results_loadable : QueryResults :=
  [⟨some sample_msg, 1, sample_match⟩, ⟨some sample_msg, 2, sample_match⟩]

/-- An environment in which `date` and `subject` are field names, the database
directory is readable, and spawning and linking succeed. -/
def sample_env : Env where
  field_from_name := fun s =>
    if s = "date" then some ⟨1⟩ else if s = "subject" then some ⟨2⟩ else none
  MU_G_ERROR_CODE := fun err =>
    match err with
    | some e => e.code
    | none => .MU_ERROR
  xapiandb_path := "/home/user/.cache/mu/xapian"
  check_dir := fun _ => true
  bookmarks_path := "/home/user/.config/mu/bookmarks"
  bookmarks_new := fun _ => none
  spawn := fun _ _ => none
  maildir_mkdir := fun _ => none
  maildir_clear_links := fun _ => none
  maildir_link := fun _ _ => none

/-- A store that finds nothing. -/
def sample_store : Store where
  run_query := fun _ _ _ _ => some []
  parse_query := fun expr _ => expr

/-- The options of `mu find hello --sortfield=date`, plain output. -/
def sample_opts : MuConfig where
  cmd := .MU_CONFIG_CMD_FIND
  params := ["find", "hello"]
  sortfield := some "date"
  reverse := false
  skip_dups := false
  include_related := false
  threads := false
  maxnum := 0
  format := .MU_CONFIG_FORMAT_PLAIN
  formatstr := some "plain"
  exec := none
  linksdir := none
  clearlinks := false
  bookmark := none
  after := 0
  fields := "d f s"
  summary_len := 0
  nocolor := true
  debug := false
  verbose := false

/-- An environment in which linking a message fails; all else is as in
`sample_env`. -/
def sample_env_link_fails : Env :=
  { sample_env with
    maildir_link := fun _ _ => some ⟨.MU_ERROR_OTHER 73, "cannot create link"⟩ }

/-- The options of `mu find hello --sortfield=date --format=links --linksdir=/tmp/l`. -/
def sample_opts_links : MuConfig :=
  { sample_opts with
    format := .MU_CONFIG_FORMAT_LINKS, formatstr := some "links", linksdir := some "/tmp/l" }

/-- A store that finds two messages. -/
def sample_store_found : Store where
  run_query := fun _ _ _ _ => some sample_results_loadable
  parse_query := fun expr _ => expr

/-! ## Theorems: `run_query` and `process_query` -/

/-- When `field_from_name` finds a field for the given name (or for the empty name
when none is given), `run_query` makes one call of the store with the four option
bits as flags. -/
theorem run_query_of_field (env : Env) (store : Store) (expr : String) (opts : MuConfig)
    (field : Field)
    (hfield : env.field_from_name (opts.sortfield.getD "") = some field) :
    run_query env store expr opts
      = .returns ⟨store.run_query expr field.id
            ⟨opts.reverse, opts.skip_dups, opts.include_related, opts.threads, []⟩ opts.maxnum,
          none,
          [Event.run_query expr field.id
            ⟨opts.reverse, opts.skip_dups, opts.include_related, opts.threads, []⟩
            opts.maxnum]⟩ := by
  cases hs : opts.sortfield <;> simp only [hs, Option.getD] at hfield <;>
    cases hr : opts.reverse <;> cases hd : opts.skip_dups <;>
    cases hi : opts.include_related <;> cases ht : opts.threads <;>
    simp [run_query, hs, hfield, hr, hd, hi, ht, QueryFlags.or, QueryFlags.None]

/-- The three ways `run_query` can end: a parameter error without any call, the
read of an empty `Option`, or exactly one call of the store. -/
theorem run_query_cases (env : Env) (store : Store) (expr : String) (opts : MuConfig) :
    (∃ e, run_query env store expr opts = .returns ⟨none, some e, []⟩)
      ∨ run_query env store expr opts = .undefined []
      ∨ ∃ id qflags, run_query env store expr opts
          = .returns ⟨store.run_query expr id qflags opts.maxnum, none,
              [Event.run_query expr id qflags opts.maxnum]⟩ := by
  cases hf : env.field_from_name (opts.sortfield.getD "") with
  | some f => exact Or.inr (Or.inr ⟨_, _, run_query_of_field env store expr opts f hf⟩)
  | none =>
    cases hs : opts.sortfield with
    | none =>
      simp only [hs, Option.getD] at hf
      exact Or.inr (Or.inl (by simp [run_query, hs, hf]))
    | some name =>
      simp only [hs, Option.getD] at hf
      exact Or.inl ⟨_, by simp only [run_query, hs, hf]; rfl⟩

/-- C1: when a sort-field name is given and `field_from_name` does not recognise
it, `run_query` returns `Nothing` with an `MU_ERROR_IN_PARAMETERS` error, and its trace
is empty: the store is never called. -/
theorem run_query_unknown_sortfield (env : Env) (store : Store) (expr : String)
    (opts : MuConfig) (name : String) (hname : opts.sortfield = some name)
    (hunknown : env.field_from_name name = none) :
    (∃ msg, run_query env store expr opts
        = .returns ⟨none, some ⟨.MU_ERROR_IN_PARAMETERS, msg⟩, []⟩)
      ∧ ∀ ev ∈ (run_query env store expr opts).trace, ev.is_store_call = false := by
  have h : run_query env store expr opts
      = .returns ⟨none, some ⟨.MU_ERROR_IN_PARAMETERS,
          "invvalid sort field: '" ++ name ++ "'\n"⟩, []⟩ := by
    simp [run_query, hname, hunknown]
  refine ⟨⟨_, h⟩, ?_⟩
  rw [h]
  simp [Outcome.trace]

/-- Witness of C1: `nosuchfield` is not a field name of the sample environment. -/
theorem run_query_unknown_sortfield_witness :
    (∃ msg, run_query sample_env sample_store "hello"
        { sample_opts with sortfield := some "nosuchfield" }
        = .returns ⟨none, some ⟨.MU_ERROR_IN_PARAMETERS, msg⟩, []⟩)
      ∧ ∀ ev ∈ (run_query sample_env sample_store "hello"
          { sample_opts with sortfield := some "nosuchfield" }).trace,
          ev.is_store_call = false :=
  run_query_unknown_sortfield sample_env sample_store "hello"
    { sample_opts with sortfield := some "nosuchfield" } "nosuchfield" rfl (by decide)

/-- C2: when `run_query` succeeds with an empty result set, `process_query` returns
false with the `MU_ERROR_NO_MATCHES` error, and its trace holds the calls of
`run_query` only: no output function is called, not for the header, an element or
the footer. -/
theorem process_query_no_matches (env : Env) (store : Store) (expr : String)
    (opts : MuConfig) (r : Ret (Option QueryResults))
    (hrun : run_query env store expr opts = .returns r) (hempty : r.val = some []) :
    process_query env store expr opts
        = .returns ⟨false,
            some ⟨.MU_ERROR_NO_MATCHES, "no matches for search expression"⟩, r.trace⟩
      ∧ ∀ ev ∈ (process_query env store expr opts).trace, ev.is_output_call = false := by
  have herr : r.err = none ∧ ∀ ev ∈ r.trace, ev.is_output_call = false := by
    rcases run_query_cases env store expr opts with ⟨e, h⟩ | h | ⟨f, q, h⟩
    · rw [h] at hrun
      cases hrun
      simp at hempty
    · rw [h] at hrun
      cases hrun
    · rw [h] at hrun
      cases hrun
      simp [Event.is_output_call]
  have h : process_query env store expr opts
      = .returns ⟨false,
          some ⟨.MU_ERROR_NO_MATCHES, "no matches for search expression"⟩, r.trace⟩ := by
    simp [process_query, hrun, hempty, herr.1, g_set_error]
  refine ⟨h, ?_⟩
  rw [h]
  exact herr.2

/-- Witness of C2: the sample store finds nothing. -/
theorem process_query_no_matches_witness :
    process_query sample_env sample_store "hello" sample_opts
        = .returns ⟨false,
            some ⟨.MU_ERROR_NO_MATCHES, "no matches for search expression"⟩,
            [Event.run_query "hello" 1 QueryFlags.None 0]⟩
      ∧ ∀ ev ∈ (process_query sample_env sample_store "hello" sample_opts).trace,
          ev.is_output_call = false :=
  process_query_no_matches sample_env sample_store "hello" sample_opts
    ⟨some [], none, [Event.run_query "hello" 1 QueryFlags.None 0]⟩ (by decide) rfl

/-- C3: with a recognised sort field, `run_query` makes exactly one call, the
store's `run_query`, with the unchanged expression, the id of the field,
`opts->maxnum`, and the flag set in which `Descending`, `SkipDuplicates`,
`IncludeRelated` and `Threading` are set exactly when `opts->reverse`,
`opts->skip_dups`, `opts->include_related` and `opts->threads` are, and no other bit
is; it returns what the store returns and sets no error, whatever the four options
are. -/
theorem run_query_known_sortfield (env : Env) (store : Store) (expr : String)
    (opts : MuConfig) (name : String) (field : Field) (hname : opts.sortfield = some name)
    (hknown : env.field_from_name name = some field) :
    ∃ qflags : QueryFlags,
      run_query env store expr opts
        = .returns ⟨store.run_query expr field.id qflags opts.maxnum, none,
            [Event.run_query expr field.id qflags opts.maxnum]⟩
      ∧ qflags = ⟨opts.reverse, opts.skip_dups, opts.include_related, opts.threads, []⟩
      ∧ (qflags.has .Descending = true ↔ opts.reverse = true)
      ∧ (qflags.has .SkipDuplicates = true ↔ opts.skip_dups = true)
      ∧ (qflags.has .IncludeRelated = true ↔ opts.include_related = true)
      ∧ (qflags.has .Threading = true ↔ opts.threads = true)
      ∧ ∀ bit : Nat, qflags.has (.Other bit) = false := by
  refine ⟨⟨opts.reverse, opts.skip_dups, opts.include_related, opts.threads, []⟩, ?_, rfl,
    Iff.rfl, Iff.rfl, Iff.rfl, Iff.rfl, fun bit => by simp [QueryFlags.has]⟩
  exact run_query_of_field env store expr opts field (by simp [hname, hknown])

/-- Witness of C3: a descending, threaded query sorted by date. -/
theorem run_query_known_sortfield_witness :
    ∃ qflags : QueryFlags,
      run_query sample_env sample_store "hello"
          { sample_opts with reverse := true, threads := true, maxnum := 10 }
        = .returns ⟨sample_store.run_query "hello" 1 qflags 10, none,
            [Event.run_query "hello" 1 qflags 10]⟩
      ∧ qflags = ⟨true, false, false, true, []⟩
      ∧ (qflags.has .Descending = true ↔ true = true)
      ∧ (qflags.has .SkipDuplicates = true ↔ false = true)
      ∧ (qflags.has .IncludeRelated = true ↔ false = true)
      ∧ (qflags.has .Threading = true ↔ true = true)
      ∧ ∀ bit : Nat, qflags.has (.Other bit) = false :=
  run_query_known_sortfield sample_env sample_store "hello"
    { sample_opts with reverse := true, threads := true, maxnum := 10 } "date" ⟨1⟩ rfl
    (by decide)

/-! ## Theorems: `output_query_results` -/

/-- The per-message calls of a concatenated trace. -/
theorem message_outputs_append (a b : List Event) :
    message_outputs (a ++ b) = message_outputs a ++ message_outputs b := by
  induction a with
  | nil => rfl
  | cons ev rest ih =>
    cases ev with
    | output f m info => cases m <;> simp [message_outputs, ih]
    | _ => simp [message_outputs, ih]

/-- What an output function does itself contains no call of an output function. -/
theorem message_outputs_call (env : Env) (func : OutputFunc) (msg : Option MuMsg)
    (info : OutputInfo) (opts : MuConfig) :
    message_outputs (call_output_func env func msg info opts).trace
      = message_outputs [Event.output func msg info] := by
  have hbody : ∀ t : List Event, message_outputs t = [] →
      message_outputs (Event.output func msg info :: t)
        = message_outputs [Event.output func msg info] := by
    intro t ht
    cases msg <;> simp [message_outputs, ht]
  cases func <;> simp only [call_output_func] <;> apply hbody
  · simp only [output_link, prepare_links]
    repeat' split
    all_goals simp [message_outputs]
  · simp [exec_cmd, message_outputs]
  · simp only [output_plain]
    repeat' split
    all_goals simp [message_outputs]
  · simp only [output_xml]
    repeat' split
    all_goals simp [message_outputs]
  · simp only [output_sexp]
    repeat' split
    all_goals simp [message_outputs]
  · simp only [output_json]
    repeat' split
    all_goals simp [message_outputs]

/-- One step of the loop of `output_query_results`, read on the per-message calls:
the element is skipped, or it is output with `last = (n + 1 == size)` and the loop
either stops there or goes on. -/
theorem message_outputs_loop_cons (env : Env) (func : OutputFunc) (opts : MuConfig)
    (size : Nat) (item : QueryResult) (rest : List QueryResult) (n : Nat) (rv : Bool) :
    ∃ rv2 : Bool,
      message_outputs (output_results_loop env func opts size (item :: rest) n rv).trace
          = message_outputs (output_results_loop env func opts size rest (n + 1) rv2).trace
      ∨ ∃ info : OutputInfo, info.last = (n + 1 == size) ∧
          (message_outputs (output_results_loop env func opts size (item :: rest) n rv).trace
              = [info]
            ∨ message_outputs
                (output_results_loop env func opts size (item :: rest) n rv).trace
              = info :: message_outputs
                  (output_results_loop env func opts size rest (n + 1) rv2).trace) := by
  cases hmsg : item.floating_msg with
  | none => exact ⟨rv, Or.inl (by rw [output_results_loop]; simp only [hmsg])⟩
  | some msg =>
    by_cases hskip : (opts.after != 0 && decide (msg.timestamp < opts.after)) = true
    · exact ⟨rv, Or.inl (by rw [output_results_loop]; simp only [hmsg, hskip, if_true])⟩
    · have hmo := message_outputs_call env func (some msg)
        ⟨item.doc_id, false, false, n + 1 == size, some item.query_match⟩ opts
      generalize hcall : call_output_func env func (some msg)
        ⟨item.doc_id, false, false, n + 1 == size, some item.query_match⟩ opts = r at hmo
      refine ⟨r.val, Or.inr ⟨⟨item.doc_id, false, false, n + 1 == size,
        some item.query_match⟩, rfl, ?_⟩⟩
      by_cases hval : (!r.val) = true
      · left
        rw [output_results_loop]
        simp only [hmsg, hskip, hcall, hval, if_true, if_false, Bool.false_eq_true]
        rw [hmo]
        rfl
      · right
        rw [output_results_loop]
        simp only [hmsg, hskip, hcall, hval, if_true, if_false, Bool.false_eq_true]
        rw [message_outputs_append, hmo]
        rfl

/-- In the loop of `output_query_results`, run over the elements that remain
(`n` elements done, `size` in all), every per-message call but the final one
carries `last = false`. -/
theorem output_results_loop_last (env : Env) (func : OutputFunc) (opts : MuConfig)
    (size : Nat) (items : List QueryResult) :
    ∀ (n : Nat) (rv : Bool), n + items.length ≤ size →
      ∀ info ∈ (message_outputs
          (output_results_loop env func opts size items n rv).trace).dropLast,
        info.last = false := by
  induction items with
  | nil => intro n rv _ info hmem; simp [output_results_loop, message_outputs] at hmem
  | cons item rest ih =>
    intro n rv hle info hmem
    have hle2 : n + 1 + rest.length ≤ size := by simp at hle; omega
    obtain ⟨rv2, h | ⟨i, hi, h | h⟩⟩ :=
      message_outputs_loop_cons env func opts size item rest n rv
    · rw [h] at hmem
      exact ih (n + 1) rv2 hle2 info hmem
    · rw [h] at hmem
      simp at hmem
    · rw [h] at hmem
      cases hrest : message_outputs
          (output_results_loop env func opts size rest (n + 1) rv2).trace with
      | nil => simp [hrest] at hmem
      | cons j js =>
        rw [hrest, List.dropLast_cons₂, ← hrest] at hmem
        rcases List.mem_cons.mp hmem with h2 | h2
        · cases rest with
          | nil => simp [output_results_loop, message_outputs] at hrest
          | cons r rs =>
            have hn : (n + 1 == size) = false := by simp at hle ⊢; omega
            rw [h2, hi, hn]
        · exact ih (n + 1) rv2 hle2 info h2

/-- The per-message calls of `output_query_results` are those of its loop: the
header and the footer call carry no message. -/
theorem message_outputs_output_query_results (env : Env) (qres : QueryResults)
    (opts : MuConfig) (func : OutputFunc) (hfunc : get_output_func opts = some func) :
    message_outputs (output_query_results env qres opts).trace
      = message_outputs (output_results_loop env func opts qres.length qres 0 true).trace := by
  have hfirst := message_outputs_call env func none FirstOutput opts
  have hlast := message_outputs_call env func none LastOutput opts
  simp only [output_query_results, hfunc, message_outputs_append, hfirst, hlast]
  simp [message_outputs]

/-- C4: in the trace of `output_query_results`, every per-message output call
other than the final per-message call carries `last = false`; so a call flagged
last is followed by no further per-message call. -/
theorem output_query_results_last_is_final (env : Env) (qres : QueryResults)
    (opts : MuConfig) :
    ∀ info ∈ (message_outputs (output_query_results env qres opts).trace).dropLast,
      info.last = false := by
  intro info hmem
  cases hfunc : get_output_func opts with
  | none => simp [output_query_results, hfunc, message_outputs] at hmem
  | some func =>
    rw [message_outputs_output_query_results env qres opts func hfunc] at hmem
    exact output_results_loop_last env func opts qres.length qres 0 true (by simp) info hmem

/-- Witness of C4: two loadable results in JSON output; the first call carries
`last = false`, the second and final one `last = true`. -/
theorem output_query_results_last_is_final_witness :
    message_outputs (output_query_results sample_env sample_results_loadable
        { sample_opts with format := .MU_CONFIG_FORMAT_JSON }).trace
      = [⟨1, false, false, false, some sample_match⟩,
         ⟨2, false, false, true, some sample_match⟩]
      ∧ (⟨1, false, false, false, some sample_match⟩ : OutputInfo).last = false :=
  ⟨by decide,
    output_query_results_last_is_final sample_env sample_results_loadable
      { sample_opts with format := .MU_CONFIG_FORMAT_JSON }
      ⟨1, false, false, false, some sample_match⟩ (by decide)⟩

/-- C5, evaluated where it fails: JSON output of two results of which the second
has no loadable message. The only message that is output carries `last = false`,
`output_json` writes a comma after it, and the call still returns true. -/
theorem output_query_results_trailing_skip :
    output_query_results sample_env sample_results_trailing_unloadable
        { sample_opts with format := .MU_CONFIG_FORMAT_JSON }
      = ⟨true, none,
          [Event.output .output_json none FirstOutput,
           Event.print "[\n",
           Event.output .output_json (some sample_msg)
             ⟨1, false, false, false, some sample_match⟩,
           Event.print_msg .output_json (some sample_msg) 1 ",\n",
           Event.output .output_json none LastOutput,
           Event.print "]\n"]⟩ := by
  decide

/-! ## Theorems: parameter validation in `mu_cmd_find` -/

/-- A failing `query_params_valid` has set an error whose code is not `MU_OK`, and
has made no call. -/
theorem query_params_valid_fails (env : Env) (opts : MuConfig)
    (hfail : (query_params_valid env opts).val = false) :
    (∃ e, (query_params_valid env opts).err = some e ∧ e.code ≠ .MU_OK)
      ∧ (query_params_valid env opts).trace = [] := by
  unfold query_params_valid at hfail ⊢
  by_cases hq : opts.params[1]?.isNone = true
  · simp [hq]
  · by_cases hdir : env.check_dir env.xapiandb_path = true
    · simp [hq, hdir] at hfail
    · simp [hq, hdir]

/-- A failing `format_params_valid` has set an `MU_ERROR_IN_PARAMETERS` error and
has made no call. -/
theorem format_params_valid_fails (opts : MuConfig)
    (hfail : (format_params_valid opts).val = false) :
    (∃ e, (format_params_valid opts).err = some e ∧ e.code ≠ .MU_OK)
      ∧ (format_params_valid opts).trace = [] := by
  unfold format_params_valid at hfail ⊢
  cases hfmt : opts.format <;> cases hexec : opts.exec <;> cases hdir : opts.linksdir <;>
    simp [hfmt, hexec, hdir] at hfail ⊢

/-- The conditions that make validation fail: a missing query, an unknown output
format, the links format without a links directory, a links directory with another
format. -/
theorem validation_fails_of (env : Env) (opts : MuConfig) :
    (opts.params[1]? = none → (query_params_valid env opts).val = false)
      ∧ (opts.format = .MU_CONFIG_FORMAT_UNKNOWN → (format_params_valid opts).val = false)
      ∧ (opts.format = .MU_CONFIG_FORMAT_LINKS → opts.linksdir = none →
          (format_params_valid opts).val = false)
      ∧ (opts.linksdir.isSome = true → opts.format ≠ .MU_CONFIG_FORMAT_LINKS →
          (format_params_valid opts).val = false) := by
  refine ⟨?_, ?_, ?_, ?_⟩
  · intro h
    simp [query_params_valid, h]
  · intro h
    simp [format_params_valid, h]
  · intro h hdir
    cases hexec : opts.exec <;> simp [format_params_valid, h, hdir, hexec]
  · intro hdir h
    cases hfmt : opts.format <;> cases hexec : opts.exec <;>
      simp_all [format_params_valid]

/-- C6: when `query_params_valid` or `format_params_valid` fails on the adjusted
copy of the options, `mu_cmd_find` returns an error code other than `MU_OK` and its
trace is empty: no `parse_query`, no `run_query`, no output function. The macro
`MU_G_ERROR_CODE` is taken to yield the code of the error that was set. -/
theorem mu_cmd_find_invalid_params (env : Env) (store : Store) (opts : MuConfig)
    (hcode : ∀ e : GError, env.MU_G_ERROR_CODE (some e) = e.code)
    (hinvalid : (query_params_valid env (adjusted_opts opts)).val = false
      ∨ (format_params_valid (adjusted_opts opts)).val = false) :
    ∃ r : Ret MuError, mu_cmd_find env store (some opts) = .returns r
      ∧ r.val ≠ .MU_OK
      ∧ r.trace = []
      ∧ ∀ ev ∈ r.trace, ev.is_store_call = false ∧ ev.is_output_call = false := by
  have hgoal : ∃ r : Ret MuError, mu_cmd_find env store (some opts) = .returns r
      ∧ r.val ≠ .MU_OK ∧ r.trace = [] := by
    by_cases hcmd : opts.cmd = .MU_CONFIG_CMD_FIND
    · by_cases hq : (query_params_valid env (adjusted_opts opts)).val = false
      · obtain ⟨⟨e, he, hne⟩, ht⟩ := query_params_valid_fails env _ hq
        refine ⟨⟨env.MU_G_ERROR_CODE (query_params_valid env (adjusted_opts opts)).err,
          (query_params_valid env (adjusted_opts opts)).err,
          (query_params_valid env (adjusted_opts opts)).trace⟩, ?_, ?_, ht⟩
        · simp [mu_cmd_find, hcmd, hq]
        · simp only [he, hcode]
          exact hne
      · have hf : (format_params_valid (adjusted_opts opts)).val = false := by
          rcases hinvalid with h | h
          · exact absurd h hq
          · exact h
        obtain ⟨⟨e, he, hne⟩, ht⟩ := format_params_valid_fails _ hf
        refine ⟨⟨env.MU_G_ERROR_CODE (format_params_valid (adjusted_opts opts)).err,
          (format_params_valid (adjusted_opts opts)).err,
          (format_params_valid (adjusted_opts opts)).trace⟩, ?_, ?_, ht⟩
        · simp only [Bool.not_eq_false] at hq
          simp [mu_cmd_find, hcmd, hq, hf]
        · simp only [he, hcode]
          exact hne
    · exact ⟨⟨.MU_ERROR_INTERNAL, none, []⟩, by simp [mu_cmd_find, hcmd], by decide, rfl⟩
  obtain ⟨r, hr, hne, ht⟩ := hgoal
  exact ⟨r, hr, hne, ht, by simp [ht]⟩

/-- Witness of C6: `mu find` without a query, in the sample environment. -/
theorem mu_cmd_find_invalid_params_witness :
    ∃ r : Ret MuError,
      mu_cmd_find sample_env sample_store (some { sample_opts with params := ["find"] })
        = .returns r
      ∧ r.val ≠ .MU_OK
      ∧ r.trace = []
      ∧ ∀ ev ∈ r.trace, ev.is_store_call = false ∧ ev.is_output_call = false :=
  mu_cmd_find_invalid_params sample_env sample_store { sample_opts with params := ["find"] }
    (fun _ => rfl) (Or.inl (by decide))

/-! ## Theorems: the reference-list resolver -/

/-- What `dedup_first_seen` keeps: the identifiers of the list not seen before. -/
theorem mem_dedup_first_seen (l : List String) :
    ∀ (seen : List String) (a : String),
      a ∈ dedup_first_seen seen l ↔ a ∈ l ∧ a ∉ seen := by
  induction l with
  | nil => intro seen a; simp [dedup_first_seen]
  | cons x rest ih =>
    intro seen a
    by_cases hx : x ∈ seen
    · simp only [dedup_first_seen, hx, if_true, ih, List.mem_cons]
      constructor
      · rintro ⟨h1, h2⟩
        exact ⟨Or.inr h1, h2⟩
      · rintro ⟨h1 | h1, h2⟩
        · subst h1
          exact absurd hx h2
        · exact ⟨h1, h2⟩
    · simp only [dedup_first_seen, hx, if_false, List.mem_cons, ih]
      constructor
      · rintro (h | ⟨h1, h2⟩)
        · subst h
          exact ⟨Or.inl rfl, hx⟩
        · exact ⟨Or.inr h1, fun h => h2 (Or.inr h)⟩
      · rintro ⟨h1 | h1, h2⟩
        · exact Or.inl h1
        · by_cases hax : a = x
          · exact Or.inl hax
          · refine Or.inr ⟨h1, ?_⟩
            rintro (h | h)
            · exact hax h
            · exact h2 h

/-- The list that `dedup_first_seen` returns has no duplicate. -/
theorem dedup_first_seen_nodup (l : List String) :
    ∀ seen : List String, (dedup_first_seen seen l).Nodup := by
  induction l with
  | nil => intro seen; simp [dedup_first_seen]
  | cons x rest ih =>
    intro seen
    by_cases hx : x ∈ seen
    · simp only [dedup_first_seen, hx, if_true]
      exact ih seen
    · simp only [dedup_first_seen, hx, if_false, List.nodup_cons]
      refine ⟨?_, ih (x :: seen)⟩
      intro hmem
      exact ((mem_dedup_first_seen rest (x :: seen) x).mp hmem).2 (List.mem_cons_self x seen)

/-- The list that `dedup_first_seen` returns is a sublist of its input: nothing is
moved. -/
theorem dedup_first_seen_sublist (l : List String) :
    ∀ seen : List String, (dedup_first_seen seen l).Sublist l := by
  induction l with
  | nil => intro seen; simp [dedup_first_seen]
  | cons x rest ih =>
    intro seen
    by_cases hx : x ∈ seen
    · simp only [dedup_first_seen, hx, if_true]
      exact (ih seen).cons x
    · simp only [dedup_first_seen, hx, if_false]
      exact (ih (x :: seen)).cons₂ x

/-- Deduplication of a list with one more identifier at its end: the identifier is
kept, at the end, exactly when it is new. -/
theorem dedup_first_seen_concat (l : List String) :
    ∀ (seen : List String) (p : String),
      dedup_first_seen seen (l ++ [p])
        = dedup_first_seen seen l ++ (if p ∈ seen ∨ p ∈ l then [] else [p]) := by
  induction l with
  | nil =>
    intro seen p
    by_cases hp : p ∈ seen <;> simp [dedup_first_seen, hp]
  | cons x rest ih =>
    intro seen p
    by_cases hx : x ∈ seen
    · have hcond : (p ∈ seen ∨ p ∈ x :: rest) ↔ (p ∈ seen ∨ p ∈ rest) := by
        simp only [List.mem_cons]
        constructor
        · rintro (h | h | h)
          · exact Or.inl h
          · exact Or.inl (h ▸ hx)
          · exact Or.inr h
        · rintro (h | h)
          · exact Or.inl h
          · exact Or.inr (Or.inr h)
      rw [List.cons_append]
      simp only [dedup_first_seen, hx, if_true, if_congr hcond rfl rfl]
      exact ih seen p
    · have hcond : (p ∈ seen ∨ p ∈ x :: rest) ↔ (p ∈ x :: seen ∨ p ∈ rest) := by
        simp only [List.mem_cons]
        constructor
        · rintro (h | h | h)
          · exact Or.inl (Or.inr h)
          · exact Or.inl (Or.inl h)
          · exact Or.inr h
        · rintro ((h | h) | h)
          · exact Or.inr (Or.inl h)
          · exact Or.inl h
          · exact Or.inr (Or.inr h)
      rw [List.cons_append]
      simp only [dedup_first_seen, hx, if_false, if_congr hcond rfl rfl, List.cons_append]
      exact congrArg (List.cons x) (ih (x :: seen) p)

/-- After filtering and deduplication the identifiers stand in the order of their
first occurrence in the unfiltered list. -/
theorem dedup_first_seen_filter_pairwise (f : String → Bool) (l : List String) :
    ∀ seen : List String,
      (dedup_first_seen seen (l.filter f)).Pairwise
        (fun a b => l.indexOf a < l.indexOf b) := by
  induction l with
  | nil => intro seen; simp [dedup_first_seen]
  | cons x rest ih =>
    intro seen
    have shift : ∀ seen2 : List String,
        (∀ a ∈ dedup_first_seen seen2 (rest.filter f), a ≠ x) →
        (dedup_first_seen seen2 (rest.filter f)).Pairwise
          (fun a b => (x :: rest).indexOf a < (x :: rest).indexOf b) := by
      intro seen2 hne
      refine (ih seen2).imp_of_mem ?_
      intro a b ha hb hab
      rw [List.indexOf_cons_ne _ (Ne.symm (hne a ha)),
        List.indexOf_cons_ne _ (Ne.symm (hne b hb))]
      exact Nat.succ_lt_succ hab
    by_cases hfx : f x = true
    · by_cases hx : x ∈ seen
      · simp only [List.filter_cons, hfx, if_true, dedup_first_seen, hx]
        apply shift seen
        intro a ha hax
        exact ((mem_dedup_first_seen _ _ _).mp ha).2 (hax ▸ hx)
      · simp only [List.filter_cons, hfx, if_true, dedup_first_seen, hx, if_false,
          List.pairwise_cons]
        have hne : ∀ a ∈ dedup_first_seen (x :: seen) (rest.filter f), a ≠ x := by
          intro a ha hax
          exact ((mem_dedup_first_seen _ _ _).mp ha).2 (hax ▸ List.mem_cons_self x seen)
        refine ⟨?_, shift (x :: seen) hne⟩
        intro b hb
        rw [List.indexOf_cons_self, List.indexOf_cons_ne _ (Ne.symm (hne b hb))]
        exact Nat.succ_pos _
    · simp only [List.filter_cons, hfx, if_false, Bool.false_eq_true]
      apply shift seen
      intro a ha hax
      have hfa := (List.mem_filter.mp ((mem_dedup_first_seen _ _ _).mp ha).1).2
      exact hfx (hax ▸ hfa)

/-- The resolver in one line: the chain followed by the back-pointer, without the
skipped tokens, deduplicated. The test for the last element of the chain changes
nothing that deduplication would not do. -/
theorem resolve_eq (malformed : String → Bool) (chain : List String)
    (in_reply_to : Option String) :
    resolve malformed chain in_reply_to
      = dedup_first_seen []
          ((chain ++ in_reply_to.toList).filter (is_token malformed)) := by
  cases in_reply_to with
  | none => simp [resolve, append_back_pointer, tokens]
  | some p =>
    have hfilter : (chain ++ (some p).toList).filter (is_token malformed)
        = tokens malformed chain ++ (if is_token malformed p = true then [p] else []) := by
      by_cases htok : is_token malformed p = true <;>
        simp [tokens, List.filter_append, List.filter_cons, htok]
    rw [hfilter]
    unfold resolve append_back_pointer
    by_cases htok : is_token malformed p = true
    · by_cases hlast : (tokens malformed chain).getLast? = some p
      · have hmem : p ∈ tokens malformed chain := List.mem_of_getLast?_eq_some hlast
        simp only [htok, hlast, bne_self_eq_false, Bool.and_false, if_true, if_false,
          Bool.false_eq_true, dedup_first_seen_concat, hmem, or_true, List.append_nil]
      · have hne : ((tokens malformed chain).getLast? != some p) = true := by
          simpa using hlast
        simp only [htok, hne, Bool.and_self, if_true]
    · simp only [htok, Bool.false_and, if_false, Bool.false_eq_true, List.append_nil]

/-- A back-pointer that the chain already holds changes nothing: it keeps the place
of its first occurrence. -/
theorem resolve_of_mem (malformed : String → Bool) (chain : List String) (p : String)
    (hmem : p ∈ chain) :
    resolve malformed chain (some p) = resolve malformed chain none := by
  rw [resolve_eq, resolve_eq]
  by_cases htok : is_token malformed p = true
  · have hmem2 : p ∈ chain.filter (is_token malformed) := List.mem_filter.mpr ⟨hmem, htok⟩
    simp [List.filter_append, List.filter_cons, htok, dedup_first_seen_concat, hmem2]
  · simp [List.filter_append, List.filter_cons, htok]

/-- A back-pointer that is a token and new to the chain is appended. -/
theorem resolve_of_not_mem (malformed : String → Bool) (chain : List String) (p : String)
    (htok : is_token malformed p = true) (hnew : p ∉ tokens malformed chain) :
    resolve malformed chain (some p) = resolve malformed chain none ++ [p] := by
  rw [resolve_eq, resolve_eq]
  have hnew2 : p ∉ chain.filter (is_token malformed) := hnew
  simp [List.filter_append, List.filter_cons, htok, dedup_first_seen_concat, hnew2]

/-- C7: the list that `resolve` returns holds no identifier twice; it is a sublist
of the chain followed by the back-pointer, so nothing is moved; its identifiers
stand in the order of their first occurrence in that input; and it holds exactly
the identifiers of the input that are not skipped. -/
theorem resolve_unique_first_seen (malformed : String → Bool) (chain : List String)
    (in_reply_to : Option String) :
    (resolve malformed chain in_reply_to).Nodup
      ∧ (resolve malformed chain in_reply_to).Sublist (chain ++ in_reply_to.toList)
      ∧ (resolve malformed chain in_reply_to).Pairwise
          (fun a b => (chain ++ in_reply_to.toList).indexOf a
            < (chain ++ in_reply_to.toList).indexOf b)
      ∧ ∀ a : String, a ∈ resolve malformed chain in_reply_to
          ↔ a ∈ chain ++ in_reply_to.toList ∧ is_token malformed a = true := by
  rw [resolve_eq]
  refine ⟨dedup_first_seen_nodup _ _, ?_, dedup_first_seen_filter_pairwise _ _ _, ?_⟩
  · exact (dedup_first_seen_sublist _ _).trans (List.filter_sublist _)
  · intro a
    rw [mem_dedup_first_seen, List.mem_filter]
    simp

/-- C8, where it fails: the back-pointer `p@x` is the first element of the chain
`p@x a@x`, so it is not appended and does not move; the last element of the list is
`a@x`, not the back-pointer. -/
theorem resolve_last_not_back_pointer :
    resolve no_token_malformed ["p@x", "a@x"] (some "p@x") = ["p@x", "a@x"]
      ∧ (resolve no_token_malformed ["p@x", "a@x"] (some "p@x")).getLast? ≠ some "p@x" := by
  decide

/-- C8 as amended: when the back-pointer `p` is a token (not empty, not malformed)
and does not occur among the tokens of the chain before the last one, the last
element of `resolve chain p` is `p`. -/
theorem resolve_last_is_back_pointer (malformed : String → Bool) (chain : List String)
    (p : String) (htok : is_token malformed p = true)
    (hpos : p ∉ (tokens malformed chain).dropLast) :
    (resolve malformed chain (some p)).getLast? = some p := by
  have hnone : resolve malformed chain none = dedup_first_seen [] (tokens malformed chain) :=
    rfl
  by_cases hmem : p ∈ tokens malformed chain
  · have hchain : p ∈ chain := (List.mem_filter.mp hmem).1
    rw [resolve_of_mem malformed chain p hchain, hnone]
    cases hlast : (tokens malformed chain).getLast? with
    | none =>
      rw [List.getLast?_eq_none_iff] at hlast
      rw [hlast] at hmem
      simp at hmem
    | some a =>
      have hsplit := List.dropLast_append_getLast? a hlast
      have hpa : p = a := by
        rw [← hsplit] at hmem
        rcases List.mem_append.mp hmem with h | h
        · exact absurd h hpos
        · simpa using h
      subst hpa
      rw [← hsplit, dedup_first_seen_concat]
      simp [hpos]
  · rw [resolve_of_not_mem malformed chain p htok hmem]
    simp

/-- Witness of C8 as amended: the back-pointer is the last token of the chain. -/
theorem resolve_last_is_back_pointer_witness :
    (resolve no_token_malformed ["a@x", "p@x", ""] (some "p@x")).getLast? = some "p@x" :=
  resolve_last_is_back_pointer no_token_malformed ["a@x", "p@x", ""] "p@x"
    (by decide) (by decide)

/-- C9, where it fails: the back-pointer is supplied as the empty string, which
occurs nowhere in the chain `a@x`. An empty token is skipped, so nothing is appended:
the list is that of the chain alone, not that list with the back-pointer at its
end. -/
theorem resolve_empty_back_pointer_skipped :
    "" ∉ ["a@x"]
      ∧ resolve no_token_malformed ["a@x"] (some "") = ["a@x"]
      ∧ resolve no_token_malformed ["a@x"] (some "")
          ≠ resolve no_token_malformed ["a@x"] none ++ [""] := by
  decide

/-- C9 as amended: a back-pointer equal to the last element of the chain changes
nothing, so the list does not grow; a back-pointer that is a token (not empty, not
malformed) and occurs nowhere in the chain is appended to the list of the chain
alone; a back-pointer that is empty or malformed is skipped and changes nothing. -/
theorem resolve_back_pointer (malformed : String → Bool) (chain : List String)
    (p : String) :
    (chain.getLast? = some p →
        resolve malformed chain (some p) = resolve malformed chain none
          ∧ (resolve malformed chain (some p)).length
              ≤ (resolve malformed chain none).length)
      ∧ (is_token malformed p = true → p ∉ chain →
          resolve malformed chain (some p) = resolve malformed chain none ++ [p])
      ∧ (is_token malformed p = false →
          resolve malformed chain (some p) = resolve malformed chain none) := by
  refine ⟨?_, ?_, ?_⟩
  · intro hlast
    have h := resolve_of_mem malformed chain p (List.mem_of_getLast?_eq_some hlast)
    exact ⟨h, by rw [h]⟩
  · intro htok hnew
    exact resolve_of_not_mem malformed chain p htok
      (fun h => hnew (List.mem_filter.mp h).1)
  · intro hskip
    rw [resolve_eq, resolve_eq]
    simp [List.filter_append, List.filter_cons, hskip]

/-- Witness of C9 as amended: the back-pointer `p@x` after the chain `a@x p@x` and
after the chain `a@x`, and the empty back-pointer after the chain `a@x`. -/
theorem resolve_back_pointer_witness :
    (resolve no_token_malformed ["a@x", "p@x"] (some "p@x")
        = resolve no_token_malformed ["a@x", "p@x"] none
      ∧ (resolve no_token_malformed ["a@x", "p@x"] (some "p@x")).length
          ≤ (resolve no_token_malformed ["a@x", "p@x"] none).length)
      ∧ resolve no_token_malformed ["a@x"] (some "p@x")
          = resolve no_token_malformed ["a@x"] none ++ ["p@x"]
      ∧ resolve no_token_malformed ["a@x"] (some "")
          = resolve no_token_malformed ["a@x"] none :=
  ⟨(resolve_back_pointer no_token_malformed ["a@x", "p@x"] "p@x").1 (by decide),
    (resolve_back_pointer no_token_malformed ["a@x"] "p@x").2.1 (by decide) (by decide),
    (resolve_back_pointer no_token_malformed ["a@x"] "").2.2 (by decide)⟩

/-- C10: `resolve` is a total function into lists, so every input, whatever its
tokens, yields a list and no error; the list holds no empty token, and no skipped
token at all; an empty chain without back-pointer yields the empty list. -/
theorem resolve_total (malformed : String → Bool) (chain : List String)
    (in_reply_to : Option String) :
    (∃ ids : List String, resolve malformed chain in_reply_to = ids)
      ∧ "" ∉ resolve malformed chain in_reply_to
      ∧ (∀ t ∈ resolve malformed chain in_reply_to, is_token malformed t = true)
      ∧ resolve malformed [] none = [] := by
  have hmem : ∀ t ∈ resolve malformed chain in_reply_to, is_token malformed t = true := by
    intro t ht
    rw [resolve_eq, mem_dedup_first_seen] at ht
    exact (List.mem_filter.mp ht.1).2
  refine ⟨⟨_, rfl⟩, ?_, hmem, rfl⟩
  intro h
  have := hmem "" h
  simp [is_token] at this

/-! ## Theorems: `xapian_try` and `ContactsCache` -/

/-- C17: no exception leaves `xapian_try`: the two-argument form returns the value
of `func()` when that call returns, and `def` when it throws, whatever it throws; the
one-argument form returns normally in every case. -/
theorem xapian_try_never_throws {α : Type} (func : Except Thrown α) (defval : α) :
    (∃ val, (xapian_try_def func defval).result = .ok val)
      ∧ (∀ val, func = .ok val → (xapian_try_def func defval).result = .ok val)
      ∧ (∀ e, func = .error e → (xapian_try_def func defval).result = .ok defval)
      ∧ (xapian_try func).result = .ok () := by
  cases func with
  | ok val => simp [xapian_try_def, xapian_try]
  | error e => cases e <;> simp [xapian_try_def, xapian_try]

/-- C20: `empty()` returns true exactly when `size()` is 0. -/
theorem contacts_cache_empty_iff {State Contact : Type}
    (decl : ContactsCacheDecl State Contact) (self : State) :
    ContactsCache.empty decl self = true ↔ decl.size self = 0 := by
  simp [ContactsCache.empty]

/-! ## Theorems: paths and the depth-first walk -/

/-- No path is less than itself. -/
theorem path_lt_irrefl (p : List Nat) : path_lt p p = false := by
  induction p with
  | nil => rfl
  | cons a p ih => simp [path_lt, ih]

/-- The comparison of paths is asymmetric. -/
theorem path_lt_asymm (p : List Nat) :
    ∀ q : List Nat, path_lt p q = true → path_lt q p = false := by
  induction p with
  | nil => intro q _; cases q <;> simp [path_lt]
  | cons a p ih =>
    intro q h
    cases q with
    | nil => simp [path_lt] at h
    | cons b q =>
      simp only [path_lt, Bool.or_eq_true, decide_eq_true_eq, Bool.and_eq_true,
        beq_iff_eq] at h
      rcases h with h | ⟨h1, h2⟩
      · have h3 : ¬ b < a := by omega
        have h4 : b ≠ a := by omega
        simp [path_lt, h3, h4]
      · subst h1
        simp [path_lt, ih q h2]

/-- Below a common beginning the comparison is that of the remainders. -/
theorem path_lt_append (above p q : List Nat) :
    path_lt (above ++ p) (above ++ q) = path_lt p q := by
  induction above with
  | nil => rfl
  | cons a above ih => simp [path_lt, ih]

/-- A path is less than each of its proper extensions. -/
theorem path_lt_extension (p : List Nat) (j : Nat) (r : List Nat) :
    path_lt p (p ++ j :: r) = true := by
  have h := path_lt_append p [] (j :: r)
  simp only [List.append_nil] at h
  rw [h]
  rfl

/-- Below a common parent, what lies under an earlier sibling is less than what lies
under a later one. -/
theorem path_lt_sibling (above : List Nat) (i k : Nat) (r s : List Nat) (hik : i < k) :
    path_lt (above ++ i :: r) (above ++ k :: s) = true := by
  rw [path_lt_append]
  simp [path_lt, hik]

/-- The paths of a visit of siblings: each begins with the path of the parent and a
sibling position not below the starting one, and they increase along the visit, as
soon as the same holds below every node. -/
theorem visit_siblings_paths (visit : ThreadNode → List Nat → List Annotated)
    (depth total : Nat) (above : List Nat)
    (hvisit : ∀ (n : ThreadNode) (path : List Nat),
      (∀ e ∈ visit n path, ∃ j r, e.path = path ++ j :: r)
        ∧ (visit n path).Pairwise (fun a b => path_lt a.path b.path = true))
    (siblings : List ThreadNode) :
    ∀ index : Nat,
      (∀ e ∈ visit_siblings visit depth total above index siblings,
          ∃ k r, index ≤ k ∧ e.path = above ++ k :: r)
        ∧ (visit_siblings visit depth total above index siblings).Pairwise
            (fun a b => path_lt a.path b.path = true) := by
  induction siblings with
  | nil => intro index; simp [visit_siblings]
  | cons n rest ih =>
    intro index
    obtain ⟨hrest_mem, hrest_pw⟩ := ih (index + 1)
    obtain ⟨hsub_mem, hsub_pw⟩ := hvisit n (above ++ [index])
    have hmem : ∀ e ∈ visit_siblings visit depth total above index (n :: rest),
        ∃ k r, index ≤ k ∧ e.path = above ++ k :: r := by
      intro e he
      simp only [visit_siblings, List.mem_cons, List.mem_append] at he
      rcases he with he | he | he
      · exact ⟨index, [], le_refl _, by rw [he]⟩
      · obtain ⟨j, r, hjr⟩ := hsub_mem e he
        exact ⟨index, j :: r, le_refl _, by rw [hjr]; simp⟩
      · obtain ⟨k, r, hk, hkr⟩ := hrest_mem e he
        exact ⟨k, r, by omega, hkr⟩
    refine ⟨hmem, ?_⟩
    simp only [visit_siblings, List.pairwise_cons, List.pairwise_append, List.mem_append]
    refine ⟨?_, hsub_pw, hrest_pw, ?_⟩
    · intro e he
      rcases he with he | he
      · obtain ⟨j, r, hjr⟩ := hsub_mem e he
        rw [hjr]
        exact path_lt_extension _ _ _
      · obtain ⟨k, r, hk, hkr⟩ := hrest_mem e he
        rw [hkr]
        show path_lt (above ++ [index]) (above ++ k :: r) = true
        exact path_lt_sibling above index k [] r (by omega)
    · intro a ha b hb
      obtain ⟨j, r, hjr⟩ := hsub_mem a ha
      obtain ⟨k, s, hk, hks⟩ := hrest_mem b hb
      rw [hjr, hks]
      have : above ++ [index] ++ j :: r = above ++ index :: (j :: r) := by simp
      rw [this]
      exact path_lt_sibling above index k (j :: r) s (by omega)

/-- The paths of the walk: each begins with the path of the parent, and they
increase along the walk. -/
theorem walk_paths (arena : List ThreadNode) (sort_key_of : ThreadNode → Int)
    (descending : Bool) (fuel : Nat) :
    ∀ (depth : Nat) (above : List Nat) (siblings : List ThreadNode),
      (∀ e ∈ walk arena sort_key_of descending fuel depth above siblings,
          ∃ k r, e.path = above ++ k :: r)
        ∧ (walk arena sort_key_of descending fuel depth above siblings).Pairwise
            (fun a b => path_lt a.path b.path = true) := by
  induction fuel with
  | zero => intro depth above siblings; simp [walk]
  | succ fuel ih =>
    intro depth above siblings
    have h := visit_siblings_paths
      (fun n path =>
        walk arena sort_key_of descending fuel (depth + 1) path
          (order_siblings sort_key_of descending (children_of arena n.identifier)))
      depth siblings.length above (fun n path => ih (depth + 1) path _) siblings 0
    refine ⟨?_, h.2⟩
    intro e he
    obtain ⟨k, r, _, hkr⟩ := h.1 e he
    exact ⟨k, r, hkr⟩

/-- What holds of every visited sibling and of everything below, where below means
under the path of a sibling, holds of the whole visit. -/
theorem visit_siblings_forall_below (P : Annotated → Prop)
    (visit : ThreadNode → List Nat → List Annotated) (depth total : Nat) (above : List Nat)
    (hvisit : ∀ (n : ThreadNode) (i : Nat), ∀ e ∈ visit n (above ++ [i]), P e)
    (siblings : List ThreadNode) :
    ∀ index : Nat,
      (∀ n ∈ siblings, ∀ i, P ⟨n, annotate_flags n i total, depth, above ++ [i]⟩) →
      ∀ e ∈ visit_siblings visit depth total above index siblings, P e := by
  induction siblings with
  | nil => intro index _ e he; simp [visit_siblings] at he
  | cons n rest ih =>
    intro index hsib e he
    simp only [visit_siblings, List.mem_cons, List.mem_append] at he
    rcases he with he | he | he
    · rw [he]
      exact hsib n (List.mem_cons_self _ _) index
    · exact hvisit n index e he
    · exact ih (index + 1) (fun m hm i => hsib m (List.mem_cons_of_mem _ hm) i) e he

/-- The shape of the paths of the walk: a path has one position per level from the
start of the walk down to the element, and its last position is the position among
the ordered siblings from which `First` and `Last` are taken. -/
theorem walk_path_shape (arena : List ThreadNode) (sort_key_of : ThreadNode → Int)
    (descending : Bool) (fuel : Nat) :
    ∀ (depth : Nat) (above : List Nat) (siblings : List ThreadNode),
      ∀ e ∈ walk arena sort_key_of descending fuel depth above siblings,
        e.path.length + depth = e.depth + above.length + 1
          ∧ ∃ i t, e.path.getLast? = some i ∧ e.flags = annotate_flags e.node i t := by
  induction fuel with
  | zero => intro depth above siblings e he; simp [walk] at he
  | succ fuel ih =>
    intro depth above siblings e he
    refine visit_siblings_forall_below
      (fun e => e.path.length + depth = e.depth + above.length + 1
        ∧ ∃ i t, e.path.getLast? = some i ∧ e.flags = annotate_flags e.node i t)
      _ depth siblings.length above ?_ siblings 0 ?_ e he
    · intro n i e he
      obtain ⟨hlen, hlast⟩ := ih (depth + 1) (above ++ [i]) _ e he
      refine ⟨?_, hlast⟩
      simp only [List.length_append, List.length_singleton] at hlen
      omega
    · intro n _ i
      exact ⟨by simp only [List.length_append, List.length_singleton]; omega, i,
        siblings.length, by simp, rfl⟩

/-- Along the annotated sequence, the order of the pre-order depth-first walk, the
lists of positions strictly increase; so of two elements at distinct places the one
visited first is the one whose positions compare less. The list of positions of an
element has one position per level, as many as its depth, the last one being its
position among its ordered siblings, which is 0 exactly when `First` is set. -/
theorem annotate_positions_increase (forest : Forest) (sort_key_of : ThreadNode → Int)
    (descending : Bool) :
    (annotate forest sort_key_of descending).Pairwise
        (fun a b => path_lt a.path b.path = true)
      ∧ (∀ e ∈ annotate forest sort_key_of descending,
          e.path.length = e.depth
            ∧ ∃ i, e.path.getLast? = some i ∧ (e.flags.first = true ↔ i = 0))
      ∧ ∀ (i j : Nat) (hi : i < (annotate forest sort_key_of descending).length)
          (hj : j < (annotate forest sort_key_of descending).length), i ≠ j →
          (i < j ↔ path_lt ((annotate forest sort_key_of descending).get ⟨i, hi⟩).path
            ((annotate forest sort_key_of descending).get ⟨j, hj⟩).path = true) := by
  have hpw : (annotate forest sort_key_of descending).Pairwise
      (fun a b => path_lt a.path b.path = true) :=
    (walk_paths forest.arena sort_key_of descending forest.arena.length 1 [] _).2
  refine ⟨hpw, ?_, ?_⟩
  · intro e he
    obtain ⟨hlen, i, t, hlast, hflags⟩ := walk_path_shape _ _ _ _ _ _ _ e he
    refine ⟨by simpa using hlen, i, hlast, ?_⟩
    rw [hflags]
    simp [annotate_flags]
  intro i j hi hj hij
  constructor
  · intro hlt
    exact List.pairwise_iff_get.mp hpw ⟨i, hi⟩ ⟨j, hj⟩ hlt
  · intro hpath
    by_contra hnot
    have hji : j < i := by omega
    have h := List.pairwise_iff_get.mp hpw ⟨j, hj⟩ ⟨i, hi⟩ hji
    have h2 := path_lt_asymm _ _ hpath
    rw [h] at h2
    exact absurd h2 (by decide)

/-! ## Theorems: the path key -/

/-- Joining a list of strings that starts with `s`. -/
theorem string_join_cons (s : String) (l : List String) :
    String.join (s :: l) = s ++ String.join l := by
  have h : ∀ (l : List String) (acc : String),
      List.foldl (fun r s => r ++ s) acc l = acc ++ List.foldl (fun r s => r ++ s) "" l := by
    intro l
    induction l with
    | nil => intro acc; simp
    | cons x xs ih =>
      intro acc
      simp only [List.foldl_cons]
      rw [ih (acc ++ x), ih ("" ++ x)]
      simp [String.append_assoc]
  simp only [String.join, List.foldl_cons]
  rw [h l ("" ++ s)]
  simp

/-- The lexical comparison of two lists that begin with elements. -/
theorem lex_cons_cons {α : Type} (r : α → α → Prop) (a b : α) (l1 l2 : List α) :
    List.Lex r (a :: l1) (b :: l2) ↔ r a b ∨ (a = b ∧ List.Lex r l1 l2) := by
  constructor
  · intro h
    cases h with
    | cons h2 => exact Or.inr ⟨rfl, h2⟩
    | rel h2 => exact Or.inl h2
  · rintro (h | ⟨h1, h2⟩)
    · exact List.Lex.rel h
    · rw [h1]
      exact List.Lex.cons h2

/-- The lexical comparison of two lists that begin with parts of the same length: the
parts decide, and what follows decides when the parts are equal. -/
theorem lex_append_of_length_eq {α : Type} (r : α → α → Prop) (u : List α) :
    ∀ (v x y : List α), u.length = v.length →
      (List.Lex r (u ++ x) (v ++ y) ↔ List.Lex r u v ∨ (u = v ∧ List.Lex r x y)) := by
  induction u with
  | nil =>
    intro v x y hlen
    cases v with
    | nil =>
      simp only [List.nil_append, true_and]
      constructor
      · exact fun h => Or.inr h
      · rintro (h | h)
        · cases h
        · exact h
    | cons b v => simp at hlen
  | cons a u ih =>
    intro v x y hlen
    cases v with
    | nil => simp at hlen
    | cons b v =>
      have hlen2 : u.length = v.length := by simpa using hlen
      simp only [List.cons_append, lex_cons_cons, ih v x y hlen2, List.cons.injEq]
      tauto

/-- The decimal digits compare as the numbers below ten they stand for. -/
theorem digit_char_lt (a b : Nat) (ha : a < 10) (hb : b < 10) :
    (Nat.digitChar a < Nat.digitChar b ↔ a < b)
      ∧ (Nat.digitChar a = Nat.digitChar b ↔ a = b) := by
  interval_cases a <;> interval_cases b <;> decide

/-- A position is written with as many digits as the width says. -/
theorem length_position_digits (width : Nat) :
    ∀ position : Nat, (position_digits width position).length = width := by
  induction width with
  | zero => intro position; rfl
  | succ width ih => intro position; simp [position_digits, ih]

/-- Positions that the width has room for compare as their digits do, and are equal
when their digits are. -/
theorem position_digits_lt (width : Nat) :
    ∀ a b : Nat, a < 10 ^ width → b < 10 ^ width →
      (List.Lex (fun x y : Char => x < y) (position_digits width a)
          (position_digits width b) ↔ a < b)
        ∧ (position_digits width a = position_digits width b ↔ a = b) := by
  induction width with
  | zero =>
    intro a b ha hb
    have ha0 : a = 0 := by simpa using ha
    have hb0 : b = 0 := by simpa using hb
    subst ha0
    subst hb0
    simp only [position_digits, lt_self_iff_false, iff_false, true_and]
    refine ⟨?_, trivial⟩
    intro h
    cases h
  | succ width ih =>
    intro a b ha hb
    have hpow : 10 ^ (width + 1) = 10 ^ width * 10 := pow_succ 10 width
    have ha2 : a / 10 < 10 ^ width := by omega
    have hb2 : b / 10 < 10 ^ width := by omega
    obtain ⟨ihlt, iheq⟩ := ih (a / 10) (b / 10) ha2 hb2
    obtain ⟨hdlt, hdeq⟩ := digit_char_lt (a % 10) (b % 10) (Nat.mod_lt _ (by decide))
      (Nat.mod_lt _ (by decide))
    have hlen : (position_digits width (a / 10)).length
        = (position_digits width (b / 10)).length := by
      rw [length_position_digits, length_position_digits]
    constructor
    · simp only [position_digits]
      rw [lex_append_of_length_eq _ _ _ _ _ hlen, ihlt, iheq, lex_cons_cons, hdlt]
      constructor
      · rintro (h | ⟨h1, h2 | ⟨_, h3⟩⟩)
        · omega
        · omega
        · cases h3
      · intro h
        by_cases hq : a / 10 < b / 10
        · exact Or.inl hq
        · exact Or.inr ⟨by omega, Or.inl (by omega)⟩
    · simp only [position_digits]
      constructor
      · intro h
        obtain ⟨h1, h2⟩ := List.append_inj h hlen
        have h3 := iheq.mp h1
        have h4 := hdeq.mp (by simpa using h2)
        omega
      · intro h
        rw [h]

/-- The characters of a path key: the digits of its positions, one position after the
other. -/
theorem path_key_data (width : Nat) (path : List Nat) :
    (path_key width path).data = path.flatMap (position_digits width) := by
  induction path with
  | nil => rfl
  | cons a rest ih =>
    unfold path_key at ih ⊢
    rw [List.map_cons, string_join_cons, String.data_append, ih]
    rfl

/-- The lexical comparison of path keys is the comparison of the paths position by
position, as soon as the width is at least one and has room for every position. -/
theorem path_key_lt (width : Nat) (hwidth : 1 ≤ width) (p : List Nat) :
    ∀ q : List Nat, (∀ i ∈ p, i < 10 ^ width) → (∀ i ∈ q, i < 10 ^ width) →
      (path_key width p < path_key width q ↔ path_lt p q = true) := by
  have hnil : ∀ l : List Char, ¬ List.Lex (fun x y : Char => x < y) l [] := by
    intro l h
    cases h
  have hlex : ∀ p q : List Nat, (∀ i ∈ p, i < 10 ^ width) → (∀ i ∈ q, i < 10 ^ width) →
      (List.Lex (fun x y : Char => x < y) (p.flatMap (position_digits width))
          (q.flatMap (position_digits width)) ↔ path_lt p q = true) := by
    intro p
    induction p with
    | nil =>
      intro q _ hq
      cases q with
      | nil =>
        simp only [List.flatMap_nil, path_lt, Bool.false_eq_true, iff_false]
        intro h
        cases h
      | cons b q =>
        simp only [List.flatMap_nil, List.flatMap_cons, path_lt, iff_true]
        have hne : position_digits width b ≠ [] := by
          intro h
          have := length_position_digits width b
          rw [h] at this
          simp at this
          omega
        cases hd : position_digits width b with
        | nil => exact absurd hd hne
        | cons c cs => exact List.Lex.nil
    | cons a p ih =>
      intro q hp hq
      cases q with
      | nil =>
        simp only [List.flatMap_nil, path_lt, Bool.false_eq_true, iff_false]
        exact hnil _
      | cons b q =>
        have ha := hp a (List.mem_cons_self _ _)
        have hb := hq b (List.mem_cons_self _ _)
        obtain ⟨hlt, heq⟩ := position_digits_lt width a b ha hb
        have hlen : (position_digits width a).length = (position_digits width b).length := by
          rw [length_position_digits, length_position_digits]
        simp only [List.flatMap_cons, path_lt, Bool.or_eq_true, decide_eq_true_eq,
          Bool.and_eq_true, beq_iff_eq]
        rw [lex_append_of_length_eq _ _ _ _ _ hlen, hlt, heq,
          ih q (fun i hi => hp i (List.mem_cons_of_mem _ hi))
            (fun i hi => hq i (List.mem_cons_of_mem _ hi))]
  intro q hp hq
  rw [String.lt_iff_toList_lt]
  show List.Lex (fun x y : Char => x < y) (path_key width p).data (path_key width q).data
    ↔ path_lt p q = true
  rw [path_key_data, path_key_data]
  exact hlex p q hp hq

/-- The number of decimal digits of a number has room for the number. -/
theorem lt_pow_decimal_width (fuel : Nat) :
    ∀ n : Nat, n ≤ fuel → n < 10 ^ decimal_width fuel n ∧ 1 ≤ decimal_width fuel n := by
  induction fuel with
  | zero =>
    intro n hn
    have : n = 0 := by omega
    subst this
    simp [decimal_width]
  | succ fuel ih =>
    intro n hn
    unfold decimal_width
    by_cases hsmall : n < 10
    · simp [hsmall]
    · simp only [hsmall, if_false]
      obtain ⟨h1, _⟩ := ih (n / 10) (by omega)
      refine ⟨?_, by omega⟩
      rw [pow_succ]
      omega

/-- No element of a list is larger than the largest one. -/
theorem le_foldl_max (l : List Nat) :
    ∀ acc : Nat, acc ≤ l.foldl max acc ∧ ∀ x ∈ l, x ≤ l.foldl max acc := by
  induction l with
  | nil => intro acc; simp
  | cons y rest ih =>
    intro acc
    obtain ⟨h1, h2⟩ := ih (max acc y)
    simp only [List.foldl_cons, List.mem_cons]
    refine ⟨le_trans (le_max_left _ _) h1, ?_⟩
    rintro x (hx | hx)
    · rw [hx]
      exact le_trans (le_max_right _ _) h1
    · exact h2 x hx

/-- The width of the path keys of a sequence is at least one and has room for every
position of every path of the sequence. -/
theorem key_width_room (sequence : List Annotated) :
    1 ≤ key_width sequence
      ∧ ∀ e ∈ sequence, ∀ i ∈ e.path, i < 10 ^ key_width sequence := by
  obtain ⟨hroom, hone⟩ := lt_pow_decimal_width (largest_position sequence)
    (largest_position sequence) (le_refl _)
  refine ⟨hone, ?_⟩
  intro e he i hi
  have hle : i ≤ largest_position sequence := by
    unfold largest_position
    exact (le_foldl_max _ 0).2 i (List.mem_flatMap.mpr ⟨e, he, hi⟩)
  exact lt_of_le_of_lt hle hroom

/-- C16: in the annotated sequence of every forest, the order of the pre-order
depth-first walk, of two elements at distinct places the one visited first is the
one whose path compares less, the path being the string that concatenates the
zero-based sibling positions from the root down to the node, each written with the
number of digits that the largest position of the sequence needs, and the comparison
the lexical comparison of strings. This holds whatever the size of the sibling
groups and also when one path begins with the other; so with eleven roots the third
root `02` stands before the eleventh `10`, and a root `10` before its child `1000`.
The path holds one position per level, as many as the depth of the element, the
last one being 0 exactly when `First` is set. -/
theorem annotate_order_is_path_order (forest : Forest) (sort_key_of : ThreadNode → Int)
    (descending : Bool) :
    (∀ (i j : Nat) (hi : i < (annotate forest sort_key_of descending).length)
        (hj : j < (annotate forest sort_key_of descending).length), i ≠ j →
        (i < j ↔
          thread_path (annotate forest sort_key_of descending)
              ((annotate forest sort_key_of descending).get ⟨i, hi⟩)
            < thread_path (annotate forest sort_key_of descending)
              ((annotate forest sort_key_of descending).get ⟨j, hj⟩)))
      ∧ (∀ e ∈ annotate forest sort_key_of descending,
          (thread_path (annotate forest sort_key_of descending) e).data.length
              = key_width (annotate forest sort_key_of descending) * e.depth
            ∧ e.path.length = e.depth
            ∧ ∃ i, e.path.getLast? = some i ∧ (e.flags.first = true ↔ i = 0))
      ∧ (annotate (build sample_eleven []) ThreadNode.sort_key false).map
          (fun e => (e.node.identifier,
            thread_path (annotate (build sample_eleven []) ThreadNode.sort_key false) e))
        = [("m0@x", "00"), ("m1@x", "01"), ("m2@x", "02"), ("m3@x", "03"), ("m4@x", "04"),
           ("m5@x", "05"), ("m6@x", "06"), ("m7@x", "07"), ("m8@x", "08"), ("m9@x", "09"),
           ("m10@x", "10"), ("r@x", "1000")] := by
  obtain ⟨hpos, hshape, hiff⟩ := annotate_positions_increase forest sort_key_of descending
  obtain ⟨hone, hroom⟩ := key_width_room (annotate forest sort_key_of descending)
  refine ⟨?_, ?_, by decide⟩
  · intro i j hi hj hij
    rw [hiff i j hi hj hij]
    unfold thread_path
    rw [path_key_lt _ hone _ _ (hroom _ (List.get_mem _ _ _)) (hroom _ (List.get_mem _ _ _))]
  · intro e he
    obtain ⟨hlen, hlast⟩ := hshape e he
    refine ⟨?_, hlen, hlast⟩
    unfold thread_path
    rw [path_key_data, ← hlen]
    generalize e.path = path
    induction path with
    | nil => simp
    | cons a rest ih =>
      simp only [List.flatMap_cons, List.length_append, length_position_digits, ih,
        List.length_cons]
      rw [Nat.mul_succ, Nat.add_comm]

/-- Ordering siblings keeps the siblings. -/
theorem mem_insert_sibling (sort_key_of : ThreadNode → Int) (descending : Bool)
    (x a : ThreadNode) (l : List ThreadNode) :
    a ∈ insert_sibling sort_key_of descending x l ↔ a = x ∨ a ∈ l := by
  induction l with
  | nil => simp [insert_sibling]
  | cons y rest ih =>
    simp only [insert_sibling]
    split
    · simp
    · simp only [List.mem_cons, ih]
      tauto

/-- Ordering siblings keeps the siblings. -/
theorem mem_order_siblings (sort_key_of : ThreadNode → Int) (descending : Bool)
    (a : ThreadNode) (l : List ThreadNode) :
    a ∈ order_siblings sort_key_of descending l ↔ a ∈ l := by
  induction l with
  | nil => simp [order_siblings]
  | cons x rest ih => simp [order_siblings, mem_insert_sibling, ih]

/-- What holds of every visited sibling and of everything below holds of the whole
visit. -/
theorem visit_siblings_forall (P : Annotated → Prop)
    (visit : ThreadNode → List Nat → List Annotated) (depth total : Nat) (above : List Nat)
    (hvisit : ∀ (n : ThreadNode) (path : List Nat), ∀ e ∈ visit n path, P e)
    (siblings : List ThreadNode) :
    ∀ index : Nat,
      (∀ n ∈ siblings, ∀ i, P ⟨n, annotate_flags n i total, depth, above ++ [i]⟩) →
      ∀ e ∈ visit_siblings visit depth total above index siblings, P e := by
  induction siblings with
  | nil => intro index _ e he; simp [visit_siblings] at he
  | cons n rest ih =>
    intro index hsib e he
    simp only [visit_siblings, List.mem_cons, List.mem_append] at he
    rcases he with he | he | he
    · rw [he]
      exact hsib n (List.mem_cons_self _ _) index
    · exact hvisit n _ e he
    · exact ih (index + 1) (fun m hm i => hsib m (List.mem_cons_of_mem _ hm) i) e he

/-- Every element of the walk carries a sibling or a node of the arena, with the
flags, taken from the node, that the annotator gives. -/
theorem walk_elements (arena : List ThreadNode) (sort_key_of : ThreadNode → Int)
    (descending : Bool) (fuel : Nat) :
    ∀ (depth : Nat) (above : List Nat) (siblings : List ThreadNode),
      ∀ e ∈ walk arena sort_key_of descending fuel depth above siblings,
        (e.node ∈ siblings ∨ e.node ∈ arena)
          ∧ ∃ i t, e.flags = annotate_flags e.node i t := by
  induction fuel with
  | zero => intro depth above siblings e he; simp [walk] at he
  | succ fuel ih =>
    intro depth above siblings e he
    refine visit_siblings_forall
      (fun e => (e.node ∈ siblings ∨ e.node ∈ arena)
        ∧ ∃ i t, e.flags = annotate_flags e.node i t)
      _ depth siblings.length above ?_ siblings 0 ?_ e he
    · intro n path e he
      obtain ⟨hnode, hflags⟩ := ih (depth + 1) path _ e he
      refine ⟨Or.inr ?_, hflags⟩
      rcases hnode with h | h
      · rw [mem_order_siblings] at h
        exact (List.mem_filter.mp h).1
      · exact h
    · intro n hn i
      exact ⟨Or.inl hn, i, siblings.length, rfl⟩

/-- Every sibling handed to the walk is visited, at the depth of the walk, when the
walk has fuel. -/
theorem walk_visits_siblings (visit : ThreadNode → List Nat → List Annotated)
    (depth total : Nat) (above : List Nat) (siblings : List ThreadNode) :
    ∀ index : Nat, ∀ n ∈ siblings,
      ∃ e ∈ visit_siblings visit depth total above index siblings,
        e.node = n ∧ e.depth = depth := by
  induction siblings with
  | nil => intro index n hn; simp at hn
  | cons m rest ih =>
    intro index n hn
    rcases List.mem_cons.mp hn with h | h
    · exact ⟨_, by simp only [visit_siblings]; exact List.mem_cons_self _ _, h.symm, rfl⟩
    · obtain ⟨e, he, hnode, hdepth⟩ := ih (index + 1) n h
      refine ⟨e, ?_, hnode, hdepth⟩
      simp only [visit_siblings, List.mem_cons, List.mem_append]
      exact Or.inr (Or.inr he)

/-- More elements before the sequence do not hurt. -/
theorem parents_first_mono (l : List Annotated) :
    ∀ seen seen2 : List (String × Nat), (∀ x ∈ seen, x ∈ seen2) →
      ParentsFirst seen l → ParentsFirst seen2 l := by
  induction l with
  | nil => intro _ _ _ _; trivial
  | cons e rest ih =>
    intro seen seen2 hsub h
    obtain ⟨hhead, htail⟩ := h
    refine ⟨?_, ih _ _ ?_ htail⟩
    · rcases hhead with h | ⟨p, d, hmem, hp, hd⟩
      · exact Or.inl h
      · exact Or.inr ⟨p, d, hsub _ hmem, hp, hd⟩
    · intro x hx
      rcases List.mem_cons.mp hx with h | h
      · rw [h]
        exact List.mem_cons_self _ _
      · exact List.mem_cons_of_mem _ (hsub x h)

/-- Two sequences one after the other: the second has the first before it. -/
theorem parents_first_append (l1 : List Annotated) :
    ∀ (seen : List (String × Nat)) (l2 : List Annotated),
      ParentsFirst seen l1 →
      ParentsFirst ((l1.map (fun e => (e.node.identifier, e.depth))).reverse ++ seen) l2 →
      ParentsFirst seen (l1 ++ l2) := by
  induction l1 with
  | nil => intro seen l2 _ h2; simpa using h2
  | cons e rest ih =>
    intro seen l2 h1 h2
    obtain ⟨hhead, htail⟩ := h1
    refine ⟨hhead, ih _ l2 htail ?_⟩
    refine parents_first_mono l2 _ _ ?_ h2
    intro x hx
    simp only [List.map_cons, List.reverse_cons, List.append_assoc, List.singleton_append,
      List.mem_append, List.mem_reverse, List.mem_cons] at hx ⊢
    tauto

/-- A visit of siblings puts parents first: every sibling is a root at depth 1 or a
child of an element that stands before, and so is everything below. -/
theorem visit_siblings_parents_first (visit : ThreadNode → List Nat → List Annotated)
    (depth total : Nat) (above : List Nat)
    (hvisit : ∀ (n : ThreadNode) (path : List Nat) (seen : List (String × Nat)),
      (n.identifier, depth) ∈ seen → ParentsFirst seen (visit n path))
    (siblings : List ThreadNode) :
    ∀ (index : Nat) (seen : List (String × Nat)),
      (∀ s ∈ siblings, (s.parent = none ∧ depth = 1)
        ∨ ∃ p d, (p, d) ∈ seen ∧ s.parent = some p ∧ depth = d + 1) →
      ParentsFirst seen (visit_siblings visit depth total above index siblings) := by
  induction siblings with
  | nil => intro _ _ _; trivial
  | cons n rest ih =>
    intro index seen hsib
    refine ⟨hsib n (List.mem_cons_self _ _), ?_⟩
    refine parents_first_append _ _ _ (hvisit n _ _ (List.mem_cons_self _ _)) ?_
    refine ih (index + 1) _ ?_
    intro s hs
    rcases hsib s (List.mem_cons_of_mem _ hs) with h | ⟨p, d, hmem, hp, hd⟩
    · exact Or.inl h
    · refine Or.inr ⟨p, d, ?_, hp, hd⟩
      exact List.mem_append_right _ (List.mem_cons_of_mem _ hmem)

/-- The walk puts parents first. -/
theorem walk_parents_first (arena : List ThreadNode) (sort_key_of : ThreadNode → Int)
    (descending : Bool) (fuel : Nat) :
    ∀ (depth : Nat) (above : List Nat) (siblings : List ThreadNode)
      (seen : List (String × Nat)),
      (∀ s ∈ siblings, (s.parent = none ∧ depth = 1)
        ∨ ∃ p d, (p, d) ∈ seen ∧ s.parent = some p ∧ depth = d + 1) →
      ParentsFirst seen (walk arena sort_key_of descending fuel depth above siblings) := by
  induction fuel with
  | zero => intro _ _ _ _ _; trivial
  | succ fuel ih =>
    intro depth above siblings seen hsib
    refine visit_siblings_parents_first _ depth siblings.length above ?_ siblings 0 seen hsib
    intro n path seen2 hmem
    refine ih (depth + 1) path _ seen2 ?_
    intro s hs
    rw [mem_order_siblings] at hs
    have hparent : s.parent = some n.identifier := by
      simpa [children_of] using (List.mem_filter.mp hs).2
    exact Or.inr ⟨n.identifier, depth, hmem, hparent, rfl⟩

/-- In a sequence that puts parents first, every element is a root at depth 1 or has
its parent, one level up, in the sequence or before it. -/
theorem parents_first_parent_mem (l : List Annotated) :
    ∀ seen : List (String × Nat), ParentsFirst seen l → ∀ e ∈ l,
      (e.node.parent = none ∧ e.depth = 1)
        ∨ ∃ p d, e.node.parent = some p ∧ e.depth = d + 1
            ∧ ((p, d) ∈ seen ∨ ∃ q ∈ l, q.node.identifier = p ∧ q.depth = d) := by
  induction l with
  | nil => intro _ _ e he; simp at he
  | cons x rest ih =>
    intro seen h e he
    obtain ⟨hhead, htail⟩ := h
    rcases List.mem_cons.mp he with hx | hx
    · rw [hx]
      rcases hhead with h | ⟨p, d, hmem, hp, hd⟩
      · exact Or.inl h
      · exact Or.inr ⟨p, d, hp, hd, Or.inl hmem⟩
    · rcases ih _ htail e hx with h | ⟨p, d, hp, hd, hwhere⟩
      · exact Or.inl h
      · refine Or.inr ⟨p, d, hp, hd, ?_⟩
        rcases hwhere with h | ⟨q, hq, hqid, hqd⟩
        · rcases List.mem_cons.mp h with h2 | h2
          · refine Or.inr ⟨x, List.mem_cons_self _ _, ?_, ?_⟩
            · exact (congrArg Prod.fst h2).symm
            · exact (congrArg Prod.snd h2).symm
          · exact Or.inl h2
        · exact Or.inr ⟨q, List.mem_cons_of_mem _ hq, hqid, hqd⟩

/-! ## Theorems: the identifier-to-node map -/

/-- One message more keeps the state of the map. -/
theorem map_invariant_add_message (origin : Origin) (arena : List ThreadNode)
    (ids : List String) (m : Message) (h : MapInvariant arena ids) :
    MapInvariant (add_message origin arena m) (ids ++ [m.identifier]) := by
  obtain ⟨hnodup, hmem, hfresh, hdup⟩ := h
  by_cases hin : m.identifier ∈ arena.map ThreadNode.identifier
  · have hids : (add_message origin arena m).map ThreadNode.identifier
        = arena.map ThreadNode.identifier := by
      simp only [add_message, hin, if_true, List.map_map]
      apply List.map_congr_left
      intro n _
      simp only [Function.comp]
      split <;> rfl
    refine ⟨by rw [hids]; exact hnodup, ?_, ?_, ?_⟩
    · intro x
      rw [hids, List.mem_append, List.mem_singleton, hmem]
      constructor
      · exact Or.inl
      · rintro (h | h)
        · exact h
        · rw [h]
          exact (hmem _).mp hin
    · intro n hn
      simp only [add_message, hin, if_true, List.mem_map] at hn
      obtain ⟨n0, hn0, rfl⟩ := hn
      split
      · exact hfresh n0 hn0
      · exact hfresh n0 hn0
    · intro n hn
      simp only [add_message, hin, if_true, List.mem_map] at hn
      obtain ⟨n0, hn0, rfl⟩ := hn
      by_cases hid : n0.identifier = m.identifier
      · have hcount : 1 ≤ ids.count m.identifier :=
          List.one_le_count_iff.mpr ((hmem _).mp hin)
        simp only [hid, if_true, List.count_append, List.count_singleton_self]
        constructor
        · intro _
          omega
        · intro _
          trivial
      · have hne : ¬ (m.identifier == n0.identifier) = true := by
          simpa using fun h => hid h.symm
        simp only [hid, if_false, List.count_append, List.count_singleton, hne,
          Nat.add_zero]
        exact hdup n0 hn0
  · have hnot : m.identifier ∉ ids := fun h => hin ((hmem _).mpr h)
    have hids : (add_message origin arena m).map ThreadNode.identifier
        = arena.map ThreadNode.identifier ++ [m.identifier] := by
      simp [add_message, hin, new_node]
    refine ⟨?_, ?_, ?_, ?_⟩
    · rw [hids]
      exact List.Nodup.append hnodup (List.nodup_singleton _)
        (by simpa [List.Disjoint] using hin)
    · intro x
      rw [hids, List.mem_append, List.mem_append, hmem]
    · intro n hn
      simp only [add_message, hin, if_false, List.mem_append, List.mem_singleton] at hn
      rcases hn with hn | hn
      · exact hfresh n hn
      · rw [hn]
        exact ⟨rfl, rfl⟩
    · intro n hn
      simp only [add_message, hin, if_false, List.mem_append, List.mem_singleton] at hn
      rcases hn with hn | hn
      · have hid : n.identifier ≠ m.identifier := by
          intro h
          exact hin (h ▸ List.mem_map_of_mem _ hn)
        have hne : ¬ (m.identifier == n.identifier) = true := by
          simpa using fun h => hid h.symm
        simp only [List.count_append, List.count_singleton, hne, Nat.add_zero]
        exact hdup n hn
      · rw [hn]
        simp only [new_node, List.count_append, List.count_singleton_self,
          List.count_eq_zero_of_not_mem hnot]
        constructor
        · intro h
          exact absurd h (by decide)
        · intro h
          omega

/-- Any number of messages more keep the state of the map. -/
theorem map_invariant_foldl (origin : Origin) (ms : List Message) :
    ∀ (arena : List ThreadNode) (ids : List String), MapInvariant arena ids →
      MapInvariant (ms.foldl (add_message origin) arena)
        (ids ++ ms.map Message.identifier) := by
  induction ms with
  | nil => intro arena ids h; simpa using h
  | cons m rest ih =>
    intro arena ids h
    have h2 := ih _ _ (map_invariant_add_message origin arena ids m h)
    simpa using h2

/-- The state of the map that build starts from. -/
theorem node_map_invariant (candidates relatives : List Message) :
    MapInvariant (node_map candidates relatives)
      ((candidates ++ relatives).map Message.identifier) := by
  have h0 : MapInvariant [] [] := by
    refine ⟨by simp, by simp, ?_, ?_⟩ <;> intro n hn <;> simp at hn
  have h1 := map_invariant_foldl .Matched candidates [] [] h0
  have h2 := map_invariant_foldl .Related relatives _ _ h1
  simpa [node_map] using h2

/-! ## Theorems: attaching nodes -/

/-- In an arena without repeated identifier, two nodes with the same identifier are
the same node. -/
theorem eq_of_identifier_eq {arena : List ThreadNode}
    (hnodup : (arena.map ThreadNode.identifier).Nodup) {a b : ThreadNode}
    (ha : a ∈ arena) (hb : b ∈ arena) (hid : a.identifier = b.identifier) : a = b :=
  List.inj_on_of_nodup_map hnodup ha hb hid

/-- In an arena without repeated identifier, the lookup of the identifier of a node
finds that node. -/
theorem lookup_node_of_mem {arena : List ThreadNode}
    (hnodup : (arena.map ThreadNode.identifier).Nodup) {n : ThreadNode} (hn : n ∈ arena) :
    lookup_node arena n.identifier = some n := by
  unfold lookup_node
  cases hf : arena.find? (fun x => decide (x.identifier = n.identifier)) with
  | none =>
    have := List.find?_eq_none.mp hf n hn
    simp at this
  | some x =>
    have hx : x ∈ arena := List.mem_of_find?_eq_some hf
    have hid : x.identifier = n.identifier := by
      have := List.find?_some hf
      simpa using this
    rw [eq_of_identifier_eq hnodup hx hn hid]

/-- A change of nodes that keeps their core keeps the cores of the arena. -/
theorem map_core_eq (f : ThreadNode → ThreadNode)
    (hf : ∀ n, node_core (f n) = node_core n) (arena : List ThreadNode) :
    (arena.map f).map node_core = arena.map node_core := by
  rw [List.map_map]
  exact List.map_congr_left (fun n _ => hf n)

/-- Marking a node `Orphan` keeps the cores. -/
theorem mark_orphan_core (arena : List ThreadNode) (id : String) :
    (mark_orphan arena id).map node_core = arena.map node_core := by
  apply map_core_eq
  intro n
  split <;> rfl

/-- Attaching a node keeps the cores. -/
theorem set_parent_core (arena : List ThreadNode) (id p : String) :
    (set_parent arena id p).map node_core = arena.map node_core := by
  apply map_core_eq
  intro n
  split <;> rfl

/-- The attempt to attach a node keeps the cores. -/
theorem attach_core (arena : List ThreadNode) (node : ThreadNode) :
    (attach arena node).map node_core = arena.map node_core := by
  unfold attach
  split
  · rfl
  · split
    · split
      · rfl
      · exact set_parent_core _ _ _
    · exact mark_orphan_core _ _

/-- Any number of attempts keep the cores. -/
theorem foldl_attach_core (nodes : List ThreadNode) :
    ∀ arena : List ThreadNode,
      (nodes.foldl attach arena).map node_core = arena.map node_core := by
  induction nodes with
  | nil => intro arena; rfl
  | cons n rest ih =>
    intro arena
    rw [List.foldl_cons, ih, attach_core]

/-- Arenas with the same cores have the same identifiers, in the same order. -/
theorem identifiers_of_core {a b : List ThreadNode}
    (h : a.map node_core = b.map node_core) :
    a.map ThreadNode.identifier = b.map ThreadNode.identifier := by
  have h2 := congrArg (List.map Prod.fst) h
  simpa [List.map_map, Function.comp, node_core] using h2

/-- The lookup after a change of nodes that keeps their identifier. -/
theorem lookup_node_map (f : ThreadNode → ThreadNode)
    (hf : ∀ n, (f n).identifier = n.identifier) (arena : List ThreadNode) (id : String) :
    lookup_node (arena.map f) id = (lookup_node arena id).map f := by
  unfold lookup_node
  rw [List.find?_map]
  congr 2
  funext n
  simp [Function.comp, hf]

/-- Marking a node `Orphan` changes no parent link. -/
theorem parent_of_mark_orphan (arena : List ThreadNode) (id x : String) :
    parent_of (mark_orphan arena id) x = parent_of arena x := by
  unfold parent_of mark_orphan
  rw [lookup_node_map _ (fun n => by split <;> rfl)]
  cases lookup_node arena x with
  | none => rfl
  | some n =>
    simp only [Option.map_some', Option.some_bind]
    split <;> rfl

/-- Attaching the node `id` under `p` changes the parent link of `id` only. -/
theorem parent_of_set_parent (arena : List ThreadNode) (id p x : String) :
    parent_of (set_parent arena id p) x
      = if x = id then (lookup_node arena id).map (fun _ => p) else parent_of arena x := by
  unfold parent_of set_parent
  rw [lookup_node_map _ (fun n => by split <;> rfl)]
  cases hl : lookup_node arena x with
  | none =>
    by_cases hx : x = id
    · subst hx
      simp [hl]
    · simp [hx]
  | some n =>
    have hn : n.identifier = x := by
      have := List.find?_some hl
      simpa using this
    by_cases hx : x = id
    · subst hx
      simp [hl, hn]
    · have hne : ¬ n.identifier = id := by rw [hn]; exact hx
      simp [hx, hne]

/-- A parent link after attaching `id` under `p` is that new link or an old one. -/
theorem is_parent_set_parent (arena : List ThreadNode) (id p x y : String)
    (h : is_parent (set_parent arena id p) x y) :
    (x = id ∧ y = p) ∨ is_parent arena x y := by
  unfold is_parent at h ⊢
  rw [parent_of_set_parent] at h
  by_cases hx : x = id
  · left
    rw [if_pos hx] at h
    cases hl : lookup_node arena id with
    | none => rw [hl] at h; simp at h
    | some n =>
      rw [hl] at h
      simp only [Option.map_some', Option.some.injEq] at h
      exact ⟨hx, h.symm⟩
  · right
    rw [if_neg hx] at h
    exact h

/-- The parent reference after a change of nodes that keeps their identifier and
their parent reference. -/
theorem reference_of_map (f : ThreadNode → ThreadNode)
    (hid : ∀ n, (f n).identifier = n.identifier)
    (href : ∀ n, (f n).parent_reference = n.parent_reference)
    (arena : List ThreadNode) (x : String) :
    reference_of (arena.map f) x = reference_of arena x := by
  unfold reference_of
  rw [lookup_node_map f hid]
  cases lookup_node arena x with
  | none => rfl
  | some n => simp [href]

/-- The attempt to attach a node changes no parent reference. -/
theorem reference_of_attach (arena : List ThreadNode) (node : ThreadNode) (x : String) :
    reference_of (attach arena node) x = reference_of arena x := by
  unfold attach
  split
  · rfl
  · split
    · split
      · rfl
      · exact reference_of_map _ (fun n => by split <;> rfl) (fun n => by split <;> rfl) _ _
    · exact reference_of_map _ (fun n => by split <;> rfl) (fun n => by split <;> rfl) _ _

/-- The attempt to attach a node keeps the size of the arena. -/
theorem length_attach (arena : List ThreadNode) (node : ThreadNode) :
    (attach arena node).length = arena.length := by
  have h := congrArg List.length (attach_core arena node)
  simpa using h

/-- The cycle check looks at the parent references only. -/
theorem leads_to_congr (a b : List ThreadNode)
    (h : ∀ x, reference_of a x = reference_of b x) (target : String) (fuel : Nat) :
    ∀ (path : List String) (current : String),
      leads_to a target fuel path current = leads_to b target fuel path current := by
  induction fuel with
  | zero => intro path current; rfl
  | succ fuel ih =>
    intro path current
    simp only [leads_to, h current]
    split
    · rfl
    · split
      · rfl
      · cases reference_of b current with
        | none => rfl
        | some next => exact ih _ _

/-- A node has at most one parent reference. -/
theorem is_reference_right_unique (arena : List ThreadNode) :
    Relator.RightUnique (is_reference arena) := by
  intro a b c hab hac
  unfold is_reference at hab hac
  rw [hab] at hac
  exact Option.some.inj hac

/-- The cycle check is sound: when it answers false, following the parent references
from the current node never comes to the target. The nodes of the path are not the
target, and each refers to a node of the path or to the current node. -/
theorem leads_to_sound (arena : List ThreadNode) (target : String) (fuel : Nat) :
    ∀ (path : List String) (current : String),
      (∀ z ∈ path, z ≠ target
        ∧ ∃ w, is_reference arena z w ∧ (w ∈ path ∨ w = current)) →
      leads_to arena target fuel path current = false →
      ¬ Relation.ReflTransGen (is_reference arena) current target := by
  induction fuel with
  | zero => intro path current _ h; simp [leads_to] at h
  | succ fuel ih =>
    intro path current hpath h hreach
    unfold leads_to at h
    by_cases heq : current = target
    · simp [heq] at h
    · simp only [heq, if_false] at h
      by_cases hmem : current ∈ path
      · have hclosed : ∀ y, Relation.ReflTransGen (is_reference arena) current y →
            y ∈ path := by
          intro y hy
          induction hy with
          | refl => exact hmem
          | tail _ hstep ihy =>
            obtain ⟨_, w, hw, hwhere⟩ := hpath _ ihy
            rw [is_reference_right_unique arena hstep hw]
            rcases hwhere with h2 | h2
            · exact h2
            · rw [h2]; exact hmem
        exact (hpath target (hclosed target hreach)).1 rfl
      · simp only [hmem, if_false] at h
        cases href : reference_of arena current with
        | none =>
          rcases Relation.ReflTransGen.cases_head hreach with h2 | ⟨c, hc, _⟩
          · exact heq h2
          · unfold is_reference at hc
            rw [href] at hc
            exact Option.noConfusion hc
        | some next =>
          rw [href] at h
          have hedge : is_reference arena current next := href
          refine ih (current :: path) next ?_ h ?_
          · intro z hz
            rcases List.mem_cons.mp hz with hz | hz
            · rw [hz]
              exact ⟨heq, next, hedge, Or.inr rfl⟩
            · obtain ⟨h1, w, hw, hwhere⟩ := hpath z hz
              refine ⟨h1, w, hw, Or.inl ?_⟩
              rcases hwhere with h2 | h2
              · exact List.mem_cons_of_mem _ h2
              · rw [h2]; exact List.mem_cons_self _ _
          · rcases Relation.ReflTransGen.cases_head hreach with h2 | ⟨c, hc, hrest⟩
            · exact absurd h2 heq
            · rw [is_reference_right_unique arena hc hedge] at hrest
              exact hrest

/-- A node with a parent reference is a node of the arena. -/
theorem mem_of_reference_of {arena : List ThreadNode} {x p : String}
    (h : reference_of arena x = some p) : x ∈ arena.map ThreadNode.identifier := by
  unfold reference_of at h
  cases hl : lookup_node arena x with
  | none => rw [hl] at h; simp at h
  | some n =>
    have hn : n ∈ arena := List.mem_of_find?_eq_some hl
    have hid : n.identifier = x := by
      have := List.find?_some hl
      simpa using this
    exact hid ▸ List.mem_map_of_mem _ hn

/-- When the cycle check answers true on a path of distinct nodes of the arena, and
the bound leaves room for every node of the arena, following the parent references
from the current node comes to the target: the bound itself is never what stops the
walk. -/
theorem leads_to_complete (arena : List ThreadNode) (target : String) (fuel : Nat) :
    ∀ (path : List String) (current : String), path.Nodup →
      (∀ z ∈ path, z ∈ arena.map ThreadNode.identifier) →
      arena.length < fuel + path.length →
      leads_to arena target fuel path current = true →
      Relation.ReflTransGen (is_reference arena) current target := by
  induction fuel with
  | zero =>
    intro path current hnodup hpath hlen _
    have := (hnodup.subperm hpath).length_le
    simp at this hlen
    omega
  | succ fuel ih =>
    intro path current hnodup hpath hlen h
    unfold leads_to at h
    by_cases heq : current = target
    · rw [heq]
    · simp only [heq, if_false] at h
      by_cases hmem : current ∈ path
      · simp [hmem] at h
      · simp only [hmem, if_false] at h
        cases href : reference_of arena current with
        | none => rw [href] at h; exact Bool.noConfusion h
        | some next =>
          rw [href] at h
          have hedge : is_reference arena current next := href
          refine Relation.ReflTransGen.head hedge
            (ih (current :: path) next (List.nodup_cons.mpr ⟨hmem, hnodup⟩) ?_
              (by simp only [List.length_cons]; omega) h)
          intro z hz
          rcases List.mem_cons.mp hz with hz | hz
          · rw [hz]
            exact mem_of_reference_of href
          · exact hpath z hz

/-- The cycle check, bounded by the size of the arena plus one, is exact: it answers
true exactly when following the parent references from the would-be parent comes to
the node. -/
theorem leads_to_exact (arena : List ThreadNode) (id p : String) :
    leads_to arena id (arena.length + 1) [] p = true
      ↔ Relation.ReflTransGen (is_reference arena) p id := by
  constructor
  · intro h
    exact leads_to_complete arena id _ [] p List.nodup_nil (fun z hz => by simp at hz)
      (by simp) h
  · intro h
    by_contra hfalse
    exact leads_to_sound arena id _ [] p (fun z hz => by simp at hz)
      (by simpa using hfalse) h

/-- An arena without links has only checked links. -/
theorem links_checked_of_no_parent (arena : List ThreadNode)
    (h : ∀ n ∈ arena, n.parent = none) : LinksChecked arena := by
  intro x y hxy
  unfold is_parent parent_of at hxy
  cases hl : lookup_node arena x with
  | none => rw [hl] at hxy; simp at hxy
  | some n =>
    rw [hl] at hxy
    have hn : n ∈ arena := List.mem_of_find?_eq_some hl
    simp [h n hn] at hxy

/-- The attempt to attach a node that is looked up with its own parent reference
makes only checked links. -/
theorem links_checked_attach (arena : List ThreadNode) (node : ThreadNode)
    (hchecked : LinksChecked arena)
    (hnode : reference_of arena node.identifier = node.parent_reference) :
    LinksChecked (attach arena node) := by
  have hlen := length_attach arena node
  have hcongr : ∀ x y, leads_to (attach arena node) x ((attach arena node).length + 1) [] y
      = leads_to arena x (arena.length + 1) [] y := by
    intro x y
    rw [hlen]
    exact leads_to_congr _ _ (reference_of_attach arena node) _ _ _ _
  have hids := identifiers_of_core (attach_core arena node)
  have hold : ∀ x y, is_parent arena x y →
      is_reference (attach arena node) x y
        ∧ y ∈ (attach arena node).map ThreadNode.identifier
        ∧ leads_to (attach arena node) x ((attach arena node).length + 1) [] y = false := by
    intro x y hxy
    obtain ⟨h1, hy, h2⟩ := hchecked x y hxy
    refine ⟨?_, by rw [hids]; exact hy, by rw [hcongr]; exact h2⟩
    unfold is_reference
    rw [reference_of_attach]
    exact h1
  intro x y hxy
  cases href : node.parent_reference with
  | none =>
    have hsame : attach arena node = arena := by simp [attach, href]
    rw [hsame] at hxy
    exact hold x y hxy
  | some p =>
    by_cases hmem : p ∈ arena.map ThreadNode.identifier
    · by_cases hrev : leads_to arena node.identifier (arena.length + 1) [] p = true
      · have hsame : attach arena node = arena := by simp [attach, href, hmem, hrev]
        rw [hsame] at hxy
        exact hold x y hxy
      · have hset : attach arena node = set_parent arena node.identifier p := by
          simp [attach, href, hmem, hrev]
        rw [hset] at hxy
        rcases is_parent_set_parent arena _ _ _ _ hxy with ⟨hx, hy⟩ | hxy2
        · refine ⟨?_, ?_, ?_⟩
          · unfold is_reference
            rw [reference_of_attach, hx, hy, hnode, href]
          · rw [hids, hy]
            exact hmem
          · rw [hcongr, hx, hy]
            simpa using hrev
        · exact hold x y hxy2
    · have hmark : attach arena node = mark_orphan arena node.identifier := by
        simp [attach, href, hmem]
      rw [hmark] at hxy
      have hxy2 : is_parent arena x y := by
        unfold is_parent at hxy ⊢
        rw [parent_of_mark_orphan] at hxy
        exact hxy
      exact hold x y hxy2

/-- Any number of attempts make only checked links. -/
theorem links_checked_foldl_attach (nodes : List ThreadNode) :
    ∀ arena : List ThreadNode, LinksChecked arena →
      (∀ n ∈ nodes, reference_of arena n.identifier = n.parent_reference) →
      LinksChecked (nodes.foldl attach arena) := by
  induction nodes with
  | nil => intro arena h _; exact h
  | cons n rest ih =>
    intro arena h hnodes
    rw [List.foldl_cons]
    refine ih _ (links_checked_attach arena n h (hnodes n (List.mem_cons_self _ _))) ?_
    intro m hm
    rw [reference_of_attach]
    exact hnodes m (List.mem_cons_of_mem _ hm)

/-- An arena with only checked links has no cycle. -/
theorem acyclic_of_links_checked (arena : List ThreadNode) (h : LinksChecked arena) :
    Acyclic arena := by
  intro x hx
  obtain ⟨c, hc, hback⟩ := Relation.TransGen.head'_iff.mp hx
  have hcheck := (h x c hc).2.2
  have hrefs : Relation.ReflTransGen (is_reference arena) c x :=
    Relation.ReflTransGen.mono (fun a b hab => (h a b hab).1) hback
  exact leads_to_sound arena x _ [] c (fun z hz => by simp at hz) hcheck hrefs

/-- In an arena without repeated identifier, a node is looked up with its own parent
reference. -/
theorem reference_of_mem {arena : List ThreadNode}
    (hnodup : (arena.map ThreadNode.identifier).Nodup) {n : ThreadNode} (hn : n ∈ arena) :
    reference_of arena n.identifier = n.parent_reference := by
  unfold reference_of
  rw [lookup_node_of_mem hnodup hn]
  rfl

/-- In the forest that build returns, every link follows a parent reference and was
let through by the cycle check. -/
theorem build_links_checked (candidates relatives : List Message) :
    LinksChecked (build candidates relatives).arena := by
  have hinv := node_map_invariant candidates relatives
  unfold build attach_all
  apply links_checked_foldl_attach
  · apply links_checked_of_no_parent
    intro n hn
    exact (hinv.2.2.1 n hn).1
  · intro n hn
    exact reference_of_mem hinv.1 hn

/-- The forest that build returns has no cycle. -/
theorem build_acyclic (candidates relatives : List Message) :
    Acyclic (build candidates relatives).arena :=
  acyclic_of_links_checked _ (build_links_checked candidates relatives)

/-! ## Theorems: the built forest -/

/-- Build changes no core of the identifier-to-node map. -/
theorem build_core (candidates relatives : List Message) :
    (build candidates relatives).arena.map node_core
      = (node_map candidates relatives).map node_core := by
  unfold build attach_all
  exact foldl_attach_core _ _

/-- The identifiers of the built arena are those of the map, in the same order. -/
theorem build_identifiers (candidates relatives : List Message) :
    (build candidates relatives).arena.map ThreadNode.identifier
      = (node_map candidates relatives).map ThreadNode.identifier :=
  identifiers_of_core (build_core candidates relatives)

/-- The built arena holds no identifier twice. -/
theorem build_nodup (candidates relatives : List Message) :
    ((build candidates relatives).arena.map ThreadNode.identifier).Nodup := by
  rw [build_identifiers]
  exact (node_map_invariant candidates relatives).1

/-- The root nodes of the built forest, found through their identifiers, are the
unattached nodes of the arena, in discovery order. -/
theorem build_root_nodes (candidates relatives : List Message) :
    (build candidates relatives).roots.filterMap
        (lookup_node (build candidates relatives).arena)
      = (build candidates relatives).arena.filter (fun n => n.parent.isNone) := by
  have hnodup := build_nodup candidates relatives
  have hroots : (build candidates relatives).roots
      = ((build candidates relatives).arena.filter (fun n => n.parent.isNone)).map
          ThreadNode.identifier := rfl
  rw [hroots, List.filterMap_map]
  have hsome : ∀ n ∈ (build candidates relatives).arena.filter (fun n => n.parent.isNone),
      (lookup_node (build candidates relatives).arena ∘ ThreadNode.identifier) n
        = some n := by
    intro n hn
    exact lookup_node_of_mem hnodup (List.mem_filter.mp hn).1
  rw [List.filterMap_congr hsome]
  exact List.filterMap_some _

/-- The annotated sequence of a built forest puts parents first: every element is a
root at depth 1 or a child, one level below, of an element that stands before it. -/
theorem annotate_build_parents_first (candidates relatives : List Message)
    (sort_key_of : ThreadNode → Int) (descending : Bool) :
    ParentsFirst [] (annotate (build candidates relatives) sort_key_of descending) := by
  unfold annotate
  apply walk_parents_first
  intro s hs
  rw [mem_order_siblings, build_root_nodes] at hs
  left
  have := (List.mem_filter.mp hs).2
  exact ⟨by simpa using this, rfl⟩

/-- Every element of the annotated sequence of a built forest carries a node of the
arena, with the flags of that node. -/
theorem annotate_build_elements (candidates relatives : List Message)
    (sort_key_of : ThreadNode → Int) (descending : Bool) :
    ∀ e ∈ annotate (build candidates relatives) sort_key_of descending,
      e.node ∈ (build candidates relatives).arena
        ∧ ∃ i t, e.flags = annotate_flags e.node i t := by
  intro e he
  obtain ⟨hnode, hflags⟩ := walk_elements _ _ _ _ _ _ _ e he
  refine ⟨?_, hflags⟩
  rcases hnode with h | h
  · rw [mem_order_siblings, build_root_nodes] at h
    exact (List.mem_filter.mp h).1
  · exact h

/-! ## Theorems: depth, orphans, cycles, duplicates, truncation -/

/-- C11: in the annotated sequence of every built forest, `Root` is set exactly on
the nodes without parent, every root has depth 1, and every other node has the depth
of its parent plus 1, the parent being in the sequence. In particular, for three
messages A, B, C found in any order, where the parent of B is A, the parent of C is B
and A has no parent among them, a run with `Threading` only and room for three
results emits A, B, C in this order, with depths 1, 2, 3, each of them first and
last among its siblings. -/
theorem annotate_depths (candidates relatives : List Message)
    (sort_key_of : ThreadNode → Int) (descending : Bool) :
    (∀ e ∈ annotate (build candidates relatives) sort_key_of descending,
        (e.flags.root = true ↔ e.node.parent = none)
          ∧ (e.flags.root = true → e.depth = 1)
          ∧ (e.flags.root = false →
              ∃ q ∈ annotate (build candidates relatives) sort_key_of descending,
                e.node.parent = some q.node.identifier ∧ e.depth = q.depth + 1))
      ∧ ∀ (backend : Backend) (query_expr sort_field : String) (max_results : Nat)
          (A B C : Message),
          A.identifier ≠ B.identifier → A.identifier ≠ C.identifier →
          B.identifier ≠ C.identifier →
          (∀ p, A.reference_list.getLast? = some p →
            p ≠ A.identifier ∧ p ≠ B.identifier ∧ p ≠ C.identifier) →
          B.reference_list.getLast? = some A.identifier →
          C.reference_list.getLast? = some B.identifier →
          backend.sortable sort_field = true →
          3 ≤ max_results →
          (backend.search query_expr sort_field false = [A, B, C]
            ∨ backend.search query_expr sort_field false = [A, C, B]
            ∨ backend.search query_expr sort_field false = [B, A, C]
            ∨ backend.search query_expr sort_field false = [B, C, A]
            ∨ backend.search query_expr sort_field false = [C, A, B]
            ∨ backend.search query_expr sort_field false = [C, B, A]) →
          ∃ results, run backend query_expr sort_field threading_only max_results
              = .ok results
            ∧ results.map (fun e => (e.element.node.identifier, e.element.depth,
                e.element.flags.root, e.element.flags.first, e.element.flags.last))
              = [(A.identifier, 1, true, true, true), (B.identifier, 2, false, true, true),
                 (C.identifier, 3, false, true, true)] := by
  constructor
  · intro e he
    obtain ⟨_, i, t, hflags⟩ := annotate_build_elements candidates relatives sort_key_of
      descending e he
    have hroot : e.flags.root = true ↔ e.node.parent = none := by
      rw [hflags]
      simp [annotate_flags]
    have hlink := parents_first_parent_mem _ []
      (annotate_build_parents_first candidates relatives sort_key_of descending) e he
    refine ⟨hroot, ?_, ?_⟩
    · intro hr
      rcases hlink with h | ⟨p, d, hp, _, _⟩
      · exact h.2
      · rw [hroot.mp hr] at hp
        exact absurd hp (by simp)
    · intro hr
      rcases hlink with h | ⟨p, d, hp, hd, hwhere⟩
      · rw [hroot.mpr h.1] at hr
        exact absurd hr (by simp)
      · rcases hwhere with h | ⟨q, hq, hqid, hqd⟩
        · simp at h
        · exact ⟨q, hq, by rw [hp, hqid], by rw [hd, hqd]⟩
  · intro backend query_expr sort_field max_results A B C hAB hAC hBC hA hB hC hsort hmax
      horder
    have hBA := hAB.symm
    have hCA := hAC.symm
    have hCB := hBC.symm
    have htake : ∀ l : List Annotated, l.length = 3 → l.take max_results = l := by
      intro l hl
      exact List.take_of_length_le (by omega)
    refine ⟨emit ((flatten backend query_expr sort_field threading_only).take max_results),
      by simp [run, hsort], ?_⟩
    cases hlast : A.reference_list.getLast? with
    | none =>
      rcases horder with h | h | h | h | h | h <;>
        simp [flatten, sequence_of, forest_of, threading_only, h, annotate, walk, visit_siblings,
          order_siblings, insert_sibling, children_of, annotate_flags,
          build, node_map, add_message, new_node, attach_all, attach, hlast, hB, hC, hAB,
          hAC, hBC, hBA, hCA, hCB, leads_to, reference_of, parent_of, lookup_node, set_parent,
          mark_orphan, emit, htake]
    | some p =>
      obtain ⟨hpA, hpB, hpC⟩ := hA p hlast
      rcases horder with h | h | h | h | h | h <;>
        simp [flatten, sequence_of, forest_of, threading_only, h, annotate, walk, visit_siblings,
          order_siblings, insert_sibling, children_of, annotate_flags,
          build, node_map, add_message, new_node, attach_all, attach, hlast, hB, hC, hAB,
          hAC, hBC, hBA, hCA, hCB, leads_to, reference_of, parent_of, lookup_node, set_parent,
          mark_orphan, emit, htake, hpA, hpB, hpC, hpA.symm, hpB.symm, hpC.symm]

/-- Witness of C11: the replies `c@x` and `b@x` found before their root `a@x`. -/
theorem annotate_depths_witness :
    ∃ results, run (sample_backend [sample_c, sample_b, sample_a]) "query" "date"
        threading_only 3 = .ok results
      ∧ results.map (fun e => (e.element.node.identifier, e.element.depth,
          e.element.flags.root, e.element.flags.first, e.element.flags.last))
        = [("a@x", 1, true, true, true), ("b@x", 2, false, true, true),
           ("c@x", 3, false, true, true)] :=
  (annotate_depths [] [] ThreadNode.sort_key false).2
    (sample_backend [sample_c, sample_b, sample_a]) "query" "date" 3
    sample_a sample_b sample_c (by decide) (by decide) (by decide) (by decide) (by decide)
    (by decide) (by decide) (by decide)
    (Or.inr (Or.inr (Or.inr (Or.inr (Or.inr rfl)))))

/-- One message more: every node still comes from the first message with its
identifier. -/
theorem first_messages_add_message (origin : Origin) (arena : List ThreadNode)
    (processed : List Message) (m : Message)
    (hinv : MapInvariant arena (processed.map Message.identifier))
    (h : FirstMessages arena processed) :
    FirstMessages (add_message origin arena m) (processed ++ [m]) := by
  have hold : ∀ n ∈ arena, ∃ m0,
      (processed ++ [m]).find? (fun c => c.identifier = n.identifier) = some m0
        ∧ n.parent_reference = m0.reference_list.getLast?
        ∧ n.document_handle = m0.document_handle
        ∧ n.sort_key = m0.sort_key := by
    intro n hn
    obtain ⟨m0, hfind, hrest⟩ := h n hn
    exact ⟨m0, by rw [List.find?_append, hfind]; rfl, hrest⟩
  intro n hn
  by_cases hin : m.identifier ∈ arena.map ThreadNode.identifier
  · simp only [add_message, hin, if_true, List.mem_map] at hn
    obtain ⟨n0, hn0, rfl⟩ := hn
    obtain ⟨m0, hfind, hrest⟩ := hold n0 hn0
    refine ⟨m0, ?_, ?_⟩
    · split <;> exact hfind
    · split <;> exact hrest
  · simp only [add_message, hin, if_false, List.mem_append, List.mem_singleton] at hn
    rcases hn with hn | hn
    · exact hold n hn
    · have hnot : m.identifier ∉ processed.map Message.identifier :=
        fun hmem => hin ((hinv.2.1 _).mpr hmem)
      have hnone : processed.find? (fun c => decide (c.identifier = m.identifier)) = none := by
        rw [List.find?_eq_none]
        intro c hc hcid
        exact hnot (by
          have : c.identifier = m.identifier := by simpa using hcid
          rw [← this]
          exact List.mem_map_of_mem _ hc)
      refine ⟨m, ?_, ?_⟩
      · rw [hn, List.find?_append]
        simp [new_node, hnone]
      · rw [hn]
        exact ⟨rfl, rfl, rfl⟩

/-- Any number of messages more: every node still comes from the first message with
its identifier. -/
theorem first_messages_foldl (origin : Origin) (ms : List Message) :
    ∀ (arena : List ThreadNode) (processed : List Message),
      MapInvariant arena (processed.map Message.identifier) →
      FirstMessages arena processed →
      FirstMessages (ms.foldl (add_message origin) arena) (processed ++ ms) := by
  induction ms with
  | nil => intro arena processed _ h; simpa using h
  | cons m rest ih =>
    intro arena processed hinv h
    have hinv2 := map_invariant_add_message origin arena _ m hinv
    have h2 := first_messages_add_message origin arena processed m hinv h
    have h3 := ih _ (processed ++ [m]) (by simpa using hinv2) h2
    simpa using h3

/-- Every node of the map that build starts from comes from the first message with
its identifier, candidates before relatives. -/
theorem node_map_first_messages (candidates relatives : List Message) :
    FirstMessages (node_map candidates relatives) (candidates ++ relatives) := by
  have h0 : FirstMessages [] [] := by
    intro n hn
    simp at hn
  have hinv0 : MapInvariant [] (([] : List Message).map Message.identifier) := by
    refine ⟨by simp, by simp, ?_, ?_⟩ <;> intro n hn <;> simp at hn
  have h1 := first_messages_foldl .Matched candidates [] [] hinv0 h0
  have hinv1 := map_invariant_foldl .Matched candidates [] [] (by simpa using hinv0)
  have h2 := first_messages_foldl .Related relatives _ ([] ++ candidates)
    (by simpa using hinv1) h1
  simpa [node_map] using h2

/-- A node whose direct parent is not in the arena stays unattached through every
attempt to attach a node. -/
theorem foldl_attach_keeps_root (id p : String) (ids : List String) (hp : p ∉ ids)
    (nodes : List ThreadNode)
    (hrefs : ∀ x ∈ nodes, x.identifier = id → x.parent_reference = some p) :
    ∀ arena : List ThreadNode, arena.map ThreadNode.identifier = ids →
      (∀ n ∈ arena, n.identifier = id → n.parent = none) →
      ∀ n ∈ nodes.foldl attach arena, n.identifier = id → n.parent = none := by
  induction nodes with
  | nil => intro arena _ h; exact h
  | cons x rest ih =>
    intro arena hids h
    rw [List.foldl_cons]
    refine ih (fun y hy => hrefs y (List.mem_cons_of_mem _ hy)) _
      (by rw [identifiers_of_core (attach_core arena x), hids]) ?_
    have hmark : ∀ i, ∀ n ∈ mark_orphan arena i, n.identifier = id → n.parent = none := by
      intro i n hn hnid
      simp only [mark_orphan, List.mem_map] at hn
      obtain ⟨n0, hn0, rfl⟩ := hn
      split at hnid <;> split <;> exact h n0 hn0 hnid
    unfold attach
    split
    · exact h
    · rename_i q hq
      split
      · rename_i hmem
        have hne : x.identifier ≠ id := by
          intro hx
          have := hrefs x (List.mem_cons_self _ _) hx
          rw [hq] at this
          rw [hids, Option.some.inj this] at hmem
          exact hp hmem
        split
        · exact h
        · intro n hn hnid
          simp only [set_parent, List.mem_map] at hn
          obtain ⟨n0, hn0, rfl⟩ := hn
          by_cases h0 : n0.identifier = x.identifier
          · simp only [h0, if_true] at hnid
            exact absurd hnid hne
          · simp only [h0, if_false] at hnid ⊢
            exact h n0 hn0 hnid
      · exact hmark _

/-- A node once marked `Orphan` keeps the mark through every attempt to attach a
node. -/
theorem foldl_attach_keeps_orphan (id : String) (nodes : List ThreadNode) :
    ∀ arena : List ThreadNode,
      (∀ n ∈ arena, n.identifier = id → n.orphan = true) →
      ∀ n ∈ nodes.foldl attach arena, n.identifier = id → n.orphan = true := by
  induction nodes with
  | nil => intro arena h; exact h
  | cons x rest ih =>
    intro arena h
    rw [List.foldl_cons]
    refine ih _ ?_
    have hmark : ∀ i, ∀ n ∈ mark_orphan arena i, n.identifier = id → n.orphan = true := by
      intro i n hn hnid
      simp only [mark_orphan, List.mem_map] at hn
      obtain ⟨n0, hn0, rfl⟩ := hn
      by_cases h0 : n0.identifier = i
      · simp [h0]
      · simp only [h0, if_false] at hnid ⊢
        exact h n0 hn0 hnid
    unfold attach
    split
    · exact h
    · split
      · split
        · exact h
        · intro n hn hnid
          simp only [set_parent, List.mem_map] at hn
          obtain ⟨n0, hn0, rfl⟩ := hn
          split at hnid <;> split <;> exact h n0 hn0 hnid
      · exact hmark _

/-- A node whose direct parent is not in the arena is marked `Orphan` when its turn
comes. -/
theorem foldl_attach_marks_orphan (id p : String) (ids : List String) (hp : p ∉ ids)
    (nodes : List ThreadNode)
    (hrefs : ∀ x ∈ nodes, x.identifier = id → x.parent_reference = some p)
    (hturn : ∃ x ∈ nodes, x.identifier = id) :
    ∀ arena : List ThreadNode, arena.map ThreadNode.identifier = ids →
      ∀ n ∈ nodes.foldl attach arena, n.identifier = id → n.orphan = true := by
  induction nodes with
  | nil =>
    obtain ⟨x, hx, _⟩ := hturn
    simp at hx
  | cons x rest ih =>
    intro arena hids
    rw [List.foldl_cons]
    by_cases hx : x.identifier = id
    · apply foldl_attach_keeps_orphan
      have href := hrefs x (List.mem_cons_self _ _) hx
      have hnot : p ∉ arena.map ThreadNode.identifier := by rw [hids]; exact hp
      intro n hn hnid
      simp only [attach, href, hnot, if_false, mark_orphan, List.mem_map] at hn
      obtain ⟨n0, hn0, rfl⟩ := hn
      by_cases h0 : n0.identifier = x.identifier
      · simp [h0]
      · simp only [h0, if_false] at hnid
        exact absurd (hnid.trans hx.symm) h0
    · obtain ⟨y, hy, hyid⟩ := hturn
      have hyrest : y ∈ rest := by
        rcases List.mem_cons.mp hy with h | h
        · rw [h] at hyid
          exact absurd hyid hx
        · exact h
      exact ih (fun z hz => hrefs z (List.mem_cons_of_mem _ hz)) ⟨y, hyrest, hyid⟩ _
        (by rw [identifiers_of_core (attach_core arena x), hids])

/-- In the built forest, the node of a message whose direct parent is in neither the
candidate nor the relative set exists, is unattached and is marked `Orphan`. -/
theorem build_orphan_of_absent_parent (candidates relatives : List Message) (m : Message)
    (p : String)
    (hfirst : (candidates ++ relatives).find? (fun c => c.identifier = m.identifier) = some m)
    (hparent : m.reference_list.getLast? = some p)
    (habsent : p ∉ (candidates ++ relatives).map Message.identifier) :
    (∃ n ∈ (build candidates relatives).arena, n.identifier = m.identifier)
      ∧ ∀ n ∈ (build candidates relatives).arena, n.identifier = m.identifier →
          n.parent = none ∧ n.orphan = true := by
  have hinv := node_map_invariant candidates relatives
  have hfm := node_map_first_messages candidates relatives
  have hrefs : ∀ x ∈ node_map candidates relatives, x.identifier = m.identifier →
      x.parent_reference = some p := by
    intro x hx hxid
    obtain ⟨m0, hfind, href, _⟩ := hfm x hx
    rw [hxid, hfirst] at hfind
    rw [href, ← Option.some.inj hfind, hparent]
  have hp : p ∉ (node_map candidates relatives).map ThreadNode.identifier :=
    fun h => habsent ((hinv.2.1 _).mp h)
  have hm : m ∈ candidates ++ relatives := List.mem_of_find?_eq_some hfirst
  have hturn : ∃ x ∈ node_map candidates relatives, x.identifier = m.identifier := by
    have : m.identifier ∈ (node_map candidates relatives).map ThreadNode.identifier :=
      (hinv.2.1 _).mpr (List.mem_map_of_mem _ hm)
    obtain ⟨x, hx, hxid⟩ := List.mem_map.mp this
    exact ⟨x, hx, hxid⟩
  constructor
  · have : m.identifier ∈ (build candidates relatives).arena.map ThreadNode.identifier := by
      rw [build_identifiers]
      obtain ⟨x, hx, hxid⟩ := hturn
      exact hxid ▸ List.mem_map_of_mem _ hx
    obtain ⟨n, hn, hnid⟩ := List.mem_map.mp this
    exact ⟨n, hn, hnid⟩
  · intro n hn hnid
    unfold build attach_all at hn
    exact ⟨foldl_attach_keeps_root m.identifier p _ hp _ hrefs _ rfl
        (fun k hk _ => (hinv.2.2.1 k hk).1) n hn hnid,
      foldl_attach_marks_orphan m.identifier p _ hp _ hrefs hturn _ rfl n hn hnid⟩

/-! ## Theorems: the result sequencer -/

/-- The emission keeps the elements and their order. -/
theorem emit_elements (l : List Annotated) : (emit l).map Emitted.element = l := by
  induction l with
  | nil => rfl
  | cons e rest ih =>
    cases rest with
    | nil => rfl
    | cons next rest2 =>
      simp only [emit, List.map_cons]
      exact congrArg (List.cons e) ih

/-- What the step that drops repeated messages keeps was in the sequence. -/
theorem drop_repeated_sublist (l : List Annotated) :
    ∀ seen : List String, (drop_repeated seen l).Sublist l := by
  induction l with
  | nil => intro seen; simp [drop_repeated]
  | cons e rest ih =>
    intro seen
    by_cases h : e.node.identifier ∈ seen
    · simp only [drop_repeated, h, if_true]
      exact (ih seen).cons e
    · simp only [drop_repeated, h, if_false]
      exact (ih _).cons₂ e

/-- The identifiers that the step that drops repeated messages keeps: those of the
sequence not seen before. -/
theorem mem_drop_repeated_identifiers (l : List Annotated) :
    ∀ (seen : List String) (id : String),
      id ∈ (drop_repeated seen l).map (fun e => e.node.identifier)
        ↔ id ∈ l.map (fun e => e.node.identifier) ∧ id ∉ seen := by
  induction l with
  | nil => intro seen id; simp [drop_repeated]
  | cons e rest ih =>
    intro seen id
    by_cases h : e.node.identifier ∈ seen
    · simp only [drop_repeated, h, if_true, ih, List.map_cons, List.mem_cons]
      constructor
      · rintro ⟨h1, h2⟩
        exact ⟨Or.inr h1, h2⟩
      · rintro ⟨h1 | h1, h2⟩
        · rw [h1] at h2
          exact absurd h h2
        · exact ⟨h1, h2⟩
    · simp only [drop_repeated, h, if_false, List.map_cons, List.mem_cons, ih]
      constructor
      · rintro (h1 | ⟨h1, h2⟩)
        · rw [h1]
          exact ⟨Or.inl rfl, h⟩
        · exact ⟨Or.inr h1, fun h3 => h2 (Or.inr h3)⟩
      · rintro ⟨h1 | h1, h2⟩
        · exact Or.inl h1
        · by_cases h3 : id = e.node.identifier
          · exact Or.inl h3
          · refine Or.inr ⟨h1, ?_⟩
            rintro (h4 | h4)
            · exact h3 h4
            · exact h2 h4

/-- After the step that drops repeated messages no identifier stands twice. -/
theorem drop_repeated_nodup (l : List Annotated) :
    ∀ seen : List String, ((drop_repeated seen l).map (fun e => e.node.identifier)).Nodup := by
  induction l with
  | nil => intro seen; simp [drop_repeated]
  | cons e rest ih =>
    intro seen
    by_cases h : e.node.identifier ∈ seen
    · simp only [drop_repeated, h, if_true]
      exact ih seen
    · simp only [drop_repeated, h, if_false, List.map_cons, List.nodup_cons]
      refine ⟨?_, ih _⟩
      intro hmem
      exact ((mem_drop_repeated_identifiers rest _ _).mp hmem).2 (List.mem_cons_self _ _)

/-- The root-subtrees of a sequence, one after the other, are the sequence. -/
theorem flatten_root_subtrees (l : List Annotated) : (root_subtrees l).flatten = l := by
  induction l with
  | nil => rfl
  | cons e rest ih =>
    simp only [root_subtrees]
    split
    · rename_i c subtree subtrees heq
      rw [heq] at ih
      split
      · rw [List.flatten_cons, ih]
        rfl
      · rw [List.flatten_cons] at ih ⊢
        rw [List.cons_append, ih]
    · rename_i hother
      cases hrest : root_subtrees rest with
      | nil =>
        rw [hrest] at ih
        simp only [List.flatten_nil] at ih
        simp [← ih]
      | cons b bs =>
        cases b with
        | nil =>
          rw [hrest] at ih
          cases rest with
          | nil => simp
          | cons x xs =>
            exfalso
            simp only [root_subtrees] at hrest
            split at hrest
            · split at hrest <;> simp at hrest
            · simp at hrest
        | cons c subtree => exact absurd hrest (hother c subtree bs)

/-- The root-subtrees in reverse order hold the elements of the sequence, each as
often as the sequence. -/
theorem reverse_root_subtrees_perm (l : List Annotated) :
    ((root_subtrees l).reverse.flatten).Perm l := by
  have h := (List.reverse_perm (root_subtrees l)).flatten
  rw [flatten_root_subtrees] at h
  exact h

/-- The root-subtrees in reverse order hold the elements of the sequence. -/
theorem mem_reverse_root_subtrees (l : List Annotated) (e : Annotated) :
    e ∈ (root_subtrees l).reverse.flatten ↔ e ∈ l :=
  (reverse_root_subtrees_perm l).mem_iff

/-- Every element of the flattened sequence is an element of the sequence of steps
2 to 5. -/
theorem mem_flatten (backend : Backend) (query_expr sort_field : String)
    (flags : QueryFlags) (e : Annotated)
    (he : e ∈ flatten backend query_expr sort_field flags) :
    e ∈ sequence_of backend query_expr sort_field flags := by
  unfold flatten at he
  simp only at he
  have hdrop : ∀ x, x ∈ (if flags.skip_duplicates = true
      then drop_repeated [] (sequence_of backend query_expr sort_field flags)
      else sequence_of backend query_expr sort_field flags) →
      x ∈ sequence_of backend query_expr sort_field flags := by
    intro x hx
    split at hx
    · exact (drop_repeated_sublist _ _).subset hx
    · exact hx
  split at he
  · rw [mem_reverse_root_subtrees] at he
    exact hdrop e he
  · exact hdrop e he

/-- Every identifier of the sequence of steps 2 to 5 is still in the flattened
sequence. -/
theorem flatten_identifiers (backend : Backend) (query_expr sort_field : String)
    (flags : QueryFlags) (id : String)
    (hid : id ∈ (sequence_of backend query_expr sort_field flags).map
      (fun e => e.node.identifier)) :
    id ∈ (flatten backend query_expr sort_field flags).map (fun e => e.node.identifier) := by
  unfold flatten
  simp only
  have hdrop : id ∈ (if flags.skip_duplicates = true
      then drop_repeated [] (sequence_of backend query_expr sort_field flags)
      else sequence_of backend query_expr sort_field flags).map
        (fun e => e.node.identifier) := by
    split
    · exact (mem_drop_repeated_identifiers _ _ _).mpr ⟨hid, by simp⟩
    · exact hid
  split
  · obtain ⟨e, he, heid⟩ := List.mem_map.mp hdrop
    exact List.mem_map.mpr ⟨e, (mem_reverse_root_subtrees _ e).mpr he, heid⟩
  · exact hdrop

/-- With `Threading` set and `IncludeRelated` unset, the sequence of steps 2 to 5 is
the annotated forest of the candidates alone. -/
theorem sequence_of_threading (backend : Backend) (query_expr sort_field : String)
    (flags : QueryFlags) (hthreading : flags.threading = true)
    (hrelated : flags.include_related = false) :
    sequence_of backend query_expr sort_field flags
      = annotate (build (backend.search query_expr sort_field flags.descending) [])
          ThreadNode.sort_key flags.descending := by
  simp [sequence_of, forest_of, hthreading, hrelated]

/-- Every unattached node of a built forest is visited by the annotator. -/
theorem annotate_build_visits_roots (candidates relatives : List Message)
    (sort_key_of : ThreadNode → Int) (descending : Bool) (n : ThreadNode)
    (hn : n ∈ (build candidates relatives).arena) (hroot : n.parent = none) :
    ∃ e ∈ annotate (build candidates relatives) sort_key_of descending, e.node = n := by
  have hsib : n ∈ order_siblings sort_key_of descending
      ((build candidates relatives).roots.filterMap
        (lookup_node (build candidates relatives).arena)) := by
    rw [mem_order_siblings, build_root_nodes]
    exact List.mem_filter.mpr ⟨hn, by simp [hroot]⟩
  have hlen : ∃ k, (build candidates relatives).arena.length = k + 1 := by
    cases h : (build candidates relatives).arena with
    | nil => rw [h] at hn; simp at hn
    | cons a rest => exact ⟨rest.length, rfl⟩
  obtain ⟨k, hk⟩ := hlen
  unfold annotate
  rw [hk]
  obtain ⟨e, he, hnode, _⟩ := walk_visits_siblings _ 1 _ [] _ 0 n hsib
  exact ⟨e, he, hnode⟩

/-- C12: with `Threading` set and `IncludeRelated` unset, for a message that is the
first of the results to carry its identifier, whose reference list is not empty and
whose direct parent is not among the results: the run returns a sequence, not an
error; every emitted result of that message has `Orphan` and `Root` set and depth
1; and the message is emitted when `max_results` leaves room for the whole
sequence. -/
theorem run_orphan_of_absent_parent (backend : Backend) (query_expr sort_field : String)
    (flags : QueryFlags) (max_results : Nat) (m : Message) (p : String)
    (hsort : backend.sortable sort_field = true)
    (hthreading : flags.threading = true) (hrelated : flags.include_related = false)
    (hfirst : (backend.search query_expr sort_field flags.descending).find?
      (fun c => c.identifier = m.identifier) = some m)
    (hparent : m.reference_list.getLast? = some p)
    (habsent : p ∉ (backend.search query_expr sort_field flags.descending).map
      Message.identifier) :
    ∃ results, run backend query_expr sort_field flags max_results = .ok results
      ∧ (∀ e ∈ results, e.element.node.identifier = m.identifier →
          e.element.flags.orphan = true ∧ e.element.flags.root = true
            ∧ e.element.depth = 1)
      ∧ ((flatten backend query_expr sort_field flags).length ≤ max_results →
          ∃ e ∈ results, e.element.node.identifier = m.identifier) := by
  have hseq := sequence_of_threading backend query_expr sort_field flags hthreading hrelated
  obtain ⟨hexists, hnode⟩ := build_orphan_of_absent_parent
    (backend.search query_expr sort_field flags.descending) [] m p
    (by simpa using hfirst) hparent (by simpa using habsent)
  refine ⟨emit ((flatten backend query_expr sort_field flags).take max_results),
    by simp [run, hsort], ?_, ?_⟩
  · intro e he hid
    have he2 : e.element ∈ (flatten backend query_expr sort_field flags).take max_results := by
      rw [← emit_elements ((flatten backend query_expr sort_field flags).take max_results)]
      exact List.mem_map_of_mem _ he
    have he3 := mem_flatten _ _ _ _ _ (List.mem_of_mem_take he2)
    rw [hseq] at he3
    obtain ⟨harena, i, t, hflags⟩ := annotate_build_elements _ _ _ _ _ he3
    obtain ⟨hpar, horph⟩ := hnode _ harena hid
    refine ⟨by rw [hflags]; exact horph, by rw [hflags]; simp [annotate_flags, hpar], ?_⟩
    rcases parents_first_parent_mem _ [] (annotate_build_parents_first _ _ _ _) _ he3 with
      h | ⟨q, d, hq, _, _⟩
    · exact h.2
    · rw [hpar] at hq
      exact absurd hq (by simp)
  · intro hroom
    obtain ⟨n, hn, hnid⟩ := hexists
    obtain ⟨a, ha, hanode⟩ := annotate_build_visits_roots _ [] ThreadNode.sort_key
      flags.descending n hn (hnode n hn hnid).1
    have hid : m.identifier ∈ (sequence_of backend query_expr sort_field flags).map
        (fun e => e.node.identifier) := by
      rw [hseq]
      exact List.mem_map.mpr ⟨a, ha, by rw [hanode, hnid]⟩
    have hid2 := flatten_identifiers _ _ _ _ _ hid
    rw [← List.take_of_length_le hroom,
      ← emit_elements ((flatten backend query_expr sort_field flags).take max_results),
      List.map_map] at hid2
    obtain ⟨e, he, heid⟩ := List.mem_map.mp hid2
    exact ⟨e, he, heid⟩

/-- Witness of C12: the sample thread and a message whose parent is missing. -/
theorem run_orphan_of_absent_parent_witness :
    ∃ results, run (sample_backend [sample_a, sample_orphan, sample_b]) "query" "date"
        threading_only 10 = .ok results
      ∧ (∀ e ∈ results, e.element.node.identifier = "o@x" →
          e.element.flags.orphan = true ∧ e.element.flags.root = true
            ∧ e.element.depth = 1)
      ∧ ((flatten (sample_backend [sample_a, sample_orphan, sample_b]) "query" "date"
            threading_only).length ≤ 10 →
          ∃ e ∈ results, e.element.node.identifier = "o@x") :=
  run_orphan_of_absent_parent (sample_backend [sample_a, sample_orphan, sample_b]) "query"
    "date" threading_only 10 sample_orphan "gone@x" (by decide) rfl rfl (by decide) rfl
    (by decide)

/-- A node to which following the parent references from its parent leads back stays
unattached and unmarked through every attempt to attach a node. -/
theorem foldl_attach_keeps_cycle_node (id p : String) (nodes : List ThreadNode)
    (hrefs : ∀ x ∈ nodes, x.identifier = id → x.parent_reference = some p) :
    ∀ arena : List ThreadNode,
      p ∈ arena.map ThreadNode.identifier →
      leads_to arena id (arena.length + 1) [] p = true →
      (∀ n ∈ arena, n.identifier = id → n.parent = none ∧ n.orphan = false) →
      ∀ n ∈ nodes.foldl attach arena, n.identifier = id →
        n.parent = none ∧ n.orphan = false := by
  induction nodes with
  | nil => intro arena _ _ h; exact h
  | cons x rest ih =>
    intro arena hmem hrev h
    rw [List.foldl_cons]
    refine ih (fun y hy => hrefs y (List.mem_cons_of_mem _ hy)) _ ?_ ?_ ?_
    · rw [identifiers_of_core (attach_core arena x)]
      exact hmem
    · rw [length_attach]
      rw [leads_to_congr _ _ (reference_of_attach arena x)]
      exact hrev
    · by_cases hx : x.identifier = id
      · have hp := hrefs x (List.mem_cons_self _ _) hx
        have hsame : attach arena x = arena := by
          simp [attach, hp, hmem, hx, hrev]
        rw [hsame]
        exact h
      · intro n hn hnid
        unfold attach at hn
        split at hn
        · exact h n hn hnid
        · split at hn
          · split at hn
            · exact h n hn hnid
            · simp only [set_parent, List.mem_map] at hn
              obtain ⟨n0, hn0, rfl⟩ := hn
              by_cases h0 : n0.identifier = x.identifier
              · simp only [h0, if_true] at hnid
                exact absurd hnid hx
              · simp only [h0, if_false] at hnid ⊢
                exact h n0 hn0 hnid
          · simp only [mark_orphan, List.mem_map] at hn
            obtain ⟨n0, hn0, rfl⟩ := hn
            by_cases h0 : n0.identifier = x.identifier
            · simp only [h0, if_true] at hnid
              exact absurd hnid hx
            · simp only [h0, if_false] at hnid ⊢
              exact h n0 hn0 hnid

/-- In the built forest, every node that lies on a cycle of parent references,
whatever the length of the cycle, is a root and carries no `Orphan` mark. -/
theorem build_cycle_node_is_root (candidates relatives : List Message) (n : ThreadNode)
    (hn : n ∈ (build candidates relatives).arena)
    (hcycle : Relation.TransGen (is_reference (node_map candidates relatives))
      n.identifier n.identifier) :
    n.parent = none ∧ n.orphan = false := by
  have hinv := node_map_invariant candidates relatives
  obtain ⟨p, hp, hback⟩ := Relation.TransGen.head'_iff.mp hcycle
  have hrev := (leads_to_exact (node_map candidates relatives) n.identifier p).mpr hback
  have hpmem : p ∈ (node_map candidates relatives).map ThreadNode.identifier := by
    rcases Relation.ReflTransGen.cases_head hback with h | ⟨d, hd, _⟩
    · rw [h]
      exact mem_of_reference_of hp
    · exact mem_of_reference_of hd
  unfold build attach_all at hn
  refine foldl_attach_keeps_cycle_node n.identifier p _ ?_ _ hpmem hrev
    (fun k hk _ => hinv.2.2.1 k hk) n hn rfl
  intro x hx hxid
  rw [← reference_of_mem hinv.1 hx, hxid]
  exact hp

/-- The attempts to attach nodes change no parent reference. -/
theorem reference_of_foldl_attach (nodes : List ThreadNode) :
    ∀ (arena : List ThreadNode) (x : String),
      reference_of (nodes.foldl attach arena) x = reference_of arena x := by
  induction nodes with
  | nil => intro arena x; rfl
  | cons n rest ih =>
    intro arena x
    rw [List.foldl_cons, ih, reference_of_attach]

/-- The parent references of the built forest are those of the identifier-to-node
map. -/
theorem is_reference_build (candidates relatives : List Message) :
    is_reference (build candidates relatives).arena
      = is_reference (node_map candidates relatives) := by
  funext x y
  unfold is_reference build attach_all
  rw [reference_of_foldl_attach]

/-- A node once attached under its direct parent keeps the link through every attempt
to attach a node. -/
theorem foldl_attach_keeps_link (id p : String) (nodes : List ThreadNode)
    (hrefs : ∀ x ∈ nodes, x.identifier = id → x.parent_reference = some p) :
    ∀ arena : List ThreadNode,
      (∀ n ∈ arena, n.identifier = id → n.parent = some p) →
      ∀ n ∈ nodes.foldl attach arena, n.identifier = id → n.parent = some p := by
  induction nodes with
  | nil => intro arena h; exact h
  | cons x rest ih =>
    intro arena h
    rw [List.foldl_cons]
    refine ih (fun y hy => hrefs y (List.mem_cons_of_mem _ hy)) _ ?_
    intro n hn hnid
    unfold attach at hn
    split at hn
    · exact h n hn hnid
    · rename_i q hq
      split at hn
      · split at hn
        · exact h n hn hnid
        · simp only [set_parent, List.mem_map] at hn
          obtain ⟨n0, hn0, rfl⟩ := hn
          by_cases h0 : n0.identifier = x.identifier
          · simp only [h0, if_true] at hnid ⊢
            have := hrefs x (List.mem_cons_self _ _) hnid
            rw [hq] at this
            rw [Option.some.inj this]
          · simp only [h0, if_false] at hnid ⊢
            exact h n0 hn0 hnid
      · simp only [mark_orphan, List.mem_map] at hn
        obtain ⟨n0, hn0, rfl⟩ := hn
        by_cases h0 : n0.identifier = x.identifier
        · simp only [h0, if_true] at hnid ⊢
          exact h n0 hn0 (h0.trans hnid)
        · simp only [h0, if_false] at hnid ⊢
          exact h n0 hn0 hnid

/-- A node whose direct parent is in the arena, and to which the parent references
do not lead back from there, is attached under it when its turn comes. -/
theorem foldl_attach_makes_link (id p : String) (nodes : List ThreadNode)
    (hrefs : ∀ x ∈ nodes, x.identifier = id → x.parent_reference = some p)
    (hturn : ∃ x ∈ nodes, x.identifier = id) :
    ∀ arena : List ThreadNode,
      p ∈ arena.map ThreadNode.identifier →
      leads_to arena id (arena.length + 1) [] p = false →
      ∀ n ∈ nodes.foldl attach arena, n.identifier = id → n.parent = some p := by
  induction nodes with
  | nil =>
    obtain ⟨x, hx, _⟩ := hturn
    simp at hx
  | cons x rest ih =>
    intro arena hmem hlead
    rw [List.foldl_cons]
    by_cases hx : x.identifier = id
    · apply foldl_attach_keeps_link id p rest
        (fun y hy => hrefs y (List.mem_cons_of_mem _ hy))
      have href := hrefs x (List.mem_cons_self _ _) hx
      intro n hn hnid
      simp only [attach, href, hmem, if_true, hx, hlead, Bool.false_eq_true, if_false,
        set_parent, List.mem_map] at hn
      obtain ⟨n0, hn0, rfl⟩ := hn
      by_cases h0 : n0.identifier = id
      · simp [h0]
      · simp only [h0, if_false] at hnid
    · obtain ⟨y, hy, hyid⟩ := hturn
      have hyrest : y ∈ rest := by
        rcases List.mem_cons.mp hy with h | h
        · rw [h] at hyid
          exact absurd hyid hx
        · exact h
      refine ih (fun z hz => hrefs z (List.mem_cons_of_mem _ hz)) ⟨y, hyrest, hyid⟩ _ ?_ ?_
      · rw [identifiers_of_core (attach_core arena x)]
        exact hmem
      · rw [length_attach, leads_to_congr _ _ (reference_of_attach arena x)]
        exact hlead

/-- In the built forest a node is attached under a node exactly when that node is its
direct parent, is in the arena, and the node does not lie on a cycle of parent
references: the links do not depend on the order in which the messages were
found. -/
theorem build_parent_iff (candidates relatives : List Message) (n : ThreadNode)
    (hn : n ∈ (build candidates relatives).arena) (p : String) :
    n.parent = some p
      ↔ n.parent_reference = some p
        ∧ p ∈ (build candidates relatives).arena.map ThreadNode.identifier
        ∧ ¬ Relation.TransGen (is_reference (node_map candidates relatives))
            n.identifier n.identifier := by
  have hnodup := build_nodup candidates relatives
  have hinv := node_map_invariant candidates relatives
  have hrefn := reference_of_mem hnodup hn
  constructor
  · intro hparent
    have hlink : is_parent (build candidates relatives).arena n.identifier p := by
      unfold is_parent parent_of
      rw [lookup_node_of_mem hnodup hn]
      exact hparent
    obtain ⟨h1, h2, h3⟩ := build_links_checked candidates relatives _ _ hlink
    refine ⟨by rw [← hrefn]; exact h1, h2, ?_⟩
    intro hcycle
    rw [← is_reference_build] at hcycle
    obtain ⟨c, hc, hback⟩ := Relation.TransGen.head'_iff.mp hcycle
    rw [is_reference_right_unique _ hc h1] at hback
    have := (leads_to_exact _ n.identifier p).mpr hback
    rw [h3] at this
    exact Bool.noConfusion this
  · rintro ⟨href, hmem, hfree⟩
    have hedge : is_reference (node_map candidates relatives) n.identifier p := by
      rw [← is_reference_build]
      unfold is_reference
      rw [hrefn]
      exact href
    have hlead : leads_to (node_map candidates relatives) n.identifier
        ((node_map candidates relatives).length + 1) [] p = false := by
      cases hl : leads_to (node_map candidates relatives) n.identifier
        ((node_map candidates relatives).length + 1) [] p with
      | false => rfl
      | true =>
        exact absurd (Relation.TransGen.head' hedge ((leads_to_exact _ _ _).mp hl)) hfree
    have hturn : ∃ x ∈ node_map candidates relatives, x.identifier = n.identifier := by
      have : n.identifier ∈ (node_map candidates relatives).map ThreadNode.identifier := by
        rw [← build_identifiers]
        exact List.mem_map_of_mem _ hn
      obtain ⟨x, hx, hxid⟩ := List.mem_map.mp this
      exact ⟨x, hx, hxid⟩
    rw [build_identifiers] at hmem
    unfold build attach_all at hn
    refine foldl_attach_makes_link n.identifier p _ ?_ hturn _ hmem hlead n hn rfl
    intro x hx hxid
    rw [← reference_of_mem hinv.1 hx, hxid]
    exact hedge

/-- C13: build is a total function and the forest it returns has no cycle, for every
candidate and relative set; every node on a cycle of parent references is a root
without `Orphan` mark, and a node is attached under its direct parent exactly when
the parent is in the arena and the node lies on no such cycle, in whatever order the
messages were found. For two messages A and B where the parent of A
is B and the parent of B is A, whichever is found first, both links are discarded:
both nodes are roots, neither is attached under the other, neither is marked
`Orphan`, and every annotated result carries `Root` set and `Orphan` unset at
depth 1. -/
theorem build_acyclic_cycle_roots (candidates relatives : List Message) :
    (∃ forest, build candidates relatives = forest)
      ∧ Acyclic (build candidates relatives).arena
      ∧ (∀ n ∈ (build candidates relatives).arena,
          Relation.TransGen (is_reference (node_map candidates relatives))
            n.identifier n.identifier →
          n.parent = none ∧ n.orphan = false)
      ∧ (∀ n ∈ (build candidates relatives).arena, ∀ p,
          (n.parent = some p
            ↔ n.parent_reference = some p
              ∧ p ∈ (build candidates relatives).arena.map ThreadNode.identifier
              ∧ ¬ Relation.TransGen (is_reference (node_map candidates relatives))
                  n.identifier n.identifier))
      ∧ ∀ A B : Message, A.identifier ≠ B.identifier →
          A.reference_list.getLast? = some B.identifier →
          B.reference_list.getLast? = some A.identifier →
          (build [A, B] []).roots = [A.identifier, B.identifier]
            ∧ (build [A, B] []).arena.map (fun n => (n.identifier, n.parent, n.orphan))
              = [(A.identifier, none, false), (B.identifier, none, false)]
            ∧ ∀ (sort_key_of : ThreadNode → Int) (descending : Bool),
                ((annotate (build [A, B] []) sort_key_of descending).map
                    (fun e => e.node.identifier)).Perm [A.identifier, B.identifier]
                  ∧ ∀ e ∈ annotate (build [A, B] []) sort_key_of descending,
                      e.flags.root = true ∧ e.flags.orphan = false ∧ e.depth = 1 := by
  refine ⟨⟨_, rfl⟩, build_acyclic candidates relatives,
    build_cycle_node_is_root candidates relatives,
    build_parent_iff candidates relatives, ?_⟩
  intro A B hAB hA hB
  have hBA := hAB.symm
  have hroots : (build [A, B] []).roots = [A.identifier, B.identifier] := by
    simp [build, node_map, add_message, new_node, attach_all, attach, hA, hB, hAB, hBA,
      leads_to, reference_of, parent_of, lookup_node, set_parent, mark_orphan]
  have harena : (build [A, B] []).arena
      = [⟨A.identifier, some B.identifier, none, .Matched, A.document_handle, A.sort_key,
          false, false⟩,
         ⟨B.identifier, some A.identifier, none, .Matched, B.document_handle, B.sort_key,
          false, false⟩] := by
    simp [build, node_map, add_message, new_node, attach_all, attach, hA, hB, hAB, hBA,
      leads_to, reference_of, parent_of, lookup_node, set_parent, mark_orphan]
  refine ⟨hroots, by rw [harena]; rfl, ?_⟩
  intro sort_key_of descending
  constructor
  · by_cases hord : stands_before sort_key_of descending
        ⟨A.identifier, some B.identifier, none, .Matched, A.document_handle, A.sort_key,
          false, false⟩
        ⟨B.identifier, some A.identifier, none, .Matched, B.document_handle, B.sort_key,
          false, false⟩ = true
    · simp [annotate, hroots, harena, lookup_node, hAB, hBA, walk, visit_siblings,
        order_siblings, insert_sibling, hord, children_of]
    · simp [annotate, hroots, harena, lookup_node, hAB, hBA, walk, visit_siblings,
        order_siblings, insert_sibling, hord, children_of]
      exact List.Perm.swap _ _ _
  · intro e he
    obtain ⟨hnode, i, t, hflags⟩ := annotate_build_elements [A, B] [] sort_key_of
      descending e he
    have hfree : e.node.parent = none ∧ e.node.orphan = false := by
      rw [harena] at hnode
      simp only [List.mem_cons, List.mem_singleton, List.not_mem_nil, or_false] at hnode
      rcases hnode with h | h <;> rw [h] <;> exact ⟨rfl, rfl⟩
    refine ⟨by rw [hflags]; simp [annotate_flags, hfree.1],
      by rw [hflags]; simp [annotate_flags, hfree.2], ?_⟩
    rcases parents_first_parent_mem _ []
        (annotate_build_parents_first [A, B] [] sort_key_of descending) e he with
      h | ⟨q, d, hq, _, _⟩
    · exact h.2
    · rw [hfree.1] at hq
      exact absurd hq (by simp)

/-- Witness of C13: the two sample messages of the cycle, found in the order A, B and
in the order B, A; a run with `Threading` emits both as roots at depth 1, unmarked. -/
theorem build_acyclic_cycle_roots_witness :
    ((build [sample_cycle_a, sample_cycle_b] []).roots = ["a@x", "b@x"]
        ∧ (build [sample_cycle_a, sample_cycle_b] []).arena.map
            (fun n => (n.identifier, n.parent, n.orphan))
          = [("a@x", none, false), ("b@x", none, false)])
      ∧ ((build [sample_cycle_b, sample_cycle_a] []).roots = ["b@x", "a@x"]
        ∧ (build [sample_cycle_b, sample_cycle_a] []).arena.map
            (fun n => (n.identifier, n.parent, n.orphan))
          = [("b@x", none, false), ("a@x", none, false)])
      ∧ (run (sample_backend [sample_cycle_a, sample_cycle_b]) "query" "date"
          threading_only 10).toOption.map
          (fun results => results.map (fun e => (e.element.node.identifier,
            e.element.flags.root, e.element.flags.orphan, e.element.depth)))
        = some [("b@x", true, false, 1), ("a@x", true, false, 1)] :=
  ⟨⟨((build_acyclic_cycle_roots [] []).2.2.2.2 sample_cycle_a sample_cycle_b (by decide)
        rfl rfl).1,
      ((build_acyclic_cycle_roots [] []).2.2.2.2 sample_cycle_a sample_cycle_b (by decide)
        rfl rfl).2.1⟩,
    ⟨((build_acyclic_cycle_roots [] []).2.2.2.2 sample_cycle_b sample_cycle_a (by decide)
        rfl rfl).1,
      ((build_acyclic_cycle_roots [] []).2.2.2.2 sample_cycle_b sample_cycle_a (by decide)
        rfl rfl).2.1⟩,
    by decide⟩

/-- C14: the built forest holds at most one node per identifier; the `Duplicate`
mark of a node, and the `Duplicate` flag of its annotated results, is set exactly
when its identifier occurs at least twice among the candidates and relatives, that
is when a further occurrence was suppressed; with `SkipDuplicates` set no
identifier stands twice in the flattened sequence nor in what a run emits. -/
theorem build_one_node_per_identifier (candidates relatives : List Message) :
    ((build candidates relatives).arena.map ThreadNode.identifier).Nodup
      ∧ (∀ n ∈ (build candidates relatives).arena,
          (n.duplicate = true
            ↔ 2 ≤ ((candidates ++ relatives).map Message.identifier).count n.identifier))
      ∧ (∀ (sort_key_of : ThreadNode → Int) (descending : Bool),
          ∀ e ∈ annotate (build candidates relatives) sort_key_of descending,
            (e.flags.duplicate = true
              ↔ 2 ≤ ((candidates ++ relatives).map Message.identifier).count
                  e.node.identifier))
      ∧ ∀ (backend : Backend) (query_expr sort_field : String) (flags : QueryFlags)
          (max_results : Nat), flags.skip_duplicates = true →
          ((flatten backend query_expr sort_field flags).map
              (fun e => e.node.identifier)).Nodup
            ∧ ∀ results, run backend query_expr sort_field flags max_results = .ok results →
                (results.map (fun e => e.element.node.identifier)).Nodup := by
  have hdup : ∀ n ∈ (build candidates relatives).arena,
      (n.duplicate = true
        ↔ 2 ≤ ((candidates ++ relatives).map Message.identifier).count n.identifier) := by
    intro n hn
    have hcore : node_core n ∈ (node_map candidates relatives).map node_core := by
      rw [← build_core]
      exact List.mem_map_of_mem _ hn
    obtain ⟨n0, hn0, hcore0⟩ := List.mem_map.mp hcore
    have hid : n0.identifier = n.identifier := congrArg Prod.fst hcore0
    have hd : n0.duplicate = n.duplicate :=
      congrArg (fun c => c.2.2.2.2.2) hcore0
    rw [← hd, ← hid]
    exact (node_map_invariant candidates relatives).2.2.2 n0 hn0
  refine ⟨build_nodup candidates relatives, hdup, ?_, ?_⟩
  · intro sort_key_of descending e he
    obtain ⟨harena, i, t, hflags⟩ := annotate_build_elements _ _ _ _ e he
    rw [← hdup e.node harena, hflags]
    rfl
  · intro backend query_expr sort_field flags max_results hskip
    have hflat : ((flatten backend query_expr sort_field flags).map
        (fun e => e.node.identifier)).Nodup := by
      unfold flatten
      simp only [hskip, if_true]
      split
      · exact ((reverse_root_subtrees_perm _).map _).nodup_iff.mpr
          (drop_repeated_nodup _ _)
      · exact drop_repeated_nodup _ _
    refine ⟨hflat, ?_⟩
    intro results hrun
    unfold run at hrun
    split at hrun
    · have hres := (Except.ok.inj hrun).symm
      have hmap : results.map (fun e => e.element.node.identifier)
          = ((flatten backend query_expr sort_field flags).take max_results).map
              (fun e => e.node.identifier) := by
        rw [hres]
        conv_rhs => rw [← emit_elements ((flatten backend query_expr sort_field flags).take
          max_results)]
        rw [List.map_map]
        rfl
      rw [hmap, List.map_take]
      exact (List.take_sublist _ _).nodup hflat
    · cases hrun

/-- A sequence that puts parents first puts the identifiers of parents first. -/
theorem parent_ids_first_of_parents_first (l : List Annotated) :
    ∀ seen : List (String × Nat), ParentsFirst seen l →
      ParentIdsFirst (seen.map Prod.fst) l := by
  induction l with
  | nil => intro _ _; trivial
  | cons e rest ih =>
    intro seen h
    obtain ⟨hhead, htail⟩ := h
    refine ⟨?_, ?_⟩
    · intro p hp
      rcases hhead with h | ⟨q, d, hmem, hq, _⟩
      · rw [h.1] at hp
        exact absurd hp (by simp)
      · rw [hq] at hp
        rw [← Option.some.inj hp]
        exact List.mem_map.mpr ⟨(q, d), hmem, rfl⟩
    · have := ih _ htail
      simpa using this

/-- More identifiers before the sequence do not hurt. -/
theorem parent_ids_first_mono (l : List Annotated) :
    ∀ seen seen2 : List String, (∀ x ∈ seen, x ∈ seen2) →
      ParentIdsFirst seen l → ParentIdsFirst seen2 l := by
  induction l with
  | nil => intro _ _ _ _; trivial
  | cons e rest ih =>
    intro seen seen2 hsub h
    obtain ⟨hhead, htail⟩ := h
    refine ⟨fun p hp => hsub p (hhead p hp), ih _ _ ?_ htail⟩
    intro x hx
    rcases List.mem_cons.mp hx with h | h
    · rw [h]
      exact List.mem_cons_self _ _
    · exact List.mem_cons_of_mem _ (hsub x h)

/-- Dropping repeated messages keeps the identifiers of parents first. -/
theorem parent_ids_first_drop_repeated (l : List Annotated) :
    ∀ seen dropped : List String, (∀ x ∈ dropped, x ∈ seen) →
      ParentIdsFirst seen l → ParentIdsFirst seen (drop_repeated dropped l) := by
  induction l with
  | nil => intro _ _ _ _; trivial
  | cons e rest ih =>
    intro seen dropped hsub h
    obtain ⟨hhead, htail⟩ := h
    by_cases hin : e.node.identifier ∈ dropped
    · simp only [drop_repeated, hin, if_true]
      refine ih seen dropped hsub (parent_ids_first_mono rest _ _ ?_ htail)
      intro x hx
      rcases List.mem_cons.mp hx with h | h
      · rw [h]
        exact hsub _ hin
      · exact h
    · simp only [drop_repeated, hin, if_false]
      refine ⟨hhead, ih _ _ ?_ htail⟩
      intro x hx
      rcases List.mem_cons.mp hx with h | h
      · rw [h]
        exact List.mem_cons_self _ _
      · exact List.mem_cons_of_mem _ (hsub x h)

/-- A beginning of a sequence that puts the identifiers of parents first does so
too. -/
theorem parent_ids_first_take (l : List Annotated) :
    ∀ (seen : List String) (k : Nat), ParentIdsFirst seen l →
      ParentIdsFirst seen (l.take k) := by
  induction l with
  | nil => intro _ k _; simp only [List.take_nil]; trivial
  | cons e rest ih =>
    intro seen k h
    cases k with
    | zero => trivial
    | succ k => exact ⟨h.1, ih _ k h.2⟩

/-- In a sequence that puts the identifiers of parents first, the parent of every
element is in the sequence or before it. -/
theorem parent_ids_first_parent_mem (l : List Annotated) :
    ∀ seen : List String, ParentIdsFirst seen l → ∀ e ∈ l, ∀ p, e.node.parent = some p →
      p ∈ seen ∨ p ∈ l.map (fun x => x.node.identifier) := by
  induction l with
  | nil => intro _ _ e he; simp at he
  | cons x rest ih =>
    intro seen h e he p hp
    rcases List.mem_cons.mp he with hx | hx
    · rw [hx] at hp
      exact Or.inl (h.1 p hp)
    · rcases ih _ h.2 e hx p hp with h2 | h2
      · rcases List.mem_cons.mp h2 with h3 | h3
        · right
          rw [h3]
          simp
        · exact Or.inl h3
      · right
        simp only [List.map_cons, List.mem_cons]
        exact Or.inr h2

/-! ## Theorems: no node is visited twice -/

/-- Putting a node into an ordered sibling list adds that node and nothing else. -/
theorem insert_sibling_perm (sort_key_of : ThreadNode → Int) (descending : Bool)
    (x : ThreadNode) (l : List ThreadNode) :
    (insert_sibling sort_key_of descending x l).Perm (x :: l) := by
  induction l with
  | nil => exact List.Perm.refl _
  | cons y rest ih =>
    simp only [insert_sibling]
    split
    · exact List.Perm.refl _
    · exact ((List.Perm.cons y ih).trans (List.Perm.swap x y rest))

/-- Ordering siblings keeps each sibling once. -/
theorem order_siblings_perm (sort_key_of : ThreadNode → Int) (descending : Bool)
    (l : List ThreadNode) : (order_siblings sort_key_of descending l).Perm l := by
  induction l with
  | nil => exact List.Perm.refl _
  | cons x rest ih =>
    simp only [order_siblings]
    exact (insert_sibling_perm _ _ _ _).trans (List.Perm.cons x ih)

/-- In an arena without repeated identifier, the parent link of a node is looked up
through its identifier. -/
theorem parent_of_mem {arena : List ThreadNode}
    (hnodup : (arena.map ThreadNode.identifier).Nodup) {n : ThreadNode} (hn : n ∈ arena) :
    parent_of arena n.identifier = n.parent := by
  unfold parent_of
  rw [lookup_node_of_mem hnodup hn]
  rfl

/-- A node has at most one parent. -/
theorem is_parent_right_unique (arena : List ThreadNode) :
    Relator.RightUnique (is_parent arena) := by
  intro a b c hab hac
  unfold is_parent at hab hac
  rw [hab] at hac
  exact Option.some.inj hac

/-- An element of a visit of siblings carries one of the siblings or is found below
one of them. -/
theorem mem_visit_siblings (visit : ThreadNode → List Nat → List Annotated)
    (depth total : Nat) (above : List Nat) (siblings : List ThreadNode) :
    ∀ (index : Nat), ∀ e ∈ visit_siblings visit depth total above index siblings,
      ∃ n ∈ siblings, e.node = n ∨ ∃ path, e ∈ visit n path := by
  induction siblings with
  | nil => intro index e he; simp [visit_siblings] at he
  | cons m rest ih =>
    intro index e he
    simp only [visit_siblings, List.mem_cons, List.mem_append] at he
    rcases he with he | he | he
    · exact ⟨m, List.mem_cons_self _ _, Or.inl (by rw [he])⟩
    · exact ⟨m, List.mem_cons_self _ _, Or.inr ⟨_, he⟩⟩
    · obtain ⟨n, hn, h⟩ := ih (index + 1) e he
      exact ⟨n, List.mem_cons_of_mem _ hn, h⟩

/-- The children of a node are nodes of the arena attached under it. -/
theorem mem_children {arena : List ThreadNode}
    (hnodup : (arena.map ThreadNode.identifier).Nodup) (sort_key_of : ThreadNode → Int)
    (descending : Bool) (id : String) (c : ThreadNode)
    (hc : c ∈ order_siblings sort_key_of descending (children_of arena id)) :
    c ∈ arena ∧ c.parent = some id ∧ is_parent arena c.identifier id := by
  rw [mem_order_siblings] at hc
  have hmem := (List.mem_filter.mp hc).1
  have hparent : c.parent = some id := by
    simpa [children_of] using (List.mem_filter.mp hc).2
  refine ⟨hmem, hparent, ?_⟩
  unfold is_parent
  rw [parent_of_mem hnodup hmem, hparent]

/-- Every element of the walk carries one of the siblings or a node below one of
them. -/
theorem walk_below (arena : List ThreadNode)
    (hnodup : (arena.map ThreadNode.identifier).Nodup) (sort_key_of : ThreadNode → Int)
    (descending : Bool) (fuel : Nat) :
    ∀ (depth : Nat) (above : List Nat) (siblings : List ThreadNode),
      ∀ e ∈ walk arena sort_key_of descending fuel depth above siblings,
        ∃ s ∈ siblings,
          Relation.ReflTransGen (is_parent arena) e.node.identifier s.identifier := by
  induction fuel with
  | zero => intro depth above siblings e he; simp [walk] at he
  | succ fuel ih =>
    intro depth above siblings e he
    unfold walk at he
    obtain ⟨n, hn, h | ⟨path, h⟩⟩ := mem_visit_siblings _ _ _ _ _ _ e he
    · exact ⟨n, hn, by rw [h]⟩
    · obtain ⟨c, hc, hreach⟩ := ih _ _ _ e h
      exact ⟨n, hn, hreach.tail (mem_children hnodup _ _ _ c hc).2.2⟩

/-- The ordered children of a node carry distinct identifiers. -/
theorem children_nodup {arena : List ThreadNode}
    (hnodup : (arena.map ThreadNode.identifier).Nodup) (sort_key_of : ThreadNode → Int)
    (descending : Bool) (id : String) :
    ((order_siblings sort_key_of descending (children_of arena id)).map
      ThreadNode.identifier).Nodup := by
  rw [((order_siblings_perm sort_key_of descending _).map _).nodup_iff]
  exact ((List.filter_sublist _).map _).nodup hnodup

/-- In an arena without cycle, no node is below two children of one node. -/
theorem children_unrelated {arena : List ThreadNode}
    (hnodup : (arena.map ThreadNode.identifier).Nodup) (hacyclic : Acyclic arena)
    (sort_key_of : ThreadNode → Int) (descending : Bool) (id : String)
    (c1 : ThreadNode)
    (h1 : c1 ∈ order_siblings sort_key_of descending (children_of arena id))
    (c2 : ThreadNode)
    (h2 : c2 ∈ order_siblings sort_key_of descending (children_of arena id))
    (x : String) (hx1 : Relation.ReflTransGen (is_parent arena) x c1.identifier)
    (hx2 : Relation.ReflTransGen (is_parent arena) x c2.identifier) :
    c1.identifier = c2.identifier := by
  have e1 := (mem_children hnodup _ _ _ c1 h1).2.2
  have e2 := (mem_children hnodup _ _ _ c2 h2).2.2
  have hup : ∀ a b : ThreadNode, is_parent arena a.identifier id →
      is_parent arena b.identifier id →
      Relation.ReflTransGen (is_parent arena) a.identifier b.identifier →
      a.identifier = b.identifier := by
    intro a b ha hb hab
    rcases Relation.ReflTransGen.cases_head hab with h | ⟨c, hc, hrest⟩
    · exact h
    · have hcid : c = id := is_parent_right_unique arena hc ha
      rw [hcid] at hrest
      exact absurd (Relation.TransGen.tail' hrest hb) (hacyclic id)
  rcases Relation.ReflTransGen.total_of_right_unique (is_parent_right_unique arena) hx1 hx2
    with h | h
  · exact hup c1 c2 e1 e2 h
  · exact (hup c2 c1 e2 e1 h).symm

/-- A visit of siblings that carry distinct identifiers and have no node below two of
them visits no node twice, as soon as the same holds below every sibling. -/
theorem visit_siblings_nodup (arena : List ThreadNode) (hacyclic : Acyclic arena)
    (visit : ThreadNode → List Nat → List Annotated) (depth total : Nat) (above : List Nat)
    (siblings : List ThreadNode) :
    ∀ (index : Nat),
      (∀ n ∈ siblings, ∀ path, ((visit n path).map (fun e => e.node.identifier)).Nodup) →
      (∀ n ∈ siblings, ∀ path, ∀ e ∈ visit n path,
        Relation.TransGen (is_parent arena) e.node.identifier n.identifier) →
      (siblings.map ThreadNode.identifier).Nodup →
      (∀ s1 ∈ siblings, ∀ s2 ∈ siblings, ∀ x,
        Relation.ReflTransGen (is_parent arena) x s1.identifier →
        Relation.ReflTransGen (is_parent arena) x s2.identifier →
        s1.identifier = s2.identifier) →
      ((visit_siblings visit depth total above index siblings).map
        (fun e => e.node.identifier)).Nodup := by
  induction siblings with
  | nil => intro index _ _ _ _; simp [visit_siblings]
  | cons n rest ih =>
    intro index hvn hvb hsn hun
    have hrest := ih (index + 1)
      (fun m hm => hvn m (List.mem_cons_of_mem _ hm))
      (fun m hm => hvb m (List.mem_cons_of_mem _ hm))
      (List.nodup_cons.mp hsn).2
      (fun s1 h1 s2 h2 => hun s1 (List.mem_cons_of_mem _ h1) s2 (List.mem_cons_of_mem _ h2))
    have hbelow_rest : ∀ e ∈ visit_siblings visit depth total above (index + 1) rest,
        ∃ s ∈ rest,
          Relation.ReflTransGen (is_parent arena) e.node.identifier s.identifier := by
      intro e he
      obtain ⟨m, hm, h | ⟨path, h⟩⟩ := mem_visit_siblings _ _ _ _ _ _ e he
      · exact ⟨m, hm, by rw [h]⟩
      · exact ⟨m, hm, (hvb m (List.mem_cons_of_mem _ hm) path e h).to_reflTransGen⟩
    have hnot_rest : ∀ s ∈ rest, s.identifier ≠ n.identifier := by
      intro s hs heq
      exact (List.nodup_cons.mp hsn).1 (heq ▸ List.mem_map_of_mem _ hs)
    simp only [visit_siblings, List.map_cons, List.map_append, List.nodup_cons,
      List.mem_append, List.mem_map, not_or, not_exists, not_and]
    refine ⟨⟨?_, ?_⟩, ?_⟩
    · intro e he heq
      have := hvb n (List.mem_cons_self _ _) _ e he
      rw [heq] at this
      exact hacyclic _ this
    · intro e he heq
      obtain ⟨s, hs, hreach⟩ := hbelow_rest e he
      rw [heq] at hreach
      exact hnot_rest s hs
        (hun n (List.mem_cons_self _ _) s (List.mem_cons_of_mem _ hs) n.identifier
          Relation.ReflTransGen.refl hreach).symm
    · rw [List.nodup_append]
      refine ⟨hvn n (List.mem_cons_self _ _) _, hrest, ?_⟩
      intro id h1 h2
      obtain ⟨e1, he1, hid1⟩ := List.mem_map.mp h1
      obtain ⟨e2, he2, hid2⟩ := List.mem_map.mp h2
      have hr1 := (hvb n (List.mem_cons_self _ _) _ e1 he1).to_reflTransGen
      obtain ⟨s, hs, hr2⟩ := hbelow_rest e2 he2
      rw [hid1] at hr1
      rw [hid2] at hr2
      exact hnot_rest s hs
        (hun n (List.mem_cons_self _ _) s (List.mem_cons_of_mem _ hs) id hr1 hr2).symm

/-- In an arena without cycle and without repeated identifier, the walk over siblings
that carry distinct identifiers and have no node below two of them visits no node
twice. -/
theorem walk_nodup (arena : List ThreadNode)
    (hnodup : (arena.map ThreadNode.identifier).Nodup) (hacyclic : Acyclic arena)
    (sort_key_of : ThreadNode → Int) (descending : Bool) (fuel : Nat) :
    ∀ (depth : Nat) (above : List Nat) (siblings : List ThreadNode),
      (siblings.map ThreadNode.identifier).Nodup →
      (∀ s1 ∈ siblings, ∀ s2 ∈ siblings, ∀ x,
        Relation.ReflTransGen (is_parent arena) x s1.identifier →
        Relation.ReflTransGen (is_parent arena) x s2.identifier →
        s1.identifier = s2.identifier) →
      ((walk arena sort_key_of descending fuel depth above siblings).map
        (fun e => e.node.identifier)).Nodup := by
  induction fuel with
  | zero => intro depth above siblings _ _; simp [walk]
  | succ fuel ih =>
    intro depth above siblings hsn hun
    unfold walk
    refine visit_siblings_nodup arena hacyclic _ _ _ _ siblings 0 ?_ ?_ hsn hun
    · intro n _ path
      exact ih _ _ _ (children_nodup hnodup _ _ _)
        (children_unrelated hnodup hacyclic _ _ _)
    · intro n _ path e he
      obtain ⟨c, hc, hreach⟩ := walk_below arena hnodup _ _ fuel _ _ _ e he
      exact Relation.TransGen.tail' hreach (mem_children hnodup _ _ _ c hc).2.2

/-- The annotated sequence of a built forest holds no identifier twice. -/
theorem annotate_build_nodup (candidates relatives : List Message)
    (sort_key_of : ThreadNode → Int) (descending : Bool) :
    ((annotate (build candidates relatives) sort_key_of descending).map
      (fun e => e.node.identifier)).Nodup := by
  have hnodup := build_nodup candidates relatives
  have hacyclic := build_acyclic candidates relatives
  unfold annotate
  refine walk_nodup _ hnodup hacyclic _ _ _ _ _ _ ?_ ?_
  · rw [((order_siblings_perm sort_key_of descending _).map _).nodup_iff, build_root_nodes]
    exact ((List.filter_sublist _).map _).nodup hnodup
  · intro s1 h1 s2 h2 x hx1 hx2
    rw [mem_order_siblings, build_root_nodes] at h1 h2
    have hroot : ∀ s ∈ (build candidates relatives).arena.filter (fun n => n.parent.isNone),
        ∀ y, ¬ is_parent (build candidates relatives).arena s.identifier y := by
      intro s hs y hy
      unfold is_parent at hy
      rw [parent_of_mem hnodup (List.mem_filter.mp hs).1] at hy
      have := (List.mem_filter.mp hs).2
      rw [hy] at this
      simp at this
    rcases Relation.ReflTransGen.total_of_right_unique
        (is_parent_right_unique (build candidates relatives).arena) hx1 hx2 with h | h
    · rcases Relation.ReflTransGen.cases_head h with h3 | ⟨c, hc, _⟩
      · exact h3
      · exact absurd hc (hroot s1 h1 c)
    · rcases Relation.ReflTransGen.cases_head h with h3 | ⟨c, hc, _⟩
      · exact h3.symm
      · exact absurd hc (hroot s2 h2 c)

/-! ## Theorems: whole root-subtrees and truncation -/

/-- A sequence without repeated identifier loses nothing in the step that drops
repeated messages. -/
theorem drop_repeated_of_nodup (l : List Annotated) :
    ∀ seen : List String, (l.map (fun e => e.node.identifier)).Nodup →
      (∀ e ∈ l, e.node.identifier ∉ seen) → drop_repeated seen l = l := by
  induction l with
  | nil => intro _ _ _; rfl
  | cons e rest ih =>
    intro seen hnodup hseen
    have hnot := hseen e (List.mem_cons_self _ _)
    simp only [drop_repeated, hnot, if_false]
    congr 1
    have hn := List.nodup_cons.mp hnodup
    refine ih _ hn.2 ?_
    intro x hx hmem
    rcases List.mem_cons.mp hmem with h | h
    · exact hn.1 (List.mem_map.mpr ⟨x, hx, h⟩)
    · exact hseen x (List.mem_cons_of_mem _ hx) h

/-- Two sequences one after the other: the second has the identifiers of the first
before it. -/
theorem parent_ids_first_append (l1 : List Annotated) :
    ∀ (seen : List String) (l2 : List Annotated),
      ParentIdsFirst seen l1 →
      ParentIdsFirst ((l1.map (fun e => e.node.identifier)).reverse ++ seen) l2 →
      ParentIdsFirst seen (l1 ++ l2) := by
  induction l1 with
  | nil => intro seen l2 _ h2; simpa using h2
  | cons e rest ih =>
    intro seen l2 h1 h2
    obtain ⟨hhead, htail⟩ := h1
    refine ⟨hhead, ih _ l2 htail ?_⟩
    refine parent_ids_first_mono l2 _ _ ?_ h2
    intro x hx
    simp only [List.map_cons, List.reverse_cons, List.append_assoc, List.singleton_append,
      List.mem_append, List.mem_reverse, List.mem_cons] at hx ⊢
    tauto

/-- Sequences that each put the identifiers of parents first do so one after the
other, in any order. -/
theorem parent_ids_first_flatten (subtrees : List (List Annotated))
    (h : ∀ b ∈ subtrees, ParentIdsFirst [] b) : ParentIdsFirst [] subtrees.flatten := by
  induction subtrees with
  | nil => trivial
  | cons b rest ih =>
    rw [List.flatten_cons]
    refine parent_ids_first_append b [] _ (h b (List.mem_cons_self _ _)) ?_
    exact parent_ids_first_mono _ [] _ (fun x hx => by simp at hx)
      (ih (fun c hc => h c (List.mem_cons_of_mem _ hc)))

/-- Whether a sequence that begins with an element flagged `Root` has whole
root-subtrees does not depend on what stands before it. -/
theorem subtrees_whole_of_root (e : Annotated) (rest : List Annotated)
    (hroot : e.flags.root = true) (seen seen2 : List String)
    (h : SubtreesWhole seen (e :: rest)) : SubtreesWhole seen2 (e :: rest) := by
  simp only [SubtreesWhole, hroot, if_true] at h ⊢
  exact h

/-- Elements not flagged `Root` that put the identifiers of parents first, followed
by a sequence of whole root-subtrees, form whole root-subtrees. -/
theorem subtrees_whole_append (l1 : List Annotated) :
    ∀ (seen : List String) (l2 : List Annotated),
      (∀ e ∈ l1, e.flags.root = false) → ParentIdsFirst seen l1 →
      (∀ s, SubtreesWhole s l2) → SubtreesWhole seen (l1 ++ l2) := by
  induction l1 with
  | nil => intro seen l2 _ _ h2; exact h2 seen
  | cons e rest ih =>
    intro seen l2 hflags h1 h2
    have he := hflags e (List.mem_cons_self _ _)
    simp only [List.cons_append, SubtreesWhole, he, Bool.false_eq_true, if_false]
    exact ⟨h1.1, ih _ l2 (fun x hx => hflags x (List.mem_cons_of_mem _ hx)) h1.2 h2⟩

/-- A visit of unattached siblings, below each of which stand elements not flagged
`Root` that put the identifiers of parents first, is made of whole root-subtrees. -/
theorem visit_siblings_subtrees_whole (visit : ThreadNode → List Nat → List Annotated)
    (depth total : Nat) (above : List Nat) (siblings : List ThreadNode)
    (hroots : ∀ n ∈ siblings, n.parent = none)
    (hflags : ∀ n ∈ siblings, ∀ path, ∀ e ∈ visit n path, e.flags.root = false)
    (hfirst : ∀ n ∈ siblings, ∀ path, ParentIdsFirst [n.identifier] (visit n path)) :
    ∀ (index : Nat) (seen : List String),
      SubtreesWhole seen (visit_siblings visit depth total above index siblings) := by
  induction siblings with
  | nil => intro _ _; trivial
  | cons n rest ih =>
    intro index seen
    have hn := hroots n (List.mem_cons_self _ _)
    simp only [visit_siblings, SubtreesWhole, annotate_flags, hn, Option.isNone_none, if_true]
    refine ⟨trivial, ?_⟩
    refine subtrees_whole_append _ _ _ (hflags n (List.mem_cons_self _ _) _)
      (hfirst n (List.mem_cons_self _ _) _) ?_
    intro s
    exact ih (fun m hm => hroots m (List.mem_cons_of_mem _ hm))
      (fun m hm => hflags m (List.mem_cons_of_mem _ hm))
      (fun m hm => hfirst m (List.mem_cons_of_mem _ hm)) (index + 1) s

/-- Below attached siblings the walk flags no element `Root`. -/
theorem walk_not_root (arena : List ThreadNode) (sort_key_of : ThreadNode → Int)
    (descending : Bool) (fuel : Nat) :
    ∀ (depth : Nat) (above : List Nat) (siblings : List ThreadNode),
      (∀ s ∈ siblings, ∃ p, s.parent = some p) →
      ∀ e ∈ walk arena sort_key_of descending fuel depth above siblings,
        e.flags.root = false := by
  induction fuel with
  | zero => intro depth above siblings _ e he; simp [walk] at he
  | succ fuel ih =>
    intro depth above siblings hsib e he
    refine visit_siblings_forall (fun e => e.flags.root = false)
      _ depth siblings.length above ?_ siblings 0 ?_ e he
    · intro n path e he
      refine ih (depth + 1) path _ ?_ e he
      intro s hs
      rw [mem_order_siblings] at hs
      exact ⟨n.identifier, by simpa [children_of] using (List.mem_filter.mp hs).2⟩
    · intro n hn i
      obtain ⟨p, hp⟩ := hsib n hn
      simp [annotate_flags, hp]

/-- The annotated sequence of a built forest is made of whole root-subtrees. -/
theorem annotate_build_subtrees_whole (candidates relatives : List Message)
    (sort_key_of : ThreadNode → Int) (descending : Bool) :
    SubtreesWhole [] (annotate (build candidates relatives) sort_key_of descending) := by
  unfold annotate
  cases hlen : (build candidates relatives).arena.length with
  | zero => simp only [walk]; trivial
  | succ fuel =>
    unfold walk
    refine visit_siblings_subtrees_whole _ _ _ _ _ ?_ ?_ ?_ 0 []
    · intro n hn
      rw [mem_order_siblings, build_root_nodes] at hn
      simpa using (List.mem_filter.mp hn).2
    · intro n _ path e he
      refine walk_not_root _ _ _ fuel _ _ _ ?_ e he
      intro s hs
      rw [mem_order_siblings] at hs
      exact ⟨n.identifier, by simpa [children_of] using (List.mem_filter.mp hs).2⟩
    · intro n _ path
      have h := walk_parents_first (build candidates relatives).arena sort_key_of descending
        fuel (1 + 1) path
        (order_siblings sort_key_of descending
          (children_of (build candidates relatives).arena n.identifier))
        [(n.identifier, 1)] (by
          intro s hs
          rw [mem_order_siblings] at hs
          have hparent : s.parent = some n.identifier := by
            simpa [children_of] using (List.mem_filter.mp hs).2
          exact Or.inr ⟨n.identifier, 1, List.mem_cons_self _ _, hparent, rfl⟩)
      exact parent_ids_first_of_parents_first _ _ h

/-- Each root-subtree of a sequence made of whole root-subtrees puts the identifiers
of parents first by itself; the first one may lean on what stands before the
sequence when it does not begin with an element flagged `Root`. -/
theorem root_subtrees_parent_ids_first (l : List Annotated) :
    ∀ seen : List String, SubtreesWhole seen l →
      ∀ b bs, root_subtrees l = b :: bs →
        (∀ c t, b = c :: t →
          (c.flags.root = true → ParentIdsFirst [] b)
            ∧ (c.flags.root = false → ParentIdsFirst seen b))
          ∧ ∀ b2 ∈ bs, ParentIdsFirst [] b2 := by
  induction l with
  | nil => intro seen _ b bs h; simp [root_subtrees] at h
  | cons e rest ih =>
    intro seen hwhole b bs hsplit
    have hsingle : (e.flags.root = true → ParentIdsFirst [] [e])
        ∧ (e.flags.root = false → ParentIdsFirst seen [e]) := by
      constructor
      · intro hr
        simp only [SubtreesWhole, hr, if_true] at hwhole
        exact ⟨fun p hp => by rw [hwhole.1] at hp; exact absurd hp (by simp), trivial⟩
      · intro hr
        simp only [SubtreesWhole, hr, Bool.false_eq_true, if_false] at hwhole
        exact ⟨hwhole.1, trivial⟩
    have hrest : ∃ seen2, SubtreesWhole seen2 rest
        ∧ (e.flags.root = true → seen2 = [e.node.identifier])
        ∧ (e.flags.root = false → seen2 = e.node.identifier :: seen) := by
      cases hr : e.flags.root with
      | true =>
        simp only [SubtreesWhole, hr, if_true] at hwhole
        exact ⟨_, hwhole.2, fun _ => rfl, fun h => Bool.noConfusion h⟩
      | false =>
        simp only [SubtreesWhole, hr, Bool.false_eq_true, if_false] at hwhole
        exact ⟨_, hwhole.2, fun h => Bool.noConfusion h, fun _ => rfl⟩
    obtain ⟨seen2, hwhole2, hs1, hs2⟩ := hrest
    simp only [root_subtrees] at hsplit
    cases hr : root_subtrees rest with
    | nil =>
      rw [hr] at hsplit
      simp only [List.cons.injEq] at hsplit
      obtain ⟨hb, hbs⟩ := hsplit
      subst hb
      subst hbs
      refine ⟨?_, fun b2 hb2 => by simp at hb2⟩
      intro c t hct
      simp only [List.cons.injEq] at hct
      rw [← hct.1]
      exact hsingle
    | cons b0 bs0 =>
      obtain ⟨hfirst0, hlater0⟩ := ih seen2 hwhole2 b0 bs0 hr
      rw [hr] at hsplit
      cases b0 with
      | nil =>
        simp only [List.cons.injEq] at hsplit
        obtain ⟨hb, hbs⟩ := hsplit
        subst hb
        subst hbs
        refine ⟨?_, fun b2 hb2 => by simp at hb2⟩
        intro c t hct
        simp only [List.cons.injEq] at hct
        rw [← hct.1]
        exact hsingle
      | cons c0 t0 =>
        obtain ⟨hc0root, hc0not⟩ := hfirst0 c0 t0 rfl
        by_cases hc : c0.flags.root = true
        · simp only [hc, if_true, List.cons.injEq] at hsplit
          obtain ⟨hb, hbs⟩ := hsplit
          subst hb
          subst hbs
          refine ⟨?_, ?_⟩
          · intro c t hct
            simp only [List.cons.injEq] at hct
            rw [← hct.1]
            exact hsingle
          · intro b2 hb2
            rcases List.mem_cons.mp hb2 with h | h
            · rw [h]
              exact hc0root hc
            · exact hlater0 b2 h
        · have hcf : c0.flags.root = false := by simpa using hc
          simp only [hcf, Bool.false_eq_true, if_false, List.cons.injEq] at hsplit
          obtain ⟨hb, hbs⟩ := hsplit
          subst hb
          subst hbs
          refine ⟨?_, hlater0⟩
          intro c t hct
          simp only [List.cons.injEq] at hct
          rw [← hct.1]
          have htail := hc0not hcf
          constructor
          · intro hroot
            rw [hs1 hroot] at htail
            exact ⟨(hsingle.1 hroot).1, htail⟩
          · intro hroot
            rw [hs2 hroot] at htail
            exact ⟨(hsingle.2 hroot).1, htail⟩

/-- The whole root-subtrees of a sequence, presented in any order, put the
identifiers of parents first. -/
theorem any_order_root_subtrees_parent_ids_first (l : List Annotated)
    (h : SubtreesWhole [] l) (subtrees : List (List Annotated))
    (hsub : ∀ b ∈ subtrees, b ∈ root_subtrees l) :
    ParentIdsFirst [] subtrees.flatten := by
  apply parent_ids_first_flatten
  intro b hb0
  have hb := hsub b hb0
  cases hsplit : root_subtrees l with
  | nil => rw [hsplit] at hb; simp at hb
  | cons b0 bs =>
    obtain ⟨hfirst, hlater⟩ := root_subtrees_parent_ids_first l [] h b0 bs hsplit
    rw [hsplit] at hb
    rcases List.mem_cons.mp hb with hb | hb
    · rw [hb]
      cases b0 with
      | nil => trivial
      | cons c t =>
        cases hc : c.flags.root with
        | true => exact (hfirst c t rfl).1 hc
        | false => exact (hfirst c t rfl).2 hc
    · exact hlater b hb

/-- The whole root-subtrees of a sequence, presented in reverse order, put the
identifiers of parents first. -/
theorem reverse_root_subtrees_parent_ids_first (l : List Annotated)
    (h : SubtreesWhole [] l) : ParentIdsFirst [] (root_subtrees l).reverse.flatten :=
  any_order_root_subtrees_parent_ids_first l h _ (fun _ hb => List.mem_reverse.mp hb)

/-- In a threaded query the fully flattened sequence puts the identifiers of parents
first, whatever the other flags. -/
theorem flatten_parent_ids_first (backend : Backend) (query_expr sort_field : String)
    (flags : QueryFlags) (hthreading : flags.threading = true) :
    ParentIdsFirst [] (flatten backend query_expr sort_field flags) := by
  have hseq : sequence_of backend query_expr sort_field flags
      = annotate (build (backend.search query_expr sort_field flags.descending)
          (if flags.include_related = true then
            fetch_relatives backend (backend.search query_expr sort_field flags.descending)
          else [])) ThreadNode.sort_key flags.descending := by
    simp [sequence_of, forest_of, hthreading]
  have hdrop : (if flags.skip_duplicates = true
      then drop_repeated [] (sequence_of backend query_expr sort_field flags)
      else sequence_of backend query_expr sort_field flags)
      = sequence_of backend query_expr sort_field flags := by
    split
    · rw [hseq]
      exact drop_repeated_of_nodup _ [] (annotate_build_nodup _ _ _ _)
        (fun e _ h => by simp at h)
    · rfl
  unfold flatten
  simp only [hdrop]
  split
  · rw [hseq]
    exact reverse_root_subtrees_parent_ids_first _ (annotate_build_subtrees_whole _ _ _ _)
  · rw [hseq]
    exact parent_ids_first_of_parents_first _ [] (annotate_build_parents_first _ _ _ _)

/-- In an unthreaded query no element of the flattened sequence has a parent. -/
theorem flatten_flat_no_parent (backend : Backend) (query_expr sort_field : String)
    (flags : QueryFlags) (hflat : flags.threading = false) :
    ∀ e ∈ flatten backend query_expr sort_field flags, e.node.parent = none := by
  intro e he
  have he2 := mem_flatten _ _ _ _ _ he
  simp only [sequence_of, hflat, Bool.false_eq_true, if_false, List.mem_map] at he2
  obtain ⟨n, hn, hen⟩ := he2
  rw [mem_order_siblings, List.mem_map] at hn
  obtain ⟨m, _, hm⟩ := hn
  rw [← hen, ← hm]
  rfl

/-- C15: for every query, flag set and `max_results`, a run with a known sort field
emits the first `max_results` elements of the fully flattened sequence. With
`Threading` set, with or without `Descending`, every emitted node stands after its
parent, so every forest ancestor of an emitted node is emitted too: the truncation
removes no ancestor of a node it keeps; this holds in whatever order the whole
root-subtrees of the annotated sequence are presented. Without `Threading` no node
has a parent. -/
theorem run_truncates_flattened (backend : Backend) (query_expr sort_field : String)
    (flags : QueryFlags) (max_results : Nat) :
    (backend.sortable sort_field = true →
        ∃ results, run backend query_expr sort_field flags max_results = .ok results
          ∧ results.map Emitted.element
            = (flatten backend query_expr sort_field flags).take max_results)
      ∧ (flags.threading = true →
          ParentIdsFirst [] ((flatten backend query_expr sort_field flags).take max_results)
            ∧ ∀ e ∈ (flatten backend query_expr sort_field flags).take max_results,
                ∀ a, Relation.TransGen
                    (is_parent (forest_of backend query_expr sort_field flags).arena)
                    e.node.identifier a →
                  a ∈ ((flatten backend query_expr sort_field flags).take max_results).map
                    (fun x => x.node.identifier))
      ∧ (flags.threading = true →
          ∀ subtrees : List (List Annotated),
            (∀ b ∈ subtrees,
              b ∈ root_subtrees (sequence_of backend query_expr sort_field flags)) →
            ParentIdsFirst [] (subtrees.flatten.take max_results))
      ∧ (flags.threading = false →
          ∀ e ∈ (flatten backend query_expr sort_field flags).take max_results,
            e.node.parent = none) := by
  refine ⟨?_, ?_, ?_, ?_⟩
  · intro hsort
    exact ⟨_, by simp [run, hsort], emit_elements _⟩
  rotate_left
  · intro hthreading subtrees hsub
    have hseq : sequence_of backend query_expr sort_field flags
        = annotate (forest_of backend query_expr sort_field flags) ThreadNode.sort_key
            flags.descending := by
      simp [sequence_of, hthreading]
    rw [hseq] at hsub
    exact parent_ids_first_take _ [] max_results
      (any_order_root_subtrees_parent_ids_first _
        (annotate_build_subtrees_whole _ _ _ _) subtrees hsub)
  rotate_left
  · intro hthreading
    have hseq : sequence_of backend query_expr sort_field flags
        = annotate (forest_of backend query_expr sort_field flags) ThreadNode.sort_key
            flags.descending := by
      simp [sequence_of, hthreading]
    have htake := parent_ids_first_take _ [] max_results
      (flatten_parent_ids_first backend query_expr sort_field flags hthreading)
    refine ⟨htake, ?_⟩
    intro e he a hanc
    have hstep : ∀ x y, x ∈ ((flatten backend query_expr sort_field flags).take
        max_results).map (fun x => x.node.identifier) →
        is_parent (forest_of backend query_expr sort_field flags).arena x y →
        y ∈ ((flatten backend query_expr sort_field flags).take max_results).map
          (fun x => x.node.identifier) := by
      intro x y hx hxy
      obtain ⟨ex, hex, hexid⟩ := List.mem_map.mp hx
      have hex2 := mem_flatten _ _ _ _ _ (List.mem_of_mem_take hex)
      rw [hseq] at hex2
      obtain ⟨harena, _⟩ := annotate_build_elements _ _ _ _ _ hex2
      have hlook : lookup_node (forest_of backend query_expr sort_field flags).arena
          ex.node.identifier = some ex.node :=
        lookup_node_of_mem (build_nodup _ _) harena
      have hparent : ex.node.parent = some y := by
        have hxy2 : parent_of (forest_of backend query_expr sort_field flags).arena
            ex.node.identifier = some y := by
          rw [hexid]
          exact hxy
        unfold parent_of at hxy2
        rw [hlook] at hxy2
        simpa using hxy2
      rcases parent_ids_first_parent_mem _ [] htake ex hex y hparent with h | h
      · simp at h
      · exact h
    have hstart : e.node.identifier ∈ ((flatten backend query_expr sort_field flags).take
        max_results).map (fun x => x.node.identifier) := List.mem_map_of_mem _ he
    induction hanc with
    | single h => exact hstep _ _ hstart h
    | tail _ h ih => exact hstep _ _ ih h
  · intro hflat e he
    exact flatten_flat_no_parent backend query_expr sort_field flags hflat e
      (List.mem_of_mem_take he)

/-- Witness of C15: the thread A, B, C and a message without thread, with `Threading`
and `Descending` and room for two results. -/
theorem run_truncates_flattened_witness :
    (∃ results, run (sample_backend [sample_a, sample_b, sample_c, sample_orphan]) "query"
        "date" threading_descending 2 = .ok results
      ∧ results.map Emitted.element
        = (flatten (sample_backend [sample_a, sample_b, sample_c, sample_orphan]) "query"
            "date" threading_descending).take 2)
      ∧ ParentIdsFirst [] ((flatten
          (sample_backend [sample_a, sample_b, sample_c, sample_orphan]) "query" "date"
          threading_descending).take 2) :=
  ⟨(run_truncates_flattened (sample_backend [sample_a, sample_b, sample_c, sample_orphan])
      "query" "date" threading_descending 2).1 (by decide),
    ((run_truncates_flattened (sample_backend [sample_a, sample_b, sample_c, sample_orphan])
      "query" "date" threading_descending 2).2.1 rfl).1⟩

/-- The thread A, B, C and a message without thread, with `Threading` and
`Descending`: the annotator visits the thread first, the whole root-subtrees are
presented in reverse order, each parent still before its children, and a run with
room for two results emits the lone message and the root of the thread. -/
theorem run_descending_sample :
    (annotate (forest_of (sample_backend [sample_a, sample_b, sample_c, sample_orphan])
        "query" "date" threading_descending) ThreadNode.sort_key true).map
        (fun e => e.node.identifier) = ["a@x", "b@x", "c@x", "o@x"]
      ∧ (flatten (sample_backend [sample_a, sample_b, sample_c, sample_orphan]) "query"
          "date" threading_descending).map (fun e => (e.node.identifier, e.depth))
        = [("o@x", 1), ("a@x", 1), ("b@x", 2), ("c@x", 3)]
      ∧ (run (sample_backend [sample_a, sample_b, sample_c, sample_orphan]) "query" "date"
          threading_descending 2).toOption.map
          (fun results => results.map (fun e => (e.element.node.identifier, e.is_last)))
        = some [("o@x", false), ("a@x", true)] := by
  decide


/-! ## Theorems: `ContactsCache::add` on a sequence -/

/-- Adding a sequence made of two parts is adding the first part, then the second. -/
theorem contacts_cache_add_append {State Contact : Type}
    (decl : ContactsCacheDecl State Contact) (front back : List Contact) :
    ∀ self : State, ContactsCache.add decl (front ++ back) self
      = ContactsCache.add decl back (ContactsCache.add decl front self) := by
  induction front with
  | nil => intro self; rfl
  | cons c rest ih => intro self; exact ih (decl.add c self)

/-- The first `k` single-contact calls only look at the first `k` elements. -/
theorem after_single_adds_append {State Contact : Type}
    (decl : ContactsCacheDecl State Contact) (front back : List Contact) (self : State)
    (k : Nat) (hk : k ≤ front.length) :
    ContactsCache.after_single_adds decl (front ++ back) self k
      = ContactsCache.after_single_adds decl front self k := by
  induction k with
  | zero => rfl
  | succ k ih =>
    have hlt : k < front.length := hk
    simp only [ContactsCache.after_single_adds, List.getElem?_append_left hlt,
      ih (Nat.le_of_lt hlt)]

/-- The sequence overload of `add` ends in the state reached by the single-contact
calls on all elements, one after the other. -/
theorem contacts_cache_add_eq_single_adds {State Contact : Type}
    (decl : ContactsCacheDecl State Contact) (contacts : List Contact) (self : State) :
    ContactsCache.add decl contacts self
      = ContactsCache.after_single_adds decl contacts self contacts.length := by
  induction contacts using List.reverseRecOn with
  | nil => rfl
  | append_singleton front c ih =>
    rw [contacts_cache_add_append, List.length_append, List.length_singleton]
    simp only [ContactsCache.after_single_adds, ContactsCache.add]
    rw [after_single_adds_append decl front [c] self front.length (Nat.le_refl _), ← ih]
    simp

/-- On the recording cache the sequence overload records the elements of the
sequence, in order, after the calls recorded before. -/
theorem recording_cache_add {Contact : Type} (contacts : List Contact) :
    ∀ calls : List Contact,
      ContactsCache.add (recording_cache Contact) contacts calls = calls ++ contacts := by
  induction contacts with
  | nil => intro calls; simp [ContactsCache.add]
  | cons c rest ih =>
    intro calls
    simp only [ContactsCache.add]
    rw [show (recording_cache Contact).add c calls = calls ++ [c] from rfl, ih]
    simp

/-- C21: for every contact sequence and every cache state,
`ContactsCache::add(Contacts&&)` leaves the cache in the state reached by calling
the single-contact `add` on each element of the sequence in order, once each (the
calls recorded on a recording cache are exactly the sequence); adding an empty
sequence leaves the cache unchanged. -/
theorem contacts_cache_add_sequence {State Contact : Type}
    (decl : ContactsCacheDecl State Contact) (contacts : List Contact) (self : State) :
    ContactsCache.add decl contacts self
        = ContactsCache.after_single_adds decl contacts self contacts.length
      ∧ ContactsCache.add (recording_cache Contact) contacts [] = contacts
      ∧ ContactsCache.add decl [] self = self :=
  ⟨contacts_cache_add_eq_single_adds decl contacts self,
    by rw [recording_cache_add]; rfl, rfl⟩

/-! ## Theorems: `run_query` without a sort field -/

/-- When no sort field is given and `field_from_name` finds no field for the empty
name, the guard of `run_query` lets the call through and `sortfield->id` reads an
empty `Option`; in every other case `run_query` returns. -/
theorem run_query_undefined_iff (env : Env) (store : Store) (expr : String)
    (opts : MuConfig) :
    run_query env store expr opts = .undefined []
      ↔ opts.sortfield = none ∧ env.field_from_name "" = none := by
  constructor
  · intro h
    cases hs : opts.sortfield with
    | none =>
      cases hf : env.field_from_name "" with
      | none => exact ⟨rfl, rfl⟩
      | some f =>
        have hfield : env.field_from_name (opts.sortfield.getD "") = some f := by
          simp [hs, hf]
        rw [run_query_of_field env store expr opts f hfield] at h
        exact Outcome.noConfusion h
    | some name =>
      cases hf : env.field_from_name name with
      | none =>
        have : run_query env store expr opts
            = .returns ⟨none, some ⟨.MU_ERROR_IN_PARAMETERS,
                "invvalid sort field: '" ++ name ++ "'\n"⟩, []⟩ := by
          simp only [run_query, hs, hf]; rfl
        rw [this] at h
        exact Outcome.noConfusion h
      | some f =>
        have hfield : env.field_from_name (opts.sortfield.getD "") = some f := by
          simp [hs, hf]
        rw [run_query_of_field env store expr opts f hfield] at h
        exact Outcome.noConfusion h
  · rintro ⟨hs, hf⟩
    simp [run_query, hs, hf]

/-- C22, evaluated where it fails: with no sort field given (`opts->sortfield` null)
and no field named by the empty string, `run_query` neither fails with the
invalid-sort-field error nor calls the store: it reads the id out of the empty
`Option` that `field_from_name` returned, and so does `mu_cmd_find` on the same
options. -/
theorem run_query_reads_absent_sortfield :
    run_query sample_env sample_store "hello" { sample_opts with sortfield := none }
        = .undefined []
      ∧ mu_cmd_find sample_env sample_store (some { sample_opts with sortfield := none })
        = .undefined [] := by
  constructor <;> decide

/-! ## Theorems: the header and the footer call -/

/-- The header and the footer call of every output function other than `exec_cmd`
perform no action on a message: these functions test `info.header` and
`info.footer`, or the null `msg`, first. -/
theorem header_footer_no_message_action (env : Env) (func : OutputFunc) (opts : MuConfig)
    (hfunc : func ≠ .exec_cmd) :
    (call_output_func env func none FirstOutput opts).trace.filter Event.is_message_action = []
      ∧ (call_output_func env func none LastOutput opts).trace.filter
          Event.is_message_action = [] := by
  cases func with
  | exec_cmd => exact absurd rfl hfunc
  | output_link =>
    constructor
    · simp only [call_output_func, output_link, FirstOutput, prepare_links, if_true]
      repeat' split
      all_goals simp [Event.is_message_action]
    · simp [call_output_func, output_link, LastOutput, Event.is_message_action]
  | output_plain =>
    simp [call_output_func, output_plain, Event.is_message_action]
  | output_xml =>
    simp [call_output_func, output_xml, FirstOutput, LastOutput, Event.is_message_action]
  | output_sexp =>
    simp [call_output_func, output_sexp, Event.is_message_action]
  | output_json =>
    simp [call_output_func, output_json, FirstOutput, LastOutput, Event.is_message_action]

/-- A call of `exec_cmd` spawns the command whatever `info` says and also without a
message: the function tests neither `info.header`, `info.footer` nor `msg`. -/
theorem exec_cmd_always_spawns (env : Env) (msg : Option MuMsg) (info : OutputInfo)
    (opts : MuConfig) :
    (call_output_func env .exec_cmd msg info opts).trace
      = [Event.output .exec_cmd msg info, Event.spawn opts.exec (msg.map MuMsg.path)] := by
  simp [call_output_func, exec_cmd]

/-- C23, evaluated where it fails: with the exec format (`--exec=cat`) and one result,
`output_query_results` spawns the command three times: once for the header call
and once for the footer call, both without a message path, and once for the
message. -/
theorem output_query_results_exec_spawns_on_header_footer :
    (output_query_results sample_env [⟨some sample_msg, 1, sample_match⟩]
        { sample_opts with exec := some "cat", format := .MU_CONFIG_FORMAT_EXEC }).trace
      = [Event.output .exec_cmd none FirstOutput,
         Event.spawn (some "cat") none,
         Event.output .exec_cmd (some sample_msg) ⟨1, false, false, true, some sample_match⟩,
         Event.spawn (some "cat") (some sample_msg.path),
         Event.output .exec_cmd none LastOutput,
         Event.spawn (some "cat") none] := by
  decide

/-! ## Theorems: `thread_indent` -/

/-- The indentation loop started at level `n` writes two spaces `n - 1` times. -/
theorem thread_indent_loop_eq (n : Nat) :
    thread_indent_loop n = String.join (List.replicate (n - 1) "  ") := by
  induction n with
  | zero => rfl
  | succ i ih =>
    cases i with
    | zero => rfl
    | succ j =>
      rw [thread_indent_loop, if_pos (by omega), ih]
      simp only [Nat.add_sub_cancel]
      rw [List.replicate_succ, string_join_cons]

/-- C24: for every match info and options, the text `thread_indent` writes is the
indentation (in debug mode the thread path and one space; otherwise two spaces
`thread_level - 1` times, which is nothing for the levels 0 and 1), followed, only
when Root is unset, by one connector character (backslash if First, else `/` if Last,
else a space) and one marker (`*> ` if Orphan, else `=> ` if Duplicate, else `-> `);
for a node flagged Root the text is the indentation alone. -/
theorem thread_indent_text (info : QueryMatch) (opts : MuConfig) :
    thread_indent info opts
        = (if opts.debug then info.thread_path ++ " "
            else String.join (List.replicate (info.thread_level - 1) "  "))
          ++ (if info.flags.root then ""
              else String.singleton
                    (if info.flags.first then '\\' else if info.flags.last then '/' else ' ')
                ++ (if info.flags.orphan then "*> "
                    else if info.flags.duplicate then "=> " else "-> "))
      ∧ (opts.debug = false → info.thread_level ≤ 1 → info.flags.root = true →
          thread_indent info opts = "")
      ∧ (info.flags.root = true →
          thread_indent info opts
            = if opts.debug then info.thread_path ++ " "
              else String.join (List.replicate (info.thread_level - 1) "  ")) := by
  have hloop := thread_indent_loop_eq info.thread_level
  have hmain : thread_indent info opts
        = (if opts.debug then info.thread_path ++ " "
            else String.join (List.replicate (info.thread_level - 1) "  "))
          ++ (if info.flags.root then ""
              else String.singleton
                    (if info.flags.first then '\\' else if info.flags.last then '/' else ' ')
                ++ (if info.flags.orphan then "*> "
                    else if info.flags.duplicate then "=> " else "-> ")) := by
    simp only [thread_indent, hloop]
    cases info.flags.root <;> cases info.flags.first <;> cases info.flags.last <;>
      cases info.flags.orphan <;> cases info.flags.duplicate <;>
      simp [String.append_assoc] <;> rfl
  refine ⟨hmain, ?_, ?_⟩
  · intro hdebug hlevel hroot
    rw [hmain, hdebug, hroot]
    have : info.thread_level - 1 = 0 := by omega
    simp [this, String.join]
  · intro hroot
    rw [hmain, hroot]
    simp

/-! ## Theorems: the calls of `output_query_results` -/

/-- The one call of an output function in what `call_output_func` does is the call
itself. -/
theorem output_calls_of_call (env : Env) (func : OutputFunc) (msg : Option MuMsg)
    (info : OutputInfo) (opts : MuConfig) :
    (call_output_func env func msg info opts).trace.filter Event.is_output_call
      = [Event.output func msg info] := by
  cases func <;> simp only [call_output_func]
  · simp only [output_link, prepare_links]
    repeat' split
    all_goals simp [Event.is_output_call]
  · simp [exec_cmd, Event.is_output_call]
  · simp only [output_plain]
    repeat' split
    all_goals simp [Event.is_output_call]
  · simp only [output_xml]
    repeat' split
    all_goals simp [Event.is_output_call]
  · simp only [output_sexp]
    repeat' split
    all_goals simp [Event.is_output_call]
  · simp only [output_json]
    repeat' split
    all_goals simp [Event.is_output_call]

/-- The calls up to the first failure are among the calls asked for, in order. -/
theorem through_first_failure_sublist {α : Type} (fails : α → Bool) (l : List α) :
    (through_first_failure fails l).Sublist l := by
  induction l with
  | nil => exact List.Sublist.slnil
  | cons x rest ih =>
    simp only [through_first_failure]
    split
    · exact List.Sublist.cons₂ x (List.nil_sublist rest)
    · exact List.Sublist.cons₂ x ih

/-- Up to the first failure, only the final call can be one that fails. -/
theorem through_first_failure_init {α : Type} (fails : α → Bool) (l : List α) :
    ∀ x ∈ (through_first_failure fails l).dropLast, fails x = false := by
  induction l with
  | nil => intro x hx; simp [through_first_failure] at hx
  | cons y rest ih =>
    intro x hx
    simp only [through_first_failure] at hx
    by_cases hy : fails y = true
    · simp [hy] at hx
    · simp only [hy, if_false, Bool.false_eq_true] at hx
      cases hrest : through_first_failure fails rest with
      | nil => simp [hrest] at hx
      | cons z zs =>
        rw [hrest, List.dropLast_cons₂, ← hrest] at hx
        rcases List.mem_cons.mp hx with h | h
        · rw [h]; simpa using hy
        · exact ih x h

/-- The loop of `output_query_results` makes the calls asked for by the elements
that remain, up to and including the first one that fails; it returns false when one
of them failed, true when one was made and none failed, and the value it was
started with when none was made. -/
theorem output_results_loop_calls (env : Env) (func : OutputFunc) (opts : MuConfig)
    (size : Nat) (items : List QueryResult) :
    ∀ (n : Nat) (rv : Bool),
      (output_results_loop env func opts size items n rv).trace.filter Event.is_output_call
          = (through_first_failure (output_fails env func opts)
              (wanted_outputs opts size (n + 1) items)).map
              (fun c => Event.output func (some c.1) c.2)
        ∧ (output_results_loop env func opts size items n rv).val
          = ((rv || !(through_first_failure (output_fails env func opts)
                (wanted_outputs opts size (n + 1) items)).isEmpty)
              && !(through_first_failure (output_fails env func opts)
                (wanted_outputs opts size (n + 1) items)).any
                  (output_fails env func opts)) := by
  induction items with
  | nil =>
    intro n rv
    simp [output_results_loop, wanted_outputs, through_first_failure]
  | cons item rest ih =>
    intro n rv
    cases hmsg : item.floating_msg with
    | none =>
      have hw : wanted_outputs opts size (n + 1) (item :: rest)
          = wanted_outputs opts size (n + 1 + 1) rest := by
        simp [wanted_outputs, List.enumFrom_cons, hmsg]
      rw [output_results_loop, hw]
      simp only [hmsg]
      exact ih (n + 1) rv
    | some msg =>
      by_cases hskip : (opts.after != 0 && decide (msg.timestamp < opts.after)) = true
      · have hw : wanted_outputs opts size (n + 1) (item :: rest)
            = wanted_outputs opts size (n + 1 + 1) rest := by
          simp only [wanted_outputs, List.enumFrom_cons, List.filterMap_cons, hmsg, hskip,
            if_true]
        rw [output_results_loop, hw]
        simp only [hmsg, hskip, if_true]
        exact ih (n + 1) rv
      · have hw : wanted_outputs opts size (n + 1) (item :: rest)
            = (msg, ⟨item.doc_id, false, false, n + 1 == size, some item.query_match⟩)
              :: wanted_outputs opts size (n + 1 + 1) rest := by
          simp only [wanted_outputs, List.enumFrom_cons, List.filterMap_cons, hmsg, hskip,
            if_false, Bool.false_eq_true]
        have hcalls := output_calls_of_call env func (some msg)
          ⟨item.doc_id, false, false, n + 1 == size, some item.query_match⟩ opts
        have hfails : output_fails env func opts
            (msg, ⟨item.doc_id, false, false, n + 1 == size, some item.query_match⟩)
            = !(call_output_func env func (some msg)
              ⟨item.doc_id, false, false, n + 1 == size, some item.query_match⟩ opts).val :=
          rfl
        generalize hcall : call_output_func env func (some msg)
          ⟨item.doc_id, false, false, n + 1 == size, some item.query_match⟩ opts = r
          at hcalls hfails
        rw [output_results_loop, hw]
        by_cases hval : (!r.val) = true
        · simp only [hmsg, hskip, hcall, hval, if_true, if_false, Bool.false_eq_true,
            through_first_failure, hfails]
          rw [hcalls]
          have hr : r.val = false := by simpa using hval
          simp [hfails, hval, hr]
        · obtain ⟨ih1, ih2⟩ := ih (n + 1) r.val
          have hr : r.val = true := by simpa using hval
          simp only [hmsg, hskip, hcall, hval, if_true, if_false, Bool.false_eq_true,
            through_first_failure, hfails]
          constructor
          · rw [List.filter_append, hcalls, ih1]
            simp
          · rw [ih2]
            simp [hfails, hr]

/-- The calls asked for are calls on messages of the results, taken in the order of
the results. -/
theorem wanted_outputs_sublist (opts : MuConfig) (size : Nat) (items : List QueryResult) :
    ∀ first : Nat,
      ((wanted_outputs opts size first items).map (fun c => (some c.1, c.2.docid))).Sublist
        (items.map (fun item => (item.floating_msg, item.doc_id))) := by
  induction items with
  | nil => intro first; simp [wanted_outputs]
  | cons item rest ih =>
    intro first
    have hrest := ih (first + 1)
    cases hmsg : item.floating_msg with
    | none =>
      have hw : wanted_outputs opts size first (item :: rest)
          = wanted_outputs opts size (first + 1) rest := by
        simp [wanted_outputs, List.enumFrom_cons, hmsg]
      rw [hw, List.map_cons]
      exact List.Sublist.cons _ hrest
    | some msg =>
      by_cases hskip : (opts.after != 0 && decide (msg.timestamp < opts.after)) = true
      · have hw : wanted_outputs opts size first (item :: rest)
            = wanted_outputs opts size (first + 1) rest := by
          simp only [wanted_outputs, List.enumFrom_cons, List.filterMap_cons, hmsg, hskip,
            if_true]
        rw [hw, List.map_cons]
        exact List.Sublist.cons _ hrest
      · have hw : wanted_outputs opts size first (item :: rest)
            = (msg, ⟨item.doc_id, false, false, first == size, some item.query_match⟩)
              :: wanted_outputs opts size (first + 1) rest := by
          simp only [wanted_outputs, List.enumFrom_cons, List.filterMap_cons, hmsg, hskip,
            if_false, Bool.false_eq_true]
        rw [hw, List.map_cons, List.map_cons, hmsg]
        exact List.Sublist.cons₂ _ hrest

/-- For a format without output function (here `MU_CONFIG_FORMAT_XQUERY`, which
`execute_find` never hands on to `process_query`) `output_query_results` returns false
at once and makes no call. -/
theorem output_query_results_without_func :
    output_query_results sample_env sample_results_loadable
        { sample_opts with format := .MU_CONFIG_FORMAT_XQUERY }
      = ⟨false, none, []⟩ := by
  decide

/-- With an output function, `output_query_results` calls it once for the header,
then on the messages of the results that are not skipped, in sequence order and up
to and including the first call that fails, then once for the footer; only the final
per-message call can be one that failed; and it returns false exactly when a
per-message call failed, so true when every result was skipped. -/
theorem output_query_results_calls_of_func (env : Env) (qres : QueryResults) (opts : MuConfig)
    (func : OutputFunc) (hfunc : get_output_func opts = some func) :
    (output_query_results env qres opts).trace.filter Event.is_output_call
        = Event.output func none FirstOutput
          :: ((made_outputs env func opts qres).map (fun c => Event.output func (some c.1) c.2)
            ++ [Event.output func none LastOutput])
      ∧ ((made_outputs env func opts qres).map (fun c => (some c.1, c.2.docid))).Sublist
          (qres.map (fun item => (item.floating_msg, item.doc_id)))
      ∧ (∀ c ∈ (made_outputs env func opts qres).dropLast,
          output_fails env func opts c = false)
      ∧ ((output_query_results env qres opts).val = false
          ↔ ∃ c ∈ made_outputs env func opts qres, output_fails env func opts c = true)
      ∧ (wanted_outputs opts qres.length 1 qres = [] →
          (output_query_results env qres opts).val = true) := by
  obtain ⟨hcalls, hval⟩ := output_results_loop_calls env func opts qres.length qres 0 true
  have hfirst := output_calls_of_call env func none FirstOutput opts
  have hlast := output_calls_of_call env func none LastOutput opts
  have hv : (output_query_results env qres opts).val
      = !(made_outputs env func opts qres).any (output_fails env func opts) := by
    simp only [output_query_results, hfunc, hval, made_outputs]
    simp
  refine ⟨?_, ?_, ?_, ?_, ?_⟩
  · simp only [output_query_results, hfunc, List.filter_append, hfirst, hlast, hcalls,
      made_outputs]
    simp
  · exact ((through_first_failure_sublist _ _).map _).trans
      (wanted_outputs_sublist opts qres.length qres 1)
  · exact through_first_failure_init _ _
  · rw [hv]
    simp
  · intro hnone
    rw [hv, made_outputs, hnone]
    simp [through_first_failure]

/-! ## Theorems: `get_output_func` as reached through `mu_cmd_find` -/

/-- Options that pass `format_params_valid` and ask for neither query dump have one
of the six formats for which `get_output_func` has an output function. -/
theorem get_output_func_of_valid (opts : MuConfig)
    (hvalid : (format_params_valid opts).val = true)
    (hx : opts.format ≠ .MU_CONFIG_FORMAT_XQUERY)
    (hm : opts.format ≠ .MU_CONFIG_FORMAT_MQUERY) :
    ∃ func, get_output_func opts = some func := by
  cases hf : opts.format
  case MU_CONFIG_FORMAT_UNKNOWN => simp [format_params_valid, hf] at hvalid
  case MU_CONFIG_FORMAT_XQUERY => exact absurd hf hx
  case MU_CONFIG_FORMAT_MQUERY => exact absurd hf hm
  all_goals simp [get_output_func, hf]

/-- What holds when `mu_cmd_find` comes to call `output_query_results`. -/
theorem output_query_results_args_some (env : Env) (store : Store)
    (opts : Option MuConfig) (qres : QueryResults) (myopts : MuConfig)
    (h : output_query_results_args env store opts = some (qres, myopts)) :
    ∃ o expr r, opts = some o ∧ myopts = adjusted_opts o
      ∧ o.cmd = .MU_CONFIG_CMD_FIND
      ∧ (query_params_valid env myopts).val = true
      ∧ (format_params_valid myopts).val = true
      ∧ (get_query env myopts).val = some expr
      ∧ myopts.format ≠ .MU_CONFIG_FORMAT_XQUERY
      ∧ myopts.format ≠ .MU_CONFIG_FORMAT_MQUERY
      ∧ run_query env store expr myopts = .returns r
      ∧ r.val = some qres ∧ qres.isEmpty = false := by
  cases opts with
  | none => simp [output_query_results_args] at h
  | some o =>
    simp only [output_query_results_args] at h
    by_cases hcmd : o.cmd = .MU_CONFIG_CMD_FIND
    swap
    · simp [hcmd] at h
    by_cases hq : (query_params_valid env (adjusted_opts o)).val = true
    swap
    · simp [hcmd, hq] at h
    by_cases hv : (format_params_valid (adjusted_opts o)).val = true
    swap
    · simp [hcmd, hq, hv] at h
    cases hg : (get_query env (adjusted_opts o)).val with
    | none => simp [hcmd, hq, hv, hg] at h
    | some expr =>
      by_cases hx : (adjusted_opts o).format = .MU_CONFIG_FORMAT_XQUERY
      · simp [hcmd, hq, hv, hg, hx] at h
      by_cases hm : (adjusted_opts o).format = .MU_CONFIG_FORMAT_MQUERY
      · simp [hcmd, hq, hv, hg, hx, hm] at h
      cases hr : run_query env store expr (adjusted_opts o) with
      | undefined t => simp [hcmd, hq, hv, hg, hx, hm, hr] at h
      | returns r =>
        cases hval : r.val with
        | none => simp [hcmd, hq, hv, hg, hx, hm, hr, hval] at h
        | some found =>
          by_cases he : found.isEmpty = true
          · simp [hcmd, hq, hv, hg, hx, hm, hr, hval, he] at h
          · simp [hcmd, hq, hv, hg, hx, hm, hr, hval, he] at h
            obtain ⟨h1, h2⟩ := h
            subst h1
            subst h2
            exact ⟨o, expr, r, rfl, rfl, hcmd, hq, hv, hg, hx, hm, hr, hval,
              by simpa using he⟩

/-- The validation of the query parameters makes no call. -/
theorem query_params_valid_trace (env : Env) (opts : MuConfig) :
    (query_params_valid env opts).trace = [] := by
  simp only [query_params_valid]
  repeat' split
  all_goals rfl

/-- The validation of the format parameters makes no call. -/
theorem format_params_valid_trace (opts : MuConfig) :
    (format_params_valid opts).trace = [] := by
  simp only [format_params_valid]
  repeat' split
  all_goals rfl

/-- Building the query expression makes no call. -/
theorem get_query_trace (env : Env) (opts : MuConfig) :
    (get_query env opts).trace = [] := by
  simp only [get_query, resolve_bookmark]
  repeat' split
  all_goals rfl

/-- The calls of `run_query` are no calls of an output function. -/
theorem run_query_no_output_call (env : Env) (store : Store) (expr : String)
    (opts : MuConfig) :
    (run_query env store expr opts).trace.filter Event.is_output_call = [] := by
  rcases run_query_cases env store expr opts with ⟨e, h⟩ | h | ⟨id, qflags, h⟩ <;>
    rw [h] <;> simp [Outcome.trace, Event.is_output_call]

/-- When `mu_cmd_find` does not come to call `output_query_results`, it makes no
call of an output function at all. -/
theorem mu_cmd_find_no_output_call (env : Env) (store : Store) (opts : Option MuConfig)
    (h : output_query_results_args env store opts = none) :
    (mu_cmd_find env store opts).trace.filter Event.is_output_call = [] := by
  cases opts with
  | none => simp [mu_cmd_find, Outcome.trace]
  | some o =>
    have hqt := query_params_valid_trace env (adjusted_opts o)
    have hft := format_params_valid_trace (adjusted_opts o)
    have hgt := get_query_trace env (adjusted_opts o)
    simp only [output_query_results_args] at h
    by_cases hcmd : o.cmd = .MU_CONFIG_CMD_FIND
    swap
    · simp [mu_cmd_find, hcmd, Outcome.trace]
    by_cases hq : (query_params_valid env (adjusted_opts o)).val = true
    swap
    · simp [mu_cmd_find, hcmd, hq, Outcome.trace, hqt]
    by_cases hv : (format_params_valid (adjusted_opts o)).val = true
    swap
    · simp [mu_cmd_find, hcmd, hq, hv, Outcome.trace, hft]
    cases hg : (get_query env (adjusted_opts o)).val with
    | none =>
      simp only [mu_cmd_find, hcmd, hq, hv, execute_find, hg]
      split <;> simp [Outcome.trace, hgt]
    | some expr =>
      by_cases hx : (adjusted_opts o).format = .MU_CONFIG_FORMAT_XQUERY
      · simp only [mu_cmd_find, hcmd, hq, hv, execute_find, hg, hx]
        simp [Outcome.trace, hgt, print_internal, Event.is_output_call]
      by_cases hm : (adjusted_opts o).format = .MU_CONFIG_FORMAT_MQUERY
      · simp only [mu_cmd_find, hcmd, hq, hv, execute_find, hg, hx, hm]
        simp [Outcome.trace, hgt, print_internal, Event.is_output_call]
      have hrt := run_query_no_output_call env store expr (adjusted_opts o)
      cases hr : run_query env store expr (adjusted_opts o) with
      | undefined t =>
        rw [hr] at hrt
        simp only [mu_cmd_find, hcmd, hq, hv, execute_find, hg, hx, hm, process_query, hr]
        simpa [Outcome.trace, hgt] using hrt
      | returns r =>
        rw [hr] at hrt
        cases hval : r.val with
        | none =>
          simp only [mu_cmd_find, hcmd, hq, hv, execute_find, hg, hx, hm, process_query, hr,
            hval]
          simp only [Outcome.trace] at hrt
          simp [hgt]
          simpa [Outcome.trace] using hrt
        | some found =>
          by_cases he : found.isEmpty = true
          · simp only [mu_cmd_find, hcmd, hq, hv, execute_find, hg, hx, hm, process_query, hr,
              hval, he]
            simp only [Outcome.trace] at hrt
            simp [hgt]
            simpa [Outcome.trace] using hrt
          · simp [hcmd, hq, hv, hg, hx, hm, hr, hval, he] at h

/-- When `mu_cmd_find` comes to call `output_query_results`, it returns, its last
calls are those of `output_query_results`, and its result is `MU_OK` when
`output_query_results` returned true and the code of the error otherwise. -/
theorem mu_cmd_find_of_output_call (env : Env) (store : Store) (opts : Option MuConfig)
    (qres : QueryResults) (myopts : MuConfig)
    (h : output_query_results_args env store opts = some (qres, myopts)) :
    ∃ ret, mu_cmd_find env store opts = .returns ret
      ∧ (output_query_results env qres myopts).trace <:+ ret.trace
      ∧ ((output_query_results env qres myopts).val = true → ret.val = .MU_OK)
      ∧ ((output_query_results env qres myopts).val = false →
          ret.val = env.MU_G_ERROR_CODE ret.err) := by
  obtain ⟨o, expr, r, hopts, hmy, hcmd, hq, hv, hg, hx, hm, hr, hval, he⟩ :=
    output_query_results_args_some env store opts qres myopts h
  subst hopts
  subst hmy
  cases hout : (output_query_results env qres (adjusted_opts o)).val with
  | true =>
    refine ⟨⟨.MU_OK,
        (get_query env (adjusted_opts o)).err.orElse (fun _ =>
          r.err.orElse (fun _ => (output_query_results env qres (adjusted_opts o)).err)),
        (get_query env (adjusted_opts o)).trace
          ++ (r.trace ++ (output_query_results env qres (adjusted_opts o)).trace)⟩,
      ?_, ?_, fun _ => rfl, fun hfalse => Bool.noConfusion hfalse⟩
    · simp only [mu_cmd_find, hcmd, hq, hv, execute_find, hg, hx, hm, process_query, hr,
        hval, he, hout]
      simp
    · simp only [← List.append_assoc]
      exact List.suffix_append _ _
  | false =>
    refine ⟨⟨env.MU_G_ERROR_CODE ((get_query env (adjusted_opts o)).err.orElse (fun _ =>
          r.err.orElse (fun _ => (output_query_results env qres (adjusted_opts o)).err))),
        (get_query env (adjusted_opts o)).err.orElse (fun _ =>
          r.err.orElse (fun _ => (output_query_results env qres (adjusted_opts o)).err)),
        (get_query env (adjusted_opts o)).trace
          ++ (r.trace ++ (output_query_results env qres (adjusted_opts o)).trace)⟩,
      ?_, ?_, fun htrue => Bool.noConfusion htrue, fun _ => rfl⟩
    · simp only [mu_cmd_find, hcmd, hq, hv, execute_find, hg, hx, hm, process_query, hr,
        hval, he, hout]
      simp
    · simp only [← List.append_assoc]
      exact List.suffix_append _ _

/-- C26: every options value that passes `format_params_valid` and whose format is
neither XQUERY nor MQUERY has an output function in `get_output_func`. Hence,
whenever `mu_cmd_find` comes to call `output_query_results`, the options it passes
have an output function: the call makes the header call of that function, which
shows in the calls of `mu_cmd_find`, and does not end in the branch for a missing
function. When `mu_cmd_find` does not come to that call, it calls no output function
at all; and there are options with which it does come to it. -/
theorem get_output_func_reached :
    (∀ opts : MuConfig, (format_params_valid opts).val = true →
        opts.format ≠ .MU_CONFIG_FORMAT_XQUERY → opts.format ≠ .MU_CONFIG_FORMAT_MQUERY →
        ∃ func, get_output_func opts = some func)
      ∧ (∀ (env : Env) (store : Store) (opts : Option MuConfig) (qres : QueryResults)
          (myopts : MuConfig),
          output_query_results_args env store opts = some (qres, myopts) →
          ∃ func ret, get_output_func myopts = some func
            ∧ Event.output func none FirstOutput
                ∈ (output_query_results env qres myopts).trace
            ∧ mu_cmd_find env store opts = .returns ret
            ∧ (output_query_results env qres myopts).trace <:+ ret.trace)
      ∧ (∀ (env : Env) (store : Store) (opts : Option MuConfig),
          output_query_results_args env store opts = none →
          (mu_cmd_find env store opts).trace.filter Event.is_output_call = [])
      ∧ output_query_results_args sample_env sample_store_found (some sample_opts)
          = some (sample_results_loadable, sample_opts) := by
  refine ⟨get_output_func_of_valid, ?_, mu_cmd_find_no_output_call, by decide⟩
  intro env store opts qres myopts h
  obtain ⟨o, expr, r, _, _, _, _, hv, _, hx, hm, _, _, _⟩ :=
    output_query_results_args_some env store opts qres myopts h
  obtain ⟨func, hfunc⟩ := get_output_func_of_valid myopts hv hx hm
  obtain ⟨ret, hret, hsuffix, _, _⟩ :=
    mu_cmd_find_of_output_call env store opts qres myopts h
  refine ⟨func, ret, hfunc, ?_, hret, hsuffix⟩
  simp [output_query_results, hfunc, call_output_func]

/-! ## Theorems: `output_query_results` as called by `mu_cmd_find` -/

/-- C25: whenever `mu_cmd_find` comes to call `output_query_results`, which is the
only way the function is called, there is an output function for the options and
`output_query_results` calls it once for the header, then on the messages of the
results that are not skipped, in sequence order and up to and including the first
call that fails, then once for the footer; only the final per-message call can be one
that failed; and it returns false exactly when a per-message call failed, so true
when every result was skipped. -/
theorem output_query_results_calls (env : Env) (store : Store) (given : Option MuConfig)
    (qres : QueryResults) (opts : MuConfig)
    (hcalled : output_query_results_args env store given = some (qres, opts)) :
    ∃ func, get_output_func opts = some func
      ∧ (output_query_results env qres opts).trace.filter Event.is_output_call
        = Event.output func none FirstOutput
          :: ((made_outputs env func opts qres).map (fun c => Event.output func (some c.1) c.2)
            ++ [Event.output func none LastOutput])
      ∧ ((made_outputs env func opts qres).map (fun c => (some c.1, c.2.docid))).Sublist
          (qres.map (fun item => (item.floating_msg, item.doc_id)))
      ∧ (∀ c ∈ (made_outputs env func opts qres).dropLast,
          output_fails env func opts c = false)
      ∧ ((output_query_results env qres opts).val = false
          ↔ ∃ c ∈ made_outputs env func opts qres, output_fails env func opts c = true)
      ∧ (wanted_outputs opts qres.length 1 qres = [] →
          (output_query_results env qres opts).val = true) := by
  obtain ⟨o, expr, r, _, _, _, _, hv, _, hx, hm, _, _, _⟩ :=
    output_query_results_args_some env store given qres opts hcalled
  obtain ⟨func, hfunc⟩ := get_output_func_of_valid opts hv hx hm
  exact ⟨func, hfunc, output_query_results_calls_of_func env qres opts func hfunc⟩

/-- Witness of C25: `mu find hello --format=links --linksdir=/tmp/l` on a store that
finds two messages, in an environment where linking fails. The call on the first
message fails, no call is made on the second, the header and the footer call are
made all the same, and the result is false. -/
theorem output_query_results_calls_witness :
    output_query_results_args sample_env_link_fails sample_store_found
        (some sample_opts_links) = some (sample_results_loadable, sample_opts_links)
      ∧ (output_query_results sample_env_link_fails sample_results_loadable
            sample_opts_links).trace.filter Event.is_output_call
          = [Event.output .output_link none FirstOutput,
             Event.output .output_link (some sample_msg)
               ⟨1, false, false, false, some sample_match⟩,
             Event.output .output_link none LastOutput]
      ∧ (output_query_results sample_env_link_fails sample_results_loadable
            sample_opts_links).val = false
      ∧ ∃ func, get_output_func sample_opts_links = some func
          ∧ ((output_query_results sample_env_link_fails sample_results_loadable
                sample_opts_links).val = false
              ↔ ∃ c ∈ made_outputs sample_env_link_fails func sample_opts_links
                  sample_results_loadable,
                output_fails sample_env_link_fails func sample_opts_links c = true) :=
  ⟨by decide, by decide, by decide,
    (output_query_results_calls sample_env_link_fails sample_store_found
      (some sample_opts_links) sample_results_loadable sample_opts_links (by decide)).imp
      (fun _ h => ⟨h.1, h.2.2.2.2.1⟩)⟩

end Mu
